import Mathlib

/-!
# DMalloc: a shallow embedding of `src/src/dmemory.c`

The allocator keeps one doubly linked list of block headers (`block_t`) that
live inside the memory handed out by the program break (`sbrk`/`brk`, the
`linux` branch of the source).  The embedding keeps the pointer structure of
the source:

* an address is a natural number, `NULL` is `0`;
* header memory is a total map from addresses to `block_t` records, and every
  assignment `p->field = v` of the source is one field update of that map,
  in the order of the source;
* `int_t` (`long long`) values are integers; where the source computes in
  `unsigned long` (every expression that mentions `sizeof(block_t)`) the
  result is reduced modulo `2^64` (`toU64`) and, when stored back into an
  `int_t`, read as a two's complement number (`toI64`);
* a payload pointer is the header address plus `headerSize`, and `_free` goes
  back by subtracting `headerSize`;
* the program break is a pair `curbrk`/`limit` with a log of the calls made
  to the provider: `sbrk` fails when the new break would leave `[0, limit]`,
  `brk` when the address is above `limit`;
* the two loops (`while (block)` in `_malloc`, `while (blocks->next)` in
  `flush`) take a fuel argument and return `none` when it runs out.
-/

namespace DMalloc

/-! ## Machine integers -/

/-- Value of `sizeof(block_t)` under the LP64 layout of the `linux` branch:
two `long long`, one `char` padded to 8 bytes and two pointers. -/
def headerSize : Nat := 40

/-- Constant `CHUNK` of the source (`#define CHUNK 10`). -/
def CHUNK : Int := 10

/-- Conversion of an integer to `unsigned long` (reduction modulo `2^64`). -/
@[irreducible] def toU64 (x : Int) : Nat := (x % 2 ^ 64).toNat

/-- Conversion of an integer to `long long` (two's complement, 64 bits). -/
@[irreducible] def toI64 (x : Int) : Int := (x + 2 ^ 63) % 2 ^ 64 - 2 ^ 63

/-! ## Block headers and header memory -/

/-- Record `block_t` of the source. `free` is the truth value of the `char`
field (the source stores only `0` and `1` in it). -/
structure block_t where
  size : Int
  elemSize : Int
  free : Bool
  next : Nat
  prev : Nat
deriving DecidableEq, Repr, Inhabited

/-- Header memory: the `block_t` stored at each address. -/
abbrev Mem := Nat → block_t

/-- Assignment `p->size = v`. -/
def setSize (m : Mem) (p : Nat) (v : Int) : Mem :=
  fun a => if a = p then { m p with size := v } else m a

/-- Assignment `p->elemSize = v`. -/
def setElemSize (m : Mem) (p : Nat) (v : Int) : Mem :=
  fun a => if a = p then { m p with elemSize := v } else m a

/-- Assignment `p->free = v`. -/
def setFree (m : Mem) (p : Nat) (v : Bool) : Mem :=
  fun a => if a = p then { m p with free := v } else m a

/-- Assignment `p->next = v`. -/
def setNext (m : Mem) (p : Nat) (v : Nat) : Mem :=
  fun a => if a = p then { m p with next := v } else m a

/-- Assignment `p->prev = v`. -/
def setPrev (m : Mem) (p : Nat) (v : Nat) : Mem :=
  fun a => if a = p then { m p with prev := v } else m a

/-! ## Allocator state and the platform provider -/

/-- One call made to the platform provider. -/
inductive Call where
  | sbrk (incr : Int)
  | brk (addr : Nat)
deriving DecidableEq, Repr

/-- Allocator state: header memory, the globals `blocks` and `memFree`, the
program break with the highest break the system grants, and the log of
provider calls. -/
structure State where
  mem : Mem
  blocks : Nat
  memFree : Int
  curbrk : Nat
  limit : Nat
  trace : List Call

/-- Value `(void*)-1` returned by a failing `sbrk`. -/
def sbrkFailed : Nat := 2 ^ 64 - 1

/-- Library call `sbrk(incr)`: moves the break by `incr` bytes and returns the
old break; on failure the break stays and `(void*)-1` is returned. -/
def sbrk (st : State) (incr : Int) : Nat × State :=
  (if 0 ≤ (st.curbrk : Int) + incr ∧ (st.curbrk : Int) + incr ≤ (st.limit : Int)
     then st.curbrk else sbrkFailed,
   { st with
       curbrk := if 0 ≤ (st.curbrk : Int) + incr ∧ (st.curbrk : Int) + incr ≤ (st.limit : Int)
         then ((st.curbrk : Int) + incr).toNat else st.curbrk,
       trace := st.trace ++ [Call.sbrk incr] })

/-- Library call `brk(addr)`: sets the break to `addr` when the system allows
that address; the source ignores the result. -/
def brk (st : State) (addr : Nat) : State :=
  { st with
      curbrk := if addr ≤ st.limit then addr else st.curbrk,
      trace := st.trace ++ [Call.brk addr] }

/-! ## `split` and `mergeNext` -/

/-- Function `split(block, size)` of the source (lines 78-90). The guard
compares the `long long` difference with the `unsigned long` value
`sizeof(block_t)`, hence in `unsigned long`. -/
def split (m : Mem) (block : Nat) (size : Int) : Mem :=
  if toU64 ((m block).size - size) < headerSize then m
  else
    let newBlock : Nat := toU64 ((block : Int) + headerSize + size)
    let m := setSize m newBlock (toI64 ((m block).size - (size + headerSize)))
    let m := setElemSize m newBlock (m block).elemSize
    let m := setFree m newBlock true
    let m := setPrev m newBlock block
    let m := setNext m newBlock (m block).next
    let m := setNext m block newBlock
    setSize m block size

/-- Function `mergeNext(block)` of the source (lines 115-124); the second
component is the returned pointer. -/
def mergeNext (m : Mem) (block : Nat) : Mem × Nat :=
  if (m block).next = 0 then (m, block)
  else
    let m := setSize m block
      (toI64 ((m block).size + ((headerSize : Int) + (m (m block).next).size)))
    let m := setNext m block (m (m block).next).next
    let m := if (m block).next ≠ 0 then setPrev m (m block).next block else m
    (m, block)

/-! ## `_malloc` -/

/-- Outcome of the search loop of `_malloc`: the block it returns from, or
the value of `prev` when the loop ends with `block == NULL`. -/
inductive Scan where
  | hit (block : Nat)
  | miss (prev : Nat)
deriving DecidableEq, Repr

/-- Loop `while (block)` of `_malloc` (lines 159-170), started with the current
values of `block` and `prev`. -/
def scan (m : Mem) (size elemSize : Int) : Nat → Nat → Nat → Option Scan
  | 0, _, _ => none
  | fuel + 1, block, prev =>
    if block = 0 then some (Scan.miss prev)
    else if (m block).size ≥ size ∧ (m block).free = true ∧ (m block).elemSize = elemSize then
      some (Scan.hit block)
    else scan m size elemSize fuel (m block).next block

/-- Byte count `(sizeof(block_t) + elemSize) * (size / elemSize * CHUNK)` of the
source: an `unsigned long` value, kept as an integer between `0` and `2^64`. -/
def requestBytes (size elemSize : Int) : Int :=
  (((headerSize : Int) + elemSize) * (Int.tdiv size elemSize * CHUNK)) % 2 ^ 64

/-- Function `_malloc(size, elemSize)` of the source (lines 154-204), `linux`
branch. The result is the returned pointer (`0` for `NULL`) and the new
state, or `none` when the search loop runs out of fuel. -/
def _malloc (fuel : Nat) (st : State) (size elemSize : Int) : Option (Nat × State) :=
  match scan st.mem size elemSize fuel st.blocks 0 with
  | none => none
  | some (Scan.hit block) =>
    let m := split st.mem block size
    let m := setFree m block false
    some (block + headerSize, { st with mem := m })
  | some (Scan.miss prev) =>
    let r := sbrk st 0
    let block := r.1
    let st := (sbrk r.2 (toI64 (requestBytes size elemSize))).2
    if block = sbrkFailed then some (0, st)
    else
      let m := setNext st.mem block 0
      let m := setPrev m block prev
      let m := setSize m block (toI64 (requestBytes size elemSize - headerSize))
      let m := setElemSize m block elemSize
      let m := setFree m block false
      let m := split m block size
      let blocks := if st.blocks = 0 then block else st.blocks
      let m := if prev ≠ 0 then setNext m prev block else m
      some (block + headerSize, { st with mem := m, blocks := blocks })

/-! ## `_free`, `toggleMemFree`, `flush` -/

/-- Coalescing part of `_free` (lines 240-260): the merges performed on the
block just marked free, under the policy selected by `memFree`. Returns the
memory and the value of `block` afterwards. -/
def coalesce (memFree : Int) (m : Mem) (block : Nat) : Mem × Nat :=
  if memFree ≠ 0 then
    let r := if (m block).prev ≠ 0 ∧ (m (m block).prev).free = true
      then mergeNext m (m block).prev else (m, block)
    if (r.1 r.2).next ≠ 0 ∧ (r.1 (r.1 r.2).next).free = true
      then mergeNext r.1 r.2 else r
  else
    let r := if (m block).prev ≠ 0 ∧ (m (m block).prev).free = true ∧
        (m (m block).prev).elemSize = (m block).elemSize
      then mergeNext m (m block).prev else (m, block)
    if (r.1 r.2).next ≠ 0 ∧ (r.1 (r.1 r.2).next).free = true ∧
        (r.1 (r.1 r.2).next).elemSize = (r.1 r.2).elemSize
      then mergeNext r.1 r.2 else r

/-- Function `_free(memptr)` of the source (lines 231-284), `linux` branch. -/
def _free (st : State) (memptr : Nat) : State :=
  if memptr = 0 then st
  else
    let block := memptr - headerSize
    if (st.mem block).free = true then st
    else
      let r := coalesce st.memFree (setFree st.mem block true) block
      let m := r.1
      let block := r.2
      if (m block).next = 0 ∧ st.memFree ≠ 0 then
        if (m block).prev ≠ 0 then
          brk { st with mem := setNext m (m block).prev 0 } block
        else
          brk { st with mem := m, blocks := 0 } block
      else { st with mem := m }

/-- Function `toggleMemFree(value)` of the source (lines 295-298). -/
def toggleMemFree (st : State) (value : Int) : State :=
  { st with memFree := value }

/-- Loop `while (blocks->next) blocks = mergeNext(blocks);` of `flush`. -/
def flushLoop : Nat → Mem → Nat → Option (Mem × Nat)
  | 0, _, _ => none
  | fuel + 1, m, blocks =>
    if (m blocks).next ≠ 0 then flushLoop fuel (mergeNext m blocks).1 (mergeNext m blocks).2
    else some (m, blocks)

/-- Function `flush()` of the source (lines 315-329), `linux` branch; `none`
when the merging loop runs out of fuel. -/
def flush (fuel : Nat) (st : State) : Option State :=
  if st.blocks = 0 ∨ st.memFree ≠ 0 then some st
  else
    match flushLoop fuel st.mem st.blocks with
    | none => none
    | some r => some { brk { st with mem := r.1, blocks := r.2 } r.2 with blocks := 0 }

/-! ## List view of the header memory -/

/-- Predicate `Chain m l q`: the blocks at the addresses `l` are linked through
`next` in this order, none of them is `NULL`, and the last one points to `q`. -/
def Chain (m : Mem) : List Nat → Nat → Prop
  | [], _ => True
  | a :: l, q => a ≠ 0 ∧ (m a).next = l.headD q ∧ Chain m l q

instance instDecidableChain (m : Mem) : ∀ (l : List Nat) (q : Nat), Decidable (Chain m l q)
  | [], _ => isTrue trivial
  | a :: l, q =>
    have := instDecidableChain m l q
    inferInstanceAs (Decidable (a ≠ 0 ∧ (m a).next = l.headD q ∧ Chain m l q))

/-- Predicate `Prevs m p l`: the first block of `l` has `prev = p` and every
later block has the block before it as `prev`. -/
def Prevs (m : Mem) : Nat → List Nat → Prop
  | _, [] => True
  | p, a :: l => (m a).prev = p ∧ Prevs m a l

instance instDecidablePrevs (m : Mem) : ∀ (p : Nat) (l : List Nat), Decidable (Prevs m p l)
  | _, [] => isTrue trivial
  | p, a :: l =>
    have := instDecidablePrevs m a l
    inferInstanceAs (Decidable ((m a).prev = p ∧ Prevs m a l))

/-- Well-formed list: `l` lists the blocks reached from `head` through `next`
up to `NULL`, and each block has its list predecessor as `prev` (`NULL` for the
head). -/
def WF (m : Mem) (head : Nat) (l : List Nat) : Prop :=
  head = l.headD 0 ∧ Chain m l 0 ∧ Prevs m 0 l

instance instDecidableWF (m : Mem) (head : Nat) (l : List Nat) : Decidable (WF m head l) :=
  inferInstanceAs (Decidable (head = l.headD 0 ∧ Chain m l 0 ∧ Prevs m 0 l))

/-- Range of the type `int_t` (`long long`). -/
def I64 (x : Int) : Prop := -(2 ^ 63) ≤ x ∧ x < 2 ^ 63

instance instDecidableI64 (x : Int) : Decidable (I64 x) :=
  inferInstanceAs (Decidable (-(2 ^ 63) ≤ x ∧ x < 2 ^ 63))

/-- Total of `headerSize + size` over the blocks `l`. -/
def listBytes (m : Mem) (l : List Nat) : Int :=
  (l.map fun a => (headerSize : Int) + (m a).size).sum

/-- Test of the search loop of `_malloc`: the block at `a` is large enough,
free and tagged `elemSize`. -/
def Fits (m : Mem) (size elemSize : Int) (a : Nat) : Prop :=
  (m a).size ≥ size ∧ (m a).free = true ∧ (m a).elemSize = elemSize

instance instDecidableFits (m : Mem) (size elemSize : Int) (a : Nat) :
    Decidable (Fits m size elemSize a) :=
  inferInstanceAs (Decidable ((m a).size ≥ size ∧ (m a).free = true ∧ (m a).elemSize = elemSize))

/-- Predicate `Ascending m l top`: the blocks of `l` have non-negative sizes, each
one ends (header and payload) at or below the start of the next one, and the
last one ends at or below `top`. -/
def Ascending (m : Mem) : List Nat → Nat → Prop
  | [], _ => True
  | a :: l, top => 0 ≤ (m a).size ∧
      (a : Int) + headerSize + (m a).size ≤ ((l.headD top : Nat) : Int) ∧ Ascending m l top

instance instDecidableAscending (m : Mem) :
    ∀ (l : List Nat) (top : Nat), Decidable (Ascending m l top)
  | [], _ => isTrue trivial
  | a :: l, top =>
    have := instDecidableAscending m l top
    inferInstanceAs (Decidable (0 ≤ (m a).size ∧
      (a : Int) + headerSize + (m a).size ≤ ((l.headD top : Nat) : Int) ∧ Ascending m l top))

/-- Situation right after `_malloc(n, c)` has returned the payload of `b`: the
list starts with the blocks `pre`, none of which passes the test of the search
loop, followed by `b`, which is used, tagged `c` and at least `n` bytes large;
when `b` has a successor, that one has a non-negative size and the two sizes
plus one header fit in `int_t`. -/
def Served (st1 : State) (n c : Int) (fuel : Nat) (pre : List Nat) (b : Nat) : Prop :=
  b ≠ 0 ∧ b ∉ pre ∧ pre.length < fuel ∧ st1.blocks = pre.headD b ∧ Chain st1.mem pre b ∧
  (∀ a ∈ pre, ¬ Fits st1.mem n c a) ∧ (st1.mem b).free = false ∧ (st1.mem b).elemSize = c ∧
  n ≤ (st1.mem b).size ∧ -(2 ^ 63) ≤ n ∧
  ((st1.mem b).next ≠ 0 → 0 ≤ (st1.mem (st1.mem b).next).size ∧
    (st1.mem b).size + headerSize + (st1.mem (st1.mem b).next).size < 2 ^ 63)

/-! ## Names for the parts of `_malloc` and `_free` used in the statements -/

/-- Address of the header that `split(block, size)` creates:
`(char*)block + sizeof(block_t) + size`. -/
def newBlockAddr (block : Nat) (size : Int) : Nat := toU64 ((block : Int) + headerSize + size)

/-- Header memory after the miss path of `_malloc` (lines 190-199) has set up
the new block at `block` behind the old tail `prev`. -/
def freshMem (m : Mem) (block prev : Nat) (size elemSize : Int) : Mem :=
  let m := setNext m block 0
  let m := setPrev m block prev
  let m := setSize m block (toI64 (requestBytes size elemSize - headerSize))
  let m := setElemSize m block elemSize
  let m := setFree m block false
  let m := split m block size
  if prev ≠ 0 then setNext m prev block else m

/-- Test of `_free` before it merges `block` into its predecessor: the
predecessor exists and is free and, when `memFree` is `0`, has the same
`elemSize`. -/
def prevTest (f : Int) (m : Mem) (b : Nat) : Prop :=
  (m b).prev ≠ 0 ∧ (m (m b).prev).free = true ∧
    (f = 0 → (m (m b).prev).elemSize = (m b).elemSize)

instance instDecidablePrevTest (f : Int) (m : Mem) (b : Nat) : Decidable (prevTest f m b) :=
  inferInstanceAs (Decidable ((m b).prev ≠ 0 ∧ (m (m b).prev).free = true ∧
    (f = 0 → (m (m b).prev).elemSize = (m b).elemSize)))

/-- Test of `_free` before it merges the successor into `block`: the successor
exists and is free and, when `memFree` is `0`, has the same `elemSize`. -/
def nextTest (f : Int) (m : Mem) (s : Nat) : Prop :=
  (m s).next ≠ 0 ∧ (m (m s).next).free = true ∧
    (f = 0 → (m (m s).next).elemSize = (m s).elemSize)

/-- Merge test of `_free` read on the list: `b` has a predecessor (the last
block of `pre`) that is free and, when `f` is `0`, tagged like `b`. -/
def predMerges (f : Int) (m : Mem) (pre : List Nat) (b : Nat) : Prop :=
  pre ≠ [] ∧ (m (pre.getLastD 0)).free = true ∧
    (f = 0 → (m (pre.getLastD 0)).elemSize = (m b).elemSize)

/-- Merge test of `_free` read on the list: `b` has a successor (the first
block of `post`) that is free and, when `f` is `0`, tagged like `b`. -/
def succMerges (f : Int) (m : Mem) (post : List Nat) (b : Nat) : Prop :=
  post ≠ [] ∧ (m (post.headD 0)).free = true ∧
    (f = 0 → (m (post.headD 0)).elemSize = (m b).elemSize)

/-- Second half of `coalesce`: the merge with the successor. -/
def coalesceNext (f : Int) (m : Mem) (s : Nat) : Mem × Nat :=
  if f ≠ 0 then
    if (m s).next ≠ 0 ∧ (m (m s).next).free = true then mergeNext m s else (m, s)
  else
    if (m s).next ≠ 0 ∧ (m (m s).next).free = true ∧
        (m (m s).next).elemSize = (m s).elemSize
      then mergeNext m s else (m, s)

/-! ## Concrete states -/

/-- State of the program at start-up (`blocks = NULL`, `memFree = 1`) with the
break at `b` and `lim` the highest break the system grants. -/
def initState (b lim : Nat) : State :=
  { mem := fun _ => default, blocks := 0, memFree := 1, curbrk := b, limit := lim, trace := [] }

/-- Header memory holding a used block of size 100 at address 1000 followed by
a free block of size 1220 at address 1140, both tagged 100. -/
def mem2 : Mem := fun a =>
  if a = 1000 then { size := 100, elemSize := 100, free := false, next := 1140, prev := 0 }
  else if a = 1140 then { size := 1220, elemSize := 100, free := true, next := 0, prev := 1000 }
  else default

/-- State with the two blocks of `mem2`, in free mode. -/
def state2 : State :=
  { mem := mem2, blocks := 1000, memFree := 1, curbrk := 2400, limit := 1000000, trace := [] }

/-- Header memory holding two used blocks: size 100 tagged 100 at address 1000
and size 1220 tagged 20 at address 1140. -/
def mem3 : Mem := fun a =>
  if a = 1000 then { size := 100, elemSize := 100, free := false, next := 1140, prev := 0 }
  else if a = 1140 then { size := 1220, elemSize := 20, free := false, next := 0, prev := 1000 }
  else default

/-- State with the two used blocks of `mem3`, in free mode. -/
def state3 : State :=
  { mem := mem3, blocks := 1000, memFree := 1, curbrk := 2400, limit := 1000000, trace := [] }

/-- Start-up state switched to deferred mode (`toggleMemFree(0)`), break at 1000. -/
def deferredInit : State := toggleMemFree (initState 1000 1000000) 0

/-- Pointer and state returned by `_malloc(100, 100)` on `deferredInit`. -/
def servedOnce : Nat × State := (_malloc 1 deferredInit 100 100).getD (0, deferredInit)

/-- Call sequence `p1 = _malloc(100,10); p2 = _malloc(4820,10); _free(p1);
p3 = _malloc(10,10); p4 = _malloc(50,10); _free(p3); _free(p2)` run from the
start-up state; `p4` is never passed to `_free`. Returns the four pointers and
the state reached. -/
def staleRun : Option (List Nat × State) :=
  (_malloc 9 (initState 1000 1000000) 100 10).bind fun r1 =>
  (_malloc 9 r1.2 4820 10).bind fun r2 =>
  (_malloc 9 (_free r2.2 r1.1) 10 10).bind fun r3 =>
  (_malloc 9 r3.2 50 10).bind fun r4 =>
  some ([r1.1, r2.1, r3.1, r4.1], _free (_free r4.2 r3.1) r2.1)

/-- What a test can observe of a call's outcome: the returned pointer, the head
of the list, the break, the provider log and the headers at chosen addresses. -/
structure Snapshot where
  ret : Nat
  blocks : Nat
  curbrk : Nat
  trace : List Call
  headers : List block_t
deriving DecidableEq, Repr

/-- Snapshot of a returned pointer and state at the addresses `addrs`. -/
def snapshot (addrs : List Nat) (r : Nat × State) : Snapshot :=
  { ret := r.1, blocks := r.2.blocks, curbrk := r.2.curbrk, trace := r.2.trace,
    headers := addrs.map r.2.mem }


/-! ## Concrete states for `split`, `mergeNext` and the pair of frees -/

/-- Header memory holding three used blocks in address order: size 100 tagged 4
at 1000, size 200 tagged 8 at 1140 and size 60 tagged 4 at 1380. -/
def mem4 : Mem := fun a =>
  if a = 1000 then { size := 100, elemSize := 4, free := false, next := 1140, prev := 0 }
  else if a = 1140 then { size := 200, elemSize := 8, free := false, next := 1380, prev := 1000 }
  else if a = 1380 then { size := 60, elemSize := 4, free := false, next := 0, prev := 1140 }
  else default

/-- State with the three used blocks of `mem4`, in free mode, break at 1480. -/
def state4 : State :=
  { mem := mem4, blocks := 1000, memFree := 1, curbrk := 1480, limit := 1000000, trace := [] }

/-- State reached from `state4` by `_free` of the block at 1000 and then of the
block at 1140. -/
def pairFreed : State := _free (_free state4 (1000 + headerSize)) (1140 + headerSize)

/-- Call sequence `p1 = _malloc(100,10); p2 = _malloc(4820,10); _free(p1);
p3 = _malloc(10,10)` run from the start-up state. Returns the three pointers
and the state reached. -/
def splitRun : Option (List Nat × State) :=
  (_malloc 9 (initState 1000 1000000) 100 10).bind fun r1 =>
  (_malloc 9 r1.2 4820 10).bind fun r2 =>
  (_malloc 9 (_free r2.2 r1.1) 10 10).bind fun r3 =>
  some ([r1.1, r2.1, r3.1], r3.2)

/-- Calls `_malloc(8, 8)` then `_malloc(8, 4)` from the start-up state with the
break at 1000 and a provider that refuses to move it. Returns the outcome of
each call. -/
def refusedRun : Option ((Nat × State) × (Nat × State)) :=
  (_malloc 9 (initState 1000 1000) 8 8).bind fun r1 =>
  (_malloc 9 r1.2 8 4).map fun r2 => (r1, r2)

/-- Calls `_malloc(1, 4)` then `_malloc(1, 8)` from the start-up state with the
break at 1000 and a provider that grants every request. Returns the outcome of
each call. -/
def zeroRun : Option ((Nat × State) × (Nat × State)) :=
  (_malloc 9 (initState 1000 1000000) 1 4).bind fun r1 =>
  (_malloc 9 r1.2 1 8).map fun r2 => (r1, r2)
/-! # Theorems -/

/-! ## Field updates of the header memory -/

@[simp] theorem setSize_size (m : Mem) (p : Nat) (v : Int) (a : Nat) :
    (setSize m p v a).size = if a = p then v else (m a).size := by
  unfold setSize; split <;> simp_all

@[simp] theorem setSize_elemSize (m : Mem) (p : Nat) (v : Int) (a : Nat) :
    (setSize m p v a).elemSize = (m a).elemSize := by
  unfold setSize; split <;> simp_all

@[simp] theorem setSize_free (m : Mem) (p : Nat) (v : Int) (a : Nat) :
    (setSize m p v a).free = (m a).free := by
  unfold setSize; split <;> simp_all

@[simp] theorem setSize_next (m : Mem) (p : Nat) (v : Int) (a : Nat) :
    (setSize m p v a).next = (m a).next := by
  unfold setSize; split <;> simp_all

@[simp] theorem setSize_prev (m : Mem) (p : Nat) (v : Int) (a : Nat) :
    (setSize m p v a).prev = (m a).prev := by
  unfold setSize; split <;> simp_all

@[simp] theorem setElemSize_size (m : Mem) (p : Nat) (v : Int) (a : Nat) :
    (setElemSize m p v a).size = (m a).size := by
  unfold setElemSize; split <;> simp_all

@[simp] theorem setElemSize_elemSize (m : Mem) (p : Nat) (v : Int) (a : Nat) :
    (setElemSize m p v a).elemSize = if a = p then v else (m a).elemSize := by
  unfold setElemSize; split <;> simp_all

@[simp] theorem setElemSize_free (m : Mem) (p : Nat) (v : Int) (a : Nat) :
    (setElemSize m p v a).free = (m a).free := by
  unfold setElemSize; split <;> simp_all

@[simp] theorem setElemSize_next (m : Mem) (p : Nat) (v : Int) (a : Nat) :
    (setElemSize m p v a).next = (m a).next := by
  unfold setElemSize; split <;> simp_all

@[simp] theorem setElemSize_prev (m : Mem) (p : Nat) (v : Int) (a : Nat) :
    (setElemSize m p v a).prev = (m a).prev := by
  unfold setElemSize; split <;> simp_all

@[simp] theorem setFree_size (m : Mem) (p : Nat) (v : Bool) (a : Nat) :
    (setFree m p v a).size = (m a).size := by
  unfold setFree; split <;> simp_all

@[simp] theorem setFree_elemSize (m : Mem) (p : Nat) (v : Bool) (a : Nat) :
    (setFree m p v a).elemSize = (m a).elemSize := by
  unfold setFree; split <;> simp_all

@[simp] theorem setFree_free (m : Mem) (p : Nat) (v : Bool) (a : Nat) :
    (setFree m p v a).free = if a = p then v else (m a).free := by
  unfold setFree; split <;> simp_all

@[simp] theorem setFree_next (m : Mem) (p : Nat) (v : Bool) (a : Nat) :
    (setFree m p v a).next = (m a).next := by
  unfold setFree; split <;> simp_all

@[simp] theorem setFree_prev (m : Mem) (p : Nat) (v : Bool) (a : Nat) :
    (setFree m p v a).prev = (m a).prev := by
  unfold setFree; split <;> simp_all

@[simp] theorem setNext_size (m : Mem) (p : Nat) (v : Nat) (a : Nat) :
    (setNext m p v a).size = (m a).size := by
  unfold setNext; split <;> simp_all

@[simp] theorem setNext_elemSize (m : Mem) (p : Nat) (v : Nat) (a : Nat) :
    (setNext m p v a).elemSize = (m a).elemSize := by
  unfold setNext; split <;> simp_all

@[simp] theorem setNext_free (m : Mem) (p : Nat) (v : Nat) (a : Nat) :
    (setNext m p v a).free = (m a).free := by
  unfold setNext; split <;> simp_all

@[simp] theorem setNext_next (m : Mem) (p : Nat) (v : Nat) (a : Nat) :
    (setNext m p v a).next = if a = p then v else (m a).next := by
  unfold setNext; split <;> simp_all

@[simp] theorem setNext_prev (m : Mem) (p : Nat) (v : Nat) (a : Nat) :
    (setNext m p v a).prev = (m a).prev := by
  unfold setNext; split <;> simp_all

@[simp] theorem setPrev_size (m : Mem) (p : Nat) (v : Nat) (a : Nat) :
    (setPrev m p v a).size = (m a).size := by
  unfold setPrev; split <;> simp_all

@[simp] theorem setPrev_elemSize (m : Mem) (p : Nat) (v : Nat) (a : Nat) :
    (setPrev m p v a).elemSize = (m a).elemSize := by
  unfold setPrev; split <;> simp_all

@[simp] theorem setPrev_free (m : Mem) (p : Nat) (v : Nat) (a : Nat) :
    (setPrev m p v a).free = (m a).free := by
  unfold setPrev; split <;> simp_all

@[simp] theorem setPrev_next (m : Mem) (p : Nat) (v : Nat) (a : Nat) :
    (setPrev m p v a).next = (m a).next := by
  unfold setPrev; split <;> simp_all

@[simp] theorem setPrev_prev (m : Mem) (p : Nat) (v : Nat) (a : Nat) :
    (setPrev m p v a).prev = if a = p then v else (m a).prev := by
  unfold setPrev; split <;> simp_all

/-! ## Two's complement arithmetic -/

theorem toI64_add_left (a b : Int) : toI64 (toI64 a + b) = toI64 (a + b) := by
  unfold toI64; omega

theorem toI64_of_I64 {x : Int} (h : I64 x) : toI64 x = x := by
  unfold I64 at h; unfold toI64; omega

theorem I64_toI64 (x : Int) : I64 (toI64 x) := by
  unfold I64 toI64; omega

/-! ## Chains -/

theorem Chain_congr {m m1 : Mem} {l : List Nat} {q : Nat}
    (h : ∀ a ∈ l, (m1 a).next = (m a).next) (hc : Chain m l q) : Chain m1 l q := by
  induction l with
  | nil => trivial
  | cons a l ih =>
    refine ⟨hc.1, ?_, ih (fun x hx => h x (List.mem_cons_of_mem _ hx)) hc.2.2⟩
    rw [h a (List.mem_cons_self _ _)]
    exact hc.2.1

theorem Prevs_congr {m m1 : Mem} {l : List Nat} {p : Nat}
    (h : ∀ a ∈ l, (m1 a).prev = (m a).prev) (hc : Prevs m p l) : Prevs m1 p l := by
  induction l generalizing p with
  | nil => trivial
  | cons a l ih =>
    refine ⟨?_, ih (fun x hx => h x (List.mem_cons_of_mem _ hx)) hc.2⟩
    rw [h a (List.mem_cons_self _ _)]
    exact hc.1

theorem Chain_append {m : Mem} {l1 l2 : List Nat} {q : Nat} :
    Chain m (l1 ++ l2) q ↔ Chain m l1 (l2.headD q) ∧ Chain m l2 q := by
  induction l1 with
  | nil => exact ⟨fun h => ⟨trivial, h⟩, fun h => h.2⟩
  | cons a l ih =>
    have hh : (l ++ l2).headD q = l.headD (l2.headD q) := by cases l <;> rfl
    constructor
    · intro h
      have h3 := ih.1 h.2.2
      exact ⟨⟨h.1, h.2.1.trans hh, h3.1⟩, h3.2⟩
    · intro h
      exact ⟨h.1.1, h.1.2.1.trans hh.symm, ih.2 ⟨h.1.2.2, h.2⟩⟩

theorem Prevs_append {m : Mem} {l1 l2 : List Nat} {p : Nat} :
    Prevs m p (l1 ++ l2) ↔ Prevs m p l1 ∧ Prevs m (l1.getLastD p) l2 := by
  induction l1 generalizing p with
  | nil => exact ⟨fun h => ⟨trivial, h⟩, fun h => h.2⟩
  | cons a l ih =>
    have hh : (a :: l).getLastD p = l.getLastD a := by cases l <;> rfl
    rw [hh]
    constructor
    · intro h
      have h3 := ih.1 h.2
      exact ⟨⟨h.1, h3.1⟩, h3.2⟩
    · intro h
      exact ⟨h.1.1, ih.2 ⟨h.1.2, h.2⟩⟩

theorem Chain.ne_zero {m : Mem} {l : List Nat} {q a : Nat} (hc : Chain m l q) (ha : a ∈ l) :
    a ≠ 0 := by
  induction l with
  | nil => simp at ha
  | cons b l ih =>
    rcases List.mem_cons.1 ha with rfl | h
    · exact hc.1
    · exact ih hc.2.2 h

theorem Chain_unique {m : Mem} : ∀ (l1 l2 : List Nat), Chain m l1 0 → Chain m l2 0 →
    l1.headD 0 = l2.headD 0 → l1 = l2 := by
  intro l1
  induction l1 with
  | nil =>
    intro l2 _ h2 hh
    cases l2 with
    | nil => rfl
    | cons b l2 => exact absurd hh.symm h2.1
  | cons a l1 ih =>
    intro l2 h1 h2 hh
    cases l2 with
    | nil => exact absurd hh h1.1
    | cons b l2 =>
      have hab : a = b := hh
      subst hab
      have := ih l2 h1.2.2 h2.2.2 (by rw [← h1.2.1, ← h2.2.1])
      rw [this]

theorem Chain.nodup {m : Mem} : ∀ {l : List Nat}, Chain m l 0 → l.Nodup := by
  intro l
  induction l with
  | nil => intro _; exact List.nodup_nil
  | cons a l ih =>
    intro hc
    refine List.nodup_cons.2 ⟨?_, ih hc.2.2⟩
    intro ha
    obtain ⟨x, y, hxy⟩ := List.append_of_mem ha
    have hsuf : Chain m (a :: y) 0 := by
      have h2 := hc.2.2
      rw [hxy] at h2
      exact (Chain_append.1 h2).2
    have heq := Chain_unique (a :: y) (a :: l) hsuf hc rfl
    have hlen := congrArg List.length heq
    rw [hxy] at hlen
    simp at hlen
    omega

/-! ## `mergeNext` field by field -/

theorem mergeNext_snd (m : Mem) (x : Nat) : (mergeNext m x).2 = x := by
  unfold mergeNext; split <;> rfl

theorem mergeNext_of_no_next {m : Mem} {x : Nat} (h : (m x).next = 0) :
    mergeNext m x = (m, x) := by
  unfold mergeNext; rw [if_pos h]

theorem mergeNext_elemSize (m : Mem) (x a : Nat) :
    ((mergeNext m x).1 a).elemSize = (m a).elemSize := by
  unfold mergeNext
  by_cases h : (m x).next = 0
  · rw [if_pos h]
  · rw [if_neg h]
    dsimp only
    split <;> simp

theorem mergeNext_size {m : Mem} {x : Nat} (h : (m x).next ≠ 0) (a : Nat) :
    ((mergeNext m x).1 a).size =
      if a = x then toI64 ((m x).size + ((headerSize : Int) + (m (m x).next).size))
      else (m a).size := by
  unfold mergeNext
  rw [if_neg h]
  dsimp only
  split <;> simp

theorem mergeNext_next {m : Mem} {x : Nat} (h : (m x).next ≠ 0) (a : Nat) :
    ((mergeNext m x).1 a).next = if a = x then (m (m x).next).next else (m a).next := by
  unfold mergeNext
  rw [if_neg h]
  dsimp only
  split <;> simp

theorem mergeNext_prev {m : Mem} {x : Nat} (h : (m x).next ≠ 0) (a : Nat) :
    ((mergeNext m x).1 a).prev =
      if a = (m (m x).next).next ∧ a ≠ 0 then x else (m a).prev := by
  unfold mergeNext
  rw [if_neg h]
  dsimp only
  by_cases hnn : (m (m x).next).next = 0
  · simp [hnn]
  · simp [hnn]
    by_cases ha : a = (m (m x).next).next
    · simp [ha, hnn]
    · simp [ha]

theorem mergeNext_free (m : Mem) (x a : Nat) : ((mergeNext m x).1 a).free = (m a).free := by
  unfold mergeNext
  by_cases h : (m x).next = 0
  · rw [if_pos h]
  · rw [if_neg h]
    dsimp only
    split <;> simp

theorem coalesce_free (f : Int) (m : Mem) (x a : Nat) :
    ((coalesce f m x).1 a).free = (m a).free := by
  unfold coalesce
  dsimp only
  split
  · split <;> split <;> simp [mergeNext_free]
  · split <;> split <;> simp [mergeNext_free]

/-! ## Well-formed lists under `mergeNext` and `coalesce` -/

theorem headD_append_cons (l1 : List Nat) (x : Nat) (l2 : List Nat) (q : Nat) :
    (l1 ++ x :: l2).headD q = l1.headD x := by
  cases l1 <;> rfl

theorem headD_mem_or {l : List Nat} (q : Nat) : l.headD q = q ∨ l.headD q ∈ l := by
  cases l with
  | nil => left; rfl
  | cons a l => right; exact List.mem_cons_self _ _

/-- Facts read off a well-formed list around one of its blocks. -/
theorem WF_at {m : Mem} {head : Nat} {pre post : List Nat} {b : Nat}
    (h : WF m head (pre ++ b :: post)) :
    b ≠ 0 ∧ (m b).next = post.headD 0 ∧ (m b).prev = pre.getLastD 0 ∧
    Chain m pre b ∧ Chain m post 0 ∧ Prevs m 0 pre ∧ Prevs m b post ∧
    (pre ++ b :: post).Nodup := by
  obtain ⟨_, hc, hp⟩ := h
  have hnd := Chain.nodup hc
  have hc2 := Chain_append.1 hc
  have hp2 := Prevs_append.1 hp
  exact ⟨hc2.2.1, hc2.2.2.1, hp2.2.1, hc2.1, hc2.2.2.2, hp2.1, hp2.2.2, hnd⟩

theorem WF_mergeNext {m : Mem} {head : Nat} {l1 l2 : List Nat} {x n : Nat}
    (h : WF m head (l1 ++ x :: n :: l2)) : WF (mergeNext m x).1 head (l1 ++ x :: l2) := by
  obtain ⟨hx0, hxn, hxp, hc1, hc2, hp1, hp2, hnd⟩ := WF_at h
  have hn0 : (m x).next ≠ 0 := by rw [hxn]; exact hc2.1
  have hxn1 : (m x).next = n := hxn
  have hnn : (m n).next = l2.headD 0 := hc2.2.1
  -- distinctness
  have hnd1 : ∀ a ∈ l1, a ≠ x := by
    intro a ha e
    subst e
    exact (List.nodup_append.1 hnd).2.2 ha (List.mem_cons_self _ _) 
  have hnd2 : ∀ a ∈ l2, a ≠ x := by
    intro a ha e
    subst e
    have := (List.nodup_append.1 hnd).2.1
    exact (List.nodup_cons.1 this).1 (List.mem_cons_of_mem _ ha)
  have hl2nd : l2.Nodup := by
    have := (List.nodup_append.1 hnd).2.1
    exact (List.nodup_cons.1 (List.nodup_cons.1 this).2).2
  have hnd12 : ∀ a ∈ l1, a ∉ l2 := by
    intro a ha ha2
    exact (List.nodup_append.1 hnd).2.2 ha
      (List.mem_cons_of_mem _ (List.mem_cons_of_mem _ ha2)) 
  have hl2z : ∀ a ∈ l2, a ≠ 0 := fun a ha => Chain.ne_zero hc2.2.2 ha
  refine ⟨?_, ?_, ?_⟩
  · rw [h.1, headD_append_cons, headD_append_cons]
  · refine Chain_append.2 ⟨?_, hx0, ?_, ?_⟩
    · refine Chain_congr ?_ hc1
      intro a ha
      rw [mergeNext_next hn0, if_neg (hnd1 a ha)]
    · rw [mergeNext_next hn0, if_pos rfl, hxn1, hnn]
    · refine Chain_congr ?_ hc2.2.2
      intro a ha
      rw [mergeNext_next hn0, if_neg (hnd2 a ha)]
  · refine Prevs_append.2 ⟨?_, ?_, ?_⟩
    · refine Prevs_congr ?_ hp1
      intro a ha
      rw [mergeNext_prev hn0, hxn1, hnn, if_neg]
      rintro ⟨e, _⟩
      rcases headD_mem_or (l := l2) 0 with h0 | hm
      · rw [h0] at e; exact Chain.ne_zero hc1 ha e
      · rw [← e] at hm; exact hnd12 a ha hm
    · rw [mergeNext_prev hn0, hxn1, hnn, if_neg]
      · exact hxp
      · rintro ⟨e, _⟩
        rcases headD_mem_or (l := l2) 0 with h0 | hm
        · rw [h0] at e; exact hx0 e
        · rw [← e] at hm; exact hnd2 x hm rfl
    · cases l2 with
      | nil => trivial
      | cons c l3 =>
        refine ⟨?_, ?_⟩
        · rw [mergeNext_prev hn0, hxn1, hnn, if_pos]
          exact ⟨rfl, hl2z c (List.mem_cons_self _ _)⟩
        · refine Prevs_congr ?_ hp2.2.2
          intro a ha
          rw [mergeNext_prev hn0, hxn1, hnn, if_neg]
          rintro ⟨e, _⟩
          have : a = c := e
          subst this
          exact (List.nodup_cons.1 hl2nd).1 ha


theorem coalesceNext_pos {f : Int} {m : Mem} {s : Nat} (h : nextTest f m s) :
    coalesceNext f m s = mergeNext m s := by
  unfold coalesceNext
  unfold nextTest at h
  by_cases hf : f = 0
  · rw [if_neg (not_not.2 hf), if_pos ⟨h.1, h.2.1, h.2.2 hf⟩]
  · rw [if_pos hf, if_pos ⟨h.1, h.2.1⟩]

theorem coalesceNext_neg {f : Int} {m : Mem} {s : Nat} (h : ¬ nextTest f m s) :
    coalesceNext f m s = (m, s) := by
  unfold coalesceNext
  unfold nextTest at h
  by_cases hf : f = 0
  · rw [if_neg (not_not.2 hf), if_neg (fun hh => h ⟨hh.1, hh.2.1, fun _ => hh.2.2⟩)]
  · rw [if_pos hf, if_neg (fun hh => h ⟨hh.1, hh.2, fun e => absurd e hf⟩)]

theorem coalesce_prev_pos {f : Int} {m : Mem} {b : Nat} (h : prevTest f m b) :
    coalesce f m b = coalesceNext f (mergeNext m (m b).prev).1 (m b).prev := by
  unfold coalesce coalesceNext
  unfold prevTest at h
  by_cases hf : f = 0
  · have h1 : (m b).prev ≠ 0 ∧ (m (m b).prev).free = true ∧
        (m (m b).prev).elemSize = (m b).elemSize := ⟨h.1, h.2.1, h.2.2 hf⟩
    rw [if_neg (not_not.2 hf), if_neg (not_not.2 hf)]
    simp only [if_pos h1, mergeNext_snd]
    by_cases hc : ((mergeNext m (m b).prev).1 (m b).prev).next ≠ 0 ∧
      ((mergeNext m (m b).prev).1 ((mergeNext m (m b).prev).1 (m b).prev).next).free = true ∧
      ((mergeNext m (m b).prev).1 ((mergeNext m (m b).prev).1 (m b).prev).next).elemSize =
        ((mergeNext m (m b).prev).1 (m b).prev).elemSize
    · rw [if_pos hc, if_pos hc]
    · rw [if_neg hc, if_neg hc]
      exact Prod.ext rfl (mergeNext_snd _ _)
  · have h1 : (m b).prev ≠ 0 ∧ (m (m b).prev).free = true := ⟨h.1, h.2.1⟩
    rw [if_pos hf, if_pos hf]
    simp only [if_pos h1, mergeNext_snd]
    by_cases hc : ((mergeNext m (m b).prev).1 (m b).prev).next ≠ 0 ∧
      ((mergeNext m (m b).prev).1 ((mergeNext m (m b).prev).1 (m b).prev).next).free = true
    · rw [if_pos hc, if_pos hc]
    · rw [if_neg hc, if_neg hc]
      exact Prod.ext rfl (mergeNext_snd _ _)

theorem coalesce_prev_neg {f : Int} {m : Mem} {b : Nat} (h : ¬ prevTest f m b) :
    coalesce f m b = coalesceNext f m b := by
  unfold coalesce coalesceNext
  unfold prevTest at h
  by_cases hf : f = 0
  · have h1 : ¬ ((m b).prev ≠ 0 ∧ (m (m b).prev).free = true ∧
        (m (m b).prev).elemSize = (m b).elemSize) := fun hh => h ⟨hh.1, hh.2.1, fun _ => hh.2.2⟩
    rw [if_neg (not_not.2 hf), if_neg (not_not.2 hf)]
    simp only [if_neg h1]
  · have h1 : ¬ ((m b).prev ≠ 0 ∧ (m (m b).prev).free = true) :=
      fun hh => h ⟨hh.1, hh.2, fun e => absurd e hf⟩
    rw [if_pos hf, if_pos hf]
    simp only [if_neg h1]


theorem eq_nil_or_snoc (l : List Nat) : l = [] ∨ ∃ L a, l = L ++ [a] := by
  rcases List.eq_nil_or_concat l with h | ⟨L, a, h⟩
  · exact Or.inl h
  · exact Or.inr ⟨L, a, by simpa using h⟩

theorem WF_setFree {m : Mem} {head : Nat} {l : List Nat} (b : Nat) (v : Bool)
    (h : WF m head l) : WF (setFree m b v) head l :=
  ⟨h.1, Chain_congr (fun a _ => setFree_next m b v a) h.2.1,
    Prevs_congr (fun a _ => setFree_prev m b v a) h.2.2⟩

theorem headD_eq_zero_iff {m : Mem} {l : List Nat} {q : Nat} (hc : Chain m l q) :
    l.headD 0 = 0 ↔ l = [] := by
  cases l with
  | nil => simp
  | cons a l => simpa using hc.1

theorem getLastD_eq_zero_iff {m : Mem} {l : List Nat} {q : Nat} (hc : Chain m l q) :
    l.getLastD 0 = 0 ↔ l = [] := by
  rcases eq_nil_or_snoc l with rfl | ⟨L, a, rfl⟩
  · simp
  · have : a ≠ 0 := Chain.ne_zero hc (by simp)
    simp [this]

theorem coalesceNext_WF {f : Int} {m : Mem} {head : Nat} {l1 post : List Nat} {s : Nat}
    (h : WF m head (l1 ++ s :: post)) :
    (coalesceNext f m s).2 = s ∧
    ∃ post1, post1.length ≤ post.length ∧ WF (coalesceNext f m s).1 head (l1 ++ s :: post1) := by
  by_cases hn : nextTest f m s
  · rw [coalesceNext_pos hn]
    refine ⟨mergeNext_snd _ _, ?_⟩
    obtain ⟨_, hsn, _, _, hc2, _, _, _⟩ := WF_at h
    cases post with
    | nil => exact absurd hsn hn.1
    | cons n post1 => exact ⟨post1, by simp, WF_mergeNext h⟩
  · rw [coalesceNext_neg hn]
    exact ⟨rfl, post, le_refl _, h⟩

theorem coalesce_WF {f : Int} {m : Mem} {head : Nat} {pre post : List Nat} {b : Nat}
    (h : WF m head (pre ++ b :: post)) :
    ∃ l1 x post1, pre ++ [b] = l1 ++ (coalesce f m b).2 :: x ∧
      WF (coalesce f m b).1 head (l1 ++ (coalesce f m b).2 :: post1) := by
  obtain ⟨hb0, hbn, hbp, hc1, hc2, hp1, hp2, hnd⟩ := WF_at h
  by_cases hp : prevTest f m b
  · rw [coalesce_prev_pos hp]
    have hpre : pre ≠ [] := by
      intro e
      have := hp.1
      rw [hbp, e] at this
      exact this rfl
    rcases eq_nil_or_snoc pre with e | ⟨L, P, rfl⟩
    · exact absurd e hpre
    · have hP : (m b).prev = P := by rw [hbp]; simp
      rw [hP]
      have h2 : WF m head (L ++ P :: b :: post) := by simpa using h
      have h3 := WF_mergeNext h2
      obtain ⟨hs, post1, _, hwf⟩ := coalesceNext_WF (f := f) h3
      rw [hs]
      exact ⟨L, [b], post1, by simp, hwf⟩
  · rw [coalesce_prev_neg hp]
    obtain ⟨hs, post1, _, hwf⟩ := coalesceNext_WF (f := f) h
    rw [hs]
    exact ⟨pre, [], post1, rfl, hwf⟩


theorem payload_ne_zero (b : Nat) : b + headerSize ≠ 0 := by
  unfold headerSize; omega

theorem free_unfold {st : State} {b : Nat} (hused : (st.mem b).free = false) :
    _free st (b + headerSize) =
      if ((coalesce st.memFree (setFree st.mem b true) b).1
            (coalesce st.memFree (setFree st.mem b true) b).2).next = 0 ∧ st.memFree ≠ 0 then
        if ((coalesce st.memFree (setFree st.mem b true) b).1
            (coalesce st.memFree (setFree st.mem b true) b).2).prev ≠ 0 then
          brk { st with mem := (setNext (coalesce st.memFree (setFree st.mem b true) b).1
              ((coalesce st.memFree (setFree st.mem b true) b).1
                (coalesce st.memFree (setFree st.mem b true) b).2).prev 0) }
            (coalesce st.memFree (setFree st.mem b true) b).2
        else
          brk { st with mem := (coalesce st.memFree (setFree st.mem b true) b).1, blocks := 0 }
            (coalesce st.memFree (setFree st.mem b true) b).2
      else { st with mem := (coalesce st.memFree (setFree st.mem b true) b).1 } := by
  unfold _free
  rw [if_neg (payload_ne_zero b), Nat.add_sub_cancel]
  have : ¬ (st.mem b).free = true := by simp [hused]
  simp only [if_neg this]

theorem WF_drop_tail {m : Mem} {head : Nat} {l1 : List Nat} {s : Nat}
    (h : WF m head (l1 ++ [s])) :
    ((m s).prev ≠ 0 → WF (setNext m (m s).prev 0) head l1) ∧
    ((m s).prev = 0 → l1 = []) := by
  obtain ⟨hs0, hsn, hsp, hc1, _, hp1, _, hnd⟩ := WF_at h
  constructor
  · intro hne
    rcases eq_nil_or_snoc l1 with e | ⟨L, t, rfl⟩
    · rw [hsp, e] at hne; exact absurd rfl hne
    · have ht : (m s).prev = t := by rw [hsp]; simp
      rw [ht]
      have hndL : ∀ a ∈ L, a ≠ t := by
        intro a ha e
        subst e
        have h1 : (L ++ [a]).Nodup := (List.nodup_append.1 hnd).1
        exact (List.nodup_append.1 h1).2.2 ha (List.mem_singleton_self _) 
      have hcL := Chain_append.1 hc1
      refine ⟨?_, Chain_append.2 ⟨?_, hcL.2.1, ?_, trivial⟩, ?_⟩
      · rw [h.1]
        cases L <;> rfl
      · refine Chain_congr ?_ hcL.1
        intro a ha
        rw [setNext_next, if_neg (hndL a ha)]
      · rw [setNext_next, if_pos rfl]; rfl
      · exact Prevs_congr (fun a _ => setNext_prev m t 0 a) hp1
  · intro he
    rw [hsp] at he
    exact (getLastD_eq_zero_iff hc1).1 he

/-! ## `split` field by field -/

theorem newBlockAddr_ne {block : Nat} {size : Int} (h0 : -40 < size) (h1 : size < 2 ^ 63) :
    newBlockAddr block size ≠ block := by
  unfold newBlockAddr toU64 headerSize
  omega

theorem split_of_small {m : Mem} {block : Nat} {size : Int}
    (h : toU64 ((m block).size - size) < headerSize) : split m block size = m := by
  unfold split; rw [if_pos h]

theorem split_size {m : Mem} {block : Nat} {size : Int}
    (h : ¬ toU64 ((m block).size - size) < headerSize)
    (hne : newBlockAddr block size ≠ block) (a : Nat) :
    (split m block size a).size =
      if a = block then size
      else if a = newBlockAddr block size then toI64 ((m block).size - (size + headerSize))
      else (m a).size := by
  unfold split
  rw [if_neg h]
  unfold newBlockAddr at hne ⊢
  by_cases h1 : a = block
  · subst h1; simp
  · simp [h1]

theorem split_elemSize {m : Mem} {block : Nat} {size : Int}
    (h : ¬ toU64 ((m block).size - size) < headerSize) (a : Nat) :
    (split m block size a).elemSize =
      if a = newBlockAddr block size then (m block).elemSize else (m a).elemSize := by
  unfold split
  rw [if_neg h]
  unfold newBlockAddr
  simp

theorem split_free {m : Mem} {block : Nat} {size : Int}
    (h : ¬ toU64 ((m block).size - size) < headerSize) (a : Nat) :
    (split m block size a).free =
      if a = newBlockAddr block size then true else (m a).free := by
  unfold split
  rw [if_neg h]
  unfold newBlockAddr
  simp

theorem split_prev {m : Mem} {block : Nat} {size : Int}
    (h : ¬ toU64 ((m block).size - size) < headerSize) (a : Nat) :
    (split m block size a).prev =
      if a = newBlockAddr block size then block else (m a).prev := by
  unfold split
  rw [if_neg h]
  unfold newBlockAddr
  simp

theorem split_next {m : Mem} {block : Nat} {size : Int}
    (h : ¬ toU64 ((m block).size - size) < headerSize)
    (hne : newBlockAddr block size ≠ block) (a : Nat) :
    (split m block size a).next =
      if a = block then newBlockAddr block size
      else if a = newBlockAddr block size then (m block).next
      else (m a).next := by
  unfold split
  rw [if_neg h]
  unfold newBlockAddr at hne ⊢
  by_cases h1 : a = block
  · subst h1; simp
  · simp [h1, Ne.symm hne]

/-! ## The miss path of `_malloc` -/

theorem sbrk_mem (st : State) (i : Int) : (sbrk st i).2.mem = st.mem := rfl
theorem sbrk_blocks (st : State) (i : Int) : (sbrk st i).2.blocks = st.blocks := rfl
theorem sbrk_memFree (st : State) (i : Int) : (sbrk st i).2.memFree = st.memFree := rfl
theorem sbrk_limit (st : State) (i : Int) : (sbrk st i).2.limit = st.limit := rfl

theorem sbrk_zero_fst {st : State} (h : st.curbrk ≤ st.limit) : (sbrk st 0).1 = st.curbrk := by
  unfold sbrk
  have : 0 ≤ (st.curbrk : Int) + 0 ∧ (st.curbrk : Int) + 0 ≤ (st.limit : Int) := by
    constructor <;> omega
  simp only [if_pos this]

theorem sbrk_zero_curbrk (st : State) : (sbrk st 0).2.curbrk = st.curbrk := by
  unfold sbrk
  by_cases h : 0 ≤ (st.curbrk : Int) + 0 ∧ (st.curbrk : Int) + 0 ≤ (st.limit : Int)
  · simp only [if_pos h]; omega
  · simp only [if_neg h]

theorem malloc_miss_eq {st : State} {size elemSize : Int} {fuel prev : Nat}
    (h : scan st.mem size elemSize fuel st.blocks 0 = some (Scan.miss prev))
    (hb : (sbrk st 0).1 ≠ sbrkFailed) :
    _malloc fuel st size elemSize = some ((sbrk st 0).1 + headerSize,
      { (sbrk (sbrk st 0).2 (toI64 (requestBytes size elemSize))).2 with
        mem := freshMem st.mem (sbrk st 0).1 prev size elemSize,
        blocks := if st.blocks = 0 then (sbrk st 0).1 else st.blocks }) := by
  unfold _malloc
  rw [h]
  dsimp only
  rw [if_neg hb]
  rfl

theorem malloc_miss_fail {st : State} {size elemSize : Int} {fuel prev : Nat}
    (h : scan st.mem size elemSize fuel st.blocks 0 = some (Scan.miss prev))
    (hb : (sbrk st 0).1 = sbrkFailed) :
    _malloc fuel st size elemSize =
      some (0, (sbrk (sbrk st 0).2 (toI64 (requestBytes size elemSize))).2) := by
  unfold _malloc
  rw [h]
  dsimp only
  rw [if_pos hb]

/-! ## The search loop of `_malloc` -/

theorem scan_miss (m : Mem) (size elemSize : Int) :
    ∀ (l : List Nat) (fuel prev : Nat), Chain m l 0 → l.length < fuel →
      (∀ a ∈ l, ¬ Fits m size elemSize a) →
      scan m size elemSize fuel (l.headD 0) prev = some (Scan.miss (l.getLastD prev)) := by
  intro l
  induction l with
  | nil =>
    intro fuel prev _ hf _
    cases fuel with
    | zero => simp at hf
    | succ f => simp [scan]
  | cons a l ih =>
    intro fuel prev hc hf hno
    cases fuel with
    | zero => simp at hf
    | succ f =>
      have ha : ¬ Fits m size elemSize a := hno a (List.mem_cons_self _ _)
      have hne : a ≠ 0 := hc.1
      have hnext : (m a).next = l.headD 0 := hc.2.1
      have hrec := ih f a hc.2.2 (by simpa using hf) (fun b hb => hno b (List.mem_cons_of_mem _ hb))
      unfold Fits at ha
      simp only [List.headD_cons, scan, hne, if_false, ha, hnext, hrec]
      cases l with
      | nil => rfl
      | cons b l => rfl

theorem scan_hit (m : Mem) (size elemSize : Int) :
    ∀ (pre : List Nat) (b : Nat) (post : List Nat) (fuel prev : Nat),
      Chain m (pre ++ b :: post) 0 → (pre ++ b :: post).length < fuel →
      (∀ a ∈ pre, ¬ Fits m size elemSize a) → Fits m size elemSize b →
      scan m size elemSize fuel ((pre ++ b :: post).headD 0) prev = some (Scan.hit b) := by
  intro pre
  induction pre with
  | nil =>
    intro b post fuel prev hc hf _ hb
    cases fuel with
    | zero => simp at hf
    | succ f =>
      have hne : b ≠ 0 := hc.1
      unfold Fits at hb
      simp [scan, hne, hb]
  | cons a pre ih =>
    intro b post fuel prev hc hf hno hb
    cases fuel with
    | zero => simp at hf
    | succ f =>
      have ha : ¬ Fits m size elemSize a := hno a (List.mem_cons_self _ _)
      have hne : a ≠ 0 := hc.1
      have hnext : (m a).next = (pre ++ b :: post).headD 0 := hc.2.1
      have hrec := ih b post f a hc.2.2 (by simpa using hf)
        (fun x hx => hno x (List.mem_cons_of_mem _ hx)) hb
      unfold Fits at ha
      simp only [List.cons_append, List.headD_cons, scan, hne, if_false, ha, hnext, hrec]

theorem first_fit_cases (m : Mem) (size elemSize : Int) (l : List Nat) :
    (∀ a ∈ l, ¬ Fits m size elemSize a) ∨
    ∃ pre b post, l = pre ++ b :: post ∧ (∀ a ∈ pre, ¬ Fits m size elemSize a) ∧
      Fits m size elemSize b := by
  induction l with
  | nil => left; simp
  | cons a l ih =>
    by_cases ha : Fits m size elemSize a
    · right; exact ⟨[], a, l, rfl, by simp, ha⟩
    · rcases ih with h | ⟨pre, b, post, rfl, hpre, hb⟩
      · left
        intro x hx
        rcases List.mem_cons.1 hx with rfl | hx
        · exact ha
        · exact h x hx
      · right
        refine ⟨a :: pre, b, post, rfl, ?_, hb⟩
        intro x hx
        rcases List.mem_cons.1 hx with rfl | hx
        · exact ha
        · exact hpre x hx


theorem sbrk_trace (st : State) (i : Int) : (sbrk st i).2.trace = st.trace ++ [Call.sbrk i] := by
  unfold sbrk; split <;> rfl

theorem malloc_of_hit {st : State} {size elemSize : Int} {fuel b : Nat}
    (h : scan st.mem size elemSize fuel st.blocks 0 = some (Scan.hit b)) :
    _malloc fuel st size elemSize = some (b + headerSize,
        { st with mem := setFree (split st.mem b size) b false }) := by
  unfold _malloc
  rw [h]


theorem malloc_of_miss {st : State} {size elemSize : Int} {fuel prev : Nat}
    (h : scan st.mem size elemSize fuel st.blocks 0 = some (Scan.miss prev)) :
    ∃ r, _malloc fuel st size elemSize = some r ∧
        r.2.trace = st.trace ++ [Call.sbrk 0, Call.sbrk (toI64 (requestBytes size elemSize))] := by
  unfold _malloc
  rw [h]
  by_cases hb : (sbrk st 0).1 = sbrkFailed
  · refine ⟨_, if_pos hb, ?_⟩
    simp [sbrk_trace]
  · refine ⟨_, if_neg hb, ?_⟩
    simp [sbrk_trace]


/-- The search loop only reads the blocks up to the first one that fits. -/
theorem scan_prefix_hit (m : Mem) (size elemSize : Int) :
    ∀ (pre : List Nat) (b fuel prev : Nat), Chain m pre b → b ≠ 0 → pre.length < fuel →
      (∀ a ∈ pre, ¬ Fits m size elemSize a) → Fits m size elemSize b →
      scan m size elemSize fuel (pre.headD b) prev = some (Scan.hit b) := by
  intro pre
  induction pre with
  | nil =>
    intro b fuel prev _ hb0 hf _ hb
    cases fuel with
    | zero => simp at hf
    | succ f =>
      unfold Fits at hb
      simp [scan, hb0, hb]
  | cons a pre ih =>
    intro b fuel prev hc hb0 hf hno hb
    cases fuel with
    | zero => simp at hf
    | succ f =>
      have ha : ¬ Fits m size elemSize a := hno a (List.mem_cons_self _ _)
      have hne : a ≠ 0 := hc.1
      have hnext : (m a).next = pre.headD b := hc.2.1
      have hrec := ih b f a hc.2.2 hb0 (by simpa using hf)
        (fun x hx => hno x (List.mem_cons_of_mem _ hx)) hb
      unfold Fits at ha
      simp only [List.headD_cons, scan, hne, if_false, ha, hnext, hrec]

/-- A block reported by the search loop passes the test of the loop, is not
`NULL`, and belongs to the list when the list is a finite chain. -/
theorem scan_hit_fits (m : Mem) (size elemSize : Int) (b : Nat) :
    ∀ (fuel cur prev : Nat), scan m size elemSize fuel cur prev = some (Scan.hit b) →
      Fits m size elemSize b ∧ b ≠ 0 ∧
      ∀ l : List Nat, cur = l.headD 0 → Chain m l 0 → b ∈ l := by
  intro fuel
  induction fuel with
  | zero => intro cur prev h; simp [scan] at h
  | succ f ih =>
    intro cur prev h
    unfold scan at h
    by_cases h0 : cur = 0
    · rw [if_pos h0] at h; cases h
    · rw [if_neg h0] at h
      by_cases hfit : (m cur).size ≥ size ∧ (m cur).free = true ∧ (m cur).elemSize = elemSize
      · rw [if_pos hfit] at h
        cases h
        refine ⟨hfit, h0, ?_⟩
        intro l hl hc
        cases l with
        | nil => exact absurd hl h0
        | cons a l => simp only [List.headD_cons] at hl; simp [hl]
      · rw [if_neg hfit] at h
        obtain ⟨h1, h2, h3⟩ := ih _ _ h
        refine ⟨h1, h2, ?_⟩
        intro l hl hc
        cases l with
        | nil => exact absurd hl h0
        | cons a l =>
          simp only [List.headD_cons] at hl
          subst hl
          exact List.mem_cons_of_mem _ (h3 l hc.2.1 hc.2.2)

/-- A call of `_malloc` that returns without a provider call went through the
hit branch of the search loop. -/
theorem malloc_quiet_hit {st : State} {size elemSize : Int} {fuel p : Nat} {st1 : State}
    (hm : _malloc fuel st size elemSize = some (p, st1)) (htr : st1.trace = st.trace) :
    ∃ b, scan st.mem size elemSize fuel st.blocks 0 = some (Scan.hit b) ∧ p = b + headerSize := by
  cases hs : scan st.mem size elemSize fuel st.blocks 0 with
  | none => unfold _malloc at hm; rw [hs] at hm; cases hm
  | some r =>
    cases r with
    | hit b =>
      rw [malloc_of_hit hs] at hm
      cases hm
      exact ⟨b, rfl, rfl⟩
    | miss prev =>
      obtain ⟨r, hr, hrt⟩ := malloc_of_miss hs
      rw [hm] at hr
      cases hr
      rw [htr] at hrt
      simp at hrt

/-- First fit in `_malloc`, for a request with `size > 0` and `elemSize > 0` (the
precondition of the source, under which its division is defined; the search
itself does not depend on it): (1) when the blocks `pre` lead from `blocks` to a
block `b`, no block of `pre` is free with `size >= size` and the requested
`elemSize`, and `b` is, `_malloc` returns the payload `b + headerSize` of `b`,
the first such block in list order, marks it used and makes no provider call;
(2) when the list is a finite chain and no block passes the test, it calls
`sbrk(0)` and `sbrk(bytes)`; (3) every pointer returned without a provider call
is the payload of a block that passes the test, and that block is in the list.
Nothing is said here about the pointer returned after a provider call. -/
theorem malloc_first_fit (st : State) (size elemSize : Int) (fuel : Nat)
    (_hsize : 0 < size) (_helem : 0 < elemSize) :
    (∀ pre b, st.blocks = pre.headD b → Chain st.mem pre b → b ≠ 0 → pre.length < fuel →
        (∀ a ∈ pre, ¬ Fits st.mem size elemSize a) → Fits st.mem size elemSize b →
        ∃ st1, _malloc fuel st size elemSize = some (b + headerSize, st1) ∧
          (st1.mem b).free = false ∧ st1.trace = st.trace ∧ st1.curbrk = st.curbrk) ∧
    (∀ l, st.blocks = l.headD 0 → Chain st.mem l 0 → l.length < fuel →
        (∀ a ∈ l, ¬ Fits st.mem size elemSize a) →
        ∃ r, _malloc fuel st size elemSize = some r ∧
          r.2.trace = st.trace ++ [Call.sbrk 0, Call.sbrk (toI64 (requestBytes size elemSize))]) ∧
    (∀ p st1, _malloc fuel st size elemSize = some (p, st1) → st1.trace = st.trace →
        ∃ b, Fits st.mem size elemSize b ∧ p = b + headerSize ∧
          ∀ l, st.blocks = l.headD 0 → Chain st.mem l 0 → b ∈ l) := by
  refine ⟨?_, ?_, ?_⟩
  · intro pre b hhead hc hb0 hf hpre hb
    have hs := scan_prefix_hit st.mem size elemSize pre b fuel 0 hc hb0 hf hpre hb
    rw [← hhead] at hs
    refine ⟨_, malloc_of_hit hs, ?_, rfl, rfl⟩
    simp [setFree]
  · intro l hhead hc hf hno
    have hs := scan_miss st.mem size elemSize l fuel 0 hc hf hno
    rw [← hhead] at hs
    exact malloc_of_miss hs
  · intro p st1 hm htr
    obtain ⟨b, hs, hp⟩ := malloc_quiet_hit hm htr
    obtain ⟨h1, _, h3⟩ := scan_hit_fits st.mem size elemSize b fuel st.blocks 0 hs
    exact ⟨b, h1, hp, h3⟩

/-- Where a pointer returned by `_malloc` comes from: the payload of a listed
block that passes the test of the search loop, `NULL`, or the payload of the
block at the current break. -/
theorem malloc_result_cases {st st1 : State} {size elemSize : Int} {fuel p : Nat}
    (hm : _malloc fuel st size elemSize = some (p, st1)) :
    (Fits st.mem size elemSize (p - headerSize) ∧ p = (p - headerSize) + headerSize ∧
      st1.trace = st.trace) ∨
    p = 0 ∨ p = st.curbrk + headerSize := by
  cases hs : scan st.mem size elemSize fuel st.blocks 0 with
  | none => unfold _malloc at hm; rw [hs] at hm; cases hm
  | some r =>
    cases r with
    | hit b =>
      rw [malloc_of_hit hs] at hm
      cases hm
      left
      rw [Nat.add_sub_cancel]
      exact ⟨(scan_hit_fits st.mem size elemSize b fuel st.blocks 0 hs).1, rfl, rfl⟩
    | miss prev =>
      right
      by_cases hb : (sbrk st 0).1 = sbrkFailed
      · rw [malloc_miss_fail hs hb] at hm
        cases hm
        left; rfl
      · rw [malloc_miss_eq hs hb] at hm
        have hp : (sbrk st 0).1 + headerSize = p := congrArg Prod.fst (Option.some.inj hm)
        right
        rw [← hp]
        have hX : (sbrk st 0).1 = st.curbrk := by
          by_contra hne
          apply hb
          unfold sbrk at hne ⊢
          dsimp only at hne ⊢
          split
          · rename_i hcond
            rw [if_pos hcond] at hne
            exact absurd rfl hne
          · rfl
        rw [hX]
/-- Instance of the first-fit search: in `state2` the block at 1000 is used and the block at 1140
fits a request of 50 bytes tagged 100, so `_malloc` returns `1140 + headerSize`. -/
theorem malloc_first_fit_witness :
    (0 : Int) < 50 ∧ (0 : Int) < 100 ∧
    ∃ st1, _malloc 3 state2 50 100 = some (1140 + headerSize, st1) ∧
      (st1.mem 1140).free = false ∧ st1.trace = state2.trace ∧ st1.curbrk = state2.curbrk :=
  ⟨by decide, by decide,
    (malloc_first_fit state2 50 100 3 (by decide) (by decide)).1
      [1000] 1140 rfl (by decide!) (by decide) (by decide) (by decide!) (by decide!)⟩

/-- Claim C1 (evaluation). Start-up state, break at 1000. (a) The provider
refuses to move the break: `_malloc(8, 8)` returns 1040 and lists the used block
at 1000 tagged 8 (successor 1048, free, tagged 8); no listed block matches the
next request `_malloc(8, 4)`, which calls `sbrk(0)` and `sbrk(880)`, finds the
break still at 1000 and returns 1040 again, the payload of the listed used block
tagged 8, whose header it overwrites. (b) The provider grants every request:
`_malloc(1, 4)` lists the used block at 1000 tagged 4; the next request
`_malloc(1, 8)` matches no listed block, asks the provider for `0` bytes and
returns 1040, the payload of that block. -/
theorem mismatched_block_returned :
    refusedRun.map (fun r => snapshot [1000, 1048] r.1) =
      some { ret := 1040, blocks := 1000, curbrk := 1000,
             trace := [Call.sbrk 0, Call.sbrk 480],
             headers := [{ size := 8, elemSize := 8, free := false, next := 1048, prev := 0 },
                         { size := 392, elemSize := 8, free := true, next := 0,
                           prev := 1000 }] } ∧
    refusedRun.map (fun (r : (Nat × State) × (Nat × State)) =>
      (decide (Chain r.1.2.mem [1000, 1048] 0), decide (Fits r.1.2.mem 8 4 1000),
        decide (Fits r.1.2.mem 8 4 1048))) = some (true, false, false) ∧
    refusedRun.map (fun r => snapshot [1000] r.2) =
      some { ret := 1040, blocks := 1000, curbrk := 1000,
             trace := [Call.sbrk 0, Call.sbrk 480, Call.sbrk 0, Call.sbrk 880],
             headers := [{ size := 8, elemSize := 4, free := false, next := 1048,
                           prev := 1048 }] } ∧
    zeroRun.map (fun r => snapshot [1000, 1041] r.1) =
      some { ret := 1040, blocks := 1000, curbrk := 1000,
             trace := [Call.sbrk 0, Call.sbrk 0],
             headers := [{ size := 1, elemSize := 4, free := false, next := 1041, prev := 0 },
                         { size := -81, elemSize := 4, free := true, next := 0,
                           prev := 1000 }] } ∧
    zeroRun.map (fun (r : (Nat × State) × (Nat × State)) =>
      (decide (Chain r.1.2.mem [1000, 1041] 0), decide (Fits r.1.2.mem 1 8 1000),
        decide (Fits r.1.2.mem 1 8 1041))) = some (true, false, false) ∧
    requestBytes 1 8 = 0 ∧
    zeroRun.map (fun r => snapshot [1000] r.2) =
      some { ret := 1040, blocks := 1000, curbrk := 1000,
             trace := [Call.sbrk 0, Call.sbrk 0, Call.sbrk 0, Call.sbrk 0],
             headers := [{ size := 1, elemSize := 8, free := false, next := 1041,
                           prev := 1041 }] } := by
  decide!

/-! ## Evaluations of `_malloc` and `_free` on concrete call sequences -/

/-- Claim C2 (evaluation). `_malloc(1, 4)` on the start-up state with break 1000:
no block matches, the provider is asked for `0` bytes and grants them (the break
stays at 1000), yet a used header is written at 1000 and a free header of size
`-81` at 1041, both outside the granted region. -/
theorem malloc_small_request :
    requestBytes 1 4 = 0 ∧
    (_malloc 1 (initState 1000 1000000) 1 4).map (snapshot [1000, 1041]) =
      some { ret := 1040, blocks := 1000, curbrk := 1000,
             trace := [Call.sbrk 0, Call.sbrk 0],
             headers := [{ size := 1, elemSize := 4, free := false, next := 1041, prev := 0 },
                         { size := -81, elemSize := 4, free := true, next := 0, prev := 1000 }] } := by
  decide!

/-- Claim C3 (evaluation). With the break at its limit the provider refuses
`sbrk(480)`, but `_malloc(8, 8)` does not return `NULL`: it returns 1040 and
makes 1000 the head of the list, with the break still at 1000. -/
theorem malloc_provider_refuses :
    (sbrk (initState 1000 1000) 480).1 = sbrkFailed ∧
    (_malloc 1 (initState 1000 1000) 8 8).map (snapshot [1000, 1048]) =
      some { ret := 1040, blocks := 1000, curbrk := 1000,
             trace := [Call.sbrk 0, Call.sbrk 480],
             headers := [{ size := 8, elemSize := 8, free := false, next := 1048, prev := 0 },
                         { size := 392, elemSize := 8, free := true, next := 0, prev := 1000 }] } := by
  decide!

/-- Claim C4 (evaluation). After the calls of `staleRun` the pointer 1090
(block 1050, 50 bytes) has been returned by `_malloc` and never freed, yet the
list is empty and the break is back at 1000 with the header at 1050 still
marked used; the next `_malloc(100, 10)` returns 1040, whose 100 payload bytes
`[1040, 1140)` cover the header and the payload `[1090, 1140)` of block 1050. -/
theorem stale_prev_run :
    staleRun.map (fun r => r.1) = some [1040, 1180, 1040, 1090] ∧
    staleRun.map (fun r => snapshot [1050] (0, r.2)) =
      some { ret := 0, blocks := 0, curbrk := 1000,
             trace := [Call.sbrk 0, Call.sbrk 5000, Call.brk 1000],
             headers := [{ size := 50, elemSize := 10, free := false, next := 1140,
                           prev := 1000 }] } ∧
    (staleRun.bind fun r => (_malloc 9 r.2 100 10).map fun q => (q.1, (q.2.mem 1000).size)) =
      some (1040, 100) := by
  decide!

/-! ## The coalescing part of `_free` on a well-formed list -/

/-- Only `next` fields and the globals are touched after the coalescing part of `_free`. -/
theorem free_fields {st : State} {b : Nat} (hused : (st.mem b).free = false) (a : Nat) :
    ((_free st (b + headerSize)).mem a).size =
      ((coalesce st.memFree (setFree st.mem b true) b).1 a).size ∧
    ((_free st (b + headerSize)).mem a).elemSize =
      ((coalesce st.memFree (setFree st.mem b true) b).1 a).elemSize ∧
    ((_free st (b + headerSize)).mem a).free =
      ((coalesce st.memFree (setFree st.mem b true) b).1 a).free := by
  rw [free_unfold hused]
  split
  · split
    · exact ⟨setNext_size _ _ _ _, setNext_elemSize _ _ _ _, setNext_free _ _ _ _⟩
    · exact ⟨rfl, rfl, rfl⟩
  · exact ⟨rfl, rfl, rfl⟩

theorem free_keep {st : State} {b : Nat} (hused : (st.mem b).free = false)
    (hnext : ((coalesce st.memFree (setFree st.mem b true) b).1
        (coalesce st.memFree (setFree st.mem b true) b).2).next ≠ 0) :
    _free st (b + headerSize) =
      { st with mem := (coalesce st.memFree (setFree st.mem b true) b).1 } := by
  rw [free_unfold hused, if_neg (fun h => hnext h.1)]

theorem prevTest_iff {f : Int} {m : Mem} {head : Nat} {pre post : List Nat} {b : Nat}
    (h : WF m head (pre ++ b :: post)) :
    prevTest f m b ↔ pre ≠ [] ∧ (m (pre.getLastD 0)).free = true ∧
      (f = 0 → (m (pre.getLastD 0)).elemSize = (m b).elemSize) := by
  obtain ⟨_, _, hbp, hc1, _, _, _, _⟩ := WF_at h
  unfold prevTest
  rw [hbp]
  have := getLastD_eq_zero_iff hc1
  constructor
  · rintro ⟨h1, h2⟩
    exact ⟨fun e => h1 (this.2 e), h2⟩
  · rintro ⟨h1, h2⟩
    exact ⟨fun e => h1 (this.1 e), h2⟩

theorem nextTest_iff {f : Int} {m : Mem} {head : Nat} {pre post : List Nat} {b : Nat}
    (h : WF m head (pre ++ b :: post)) :
    nextTest f m b ↔ post ≠ [] ∧ (m (post.headD 0)).free = true ∧
      (f = 0 → (m (post.headD 0)).elemSize = (m b).elemSize) := by
  obtain ⟨_, hbn, _, _, hc2, _, _, _⟩ := WF_at h
  unfold nextTest
  rw [hbn]
  have := headD_eq_zero_iff hc2
  constructor
  · rintro ⟨h1, h2⟩
    exact ⟨fun e => h1 (this.2 e), h2⟩
  · rintro ⟨h1, h2⟩
    exact ⟨fun e => h1 (this.1 e), h2⟩

/-- Distinctness of a block, its predecessor and its successor in a well-formed list. -/
theorem WF_neighbours {m : Mem} {head : Nat} {pre post : List Nat} {b : Nat}
    (h : WF m head (pre ++ b :: post)) :
    (pre ≠ [] → pre.getLastD 0 ≠ b ∧ (m (pre.getLastD 0)).next = b ∧
      (post ≠ [] → post.headD 0 ≠ pre.getLastD 0)) ∧
    (post ≠ [] → post.headD 0 ≠ b) := by
  obtain ⟨_, _, _, hc1, _, _, _, hnd⟩ := WF_at h
  constructor
  · intro hpre
    rcases eq_nil_or_snoc pre with e | ⟨L, P, rfl⟩
    · exact absurd e hpre
    · have hP : (L ++ [P]).getLastD 0 = P := by simp
      rw [hP]
      have hnd2 : (L ++ P :: b :: post).Nodup := by simpa using hnd
      have hnd3 := (List.nodup_append.1 hnd2).2.1
      refine ⟨?_, ?_, ?_⟩
      · intro e
        exact (List.nodup_cons.1 hnd3).1 (e ▸ List.mem_cons_self _ _)
      · have := (Chain_append.1 hc1).2
        exact this.2.1
      · intro hpost e
        cases post with
        | nil => exact absurd rfl hpost
        | cons N post1 =>
          have e2 : N = P := e
          exact (List.nodup_cons.1 hnd3).1 (e2 ▸ List.mem_cons_of_mem _ (List.mem_cons_self _ _))
  · intro hpost e
    cases post with
    | nil => exact absurd rfl hpost
    | cons N post1 =>
      have e2 : N = b := e
      have hnd3 := (List.nodup_append.1 hnd).2.1
      exact (List.nodup_cons.1 hnd3).1 (e2 ▸ List.mem_cons_self _ _)


/-- First stage of `coalesce` when the predecessor test succeeds. -/
theorem coalesce_stage1 {f : Int} {m : Mem} {head : Nat} {L post : List Nat} {P b : Nat}
    (h : WF m head (L ++ P :: b :: post)) (hp : prevTest f m b) :
    coalesce f m b = coalesceNext f (mergeNext m P).1 P ∧
    WF (mergeNext m P).1 head (L ++ P :: post) ∧
    ((mergeNext m P).1 P).size = toI64 ((m P).size + ((headerSize : Int) + (m b).size)) ∧
    (∀ a, a ≠ P → ((mergeNext m P).1 a).size = (m a).size) ∧
    (∀ a, ((mergeNext m P).1 a).elemSize = (m a).elemSize) ∧
    (∀ a, ((mergeNext m P).1 a).free = (m a).free) := by
  have h2 : WF m head ((L ++ [P]) ++ b :: post) := by simpa using h
  obtain ⟨_, _, hbp, _, _, _, _, _⟩ := WF_at h2
  have hP : (m b).prev = P := by rw [hbp]; simp
  obtain ⟨_, hPn, _, _, _, _, _, _⟩ := WF_at h
  have hPn1 : (m P).next = b := hPn
  have hn0 : (m P).next ≠ 0 := by
    rw [hPn1]
    exact (WF_at h2).1
  refine ⟨?_, WF_mergeNext h, ?_, ?_, fun a => mergeNext_elemSize _ _ _,
    fun a => mergeNext_free _ _ _⟩
  · rw [coalesce_prev_pos hp, hP]
  · rw [mergeNext_size hn0, if_pos rfl, hPn1]
  · intro a ha
    rw [mergeNext_size hn0, if_neg ha]

/-- Second stage of `coalesce` on the block `s` that survived the first stage. -/
theorem coalesce_stage2 {f : Int} {m : Mem} {head : Nat} {l1 post : List Nat} {s : Nat}
    (h : WF m head (l1 ++ s :: post)) :
    (coalesceNext f m s).2 = s ∧
    (nextTest f m s →
      ((coalesceNext f m s).1 s).size =
        toI64 ((m s).size + ((headerSize : Int) + (m (post.headD 0)).size))) ∧
    (¬ nextTest f m s → (coalesceNext f m s).1 = m) ∧
    (∀ a, ((coalesceNext f m s).1 a).elemSize = (m a).elemSize) ∧
    (∀ a, ((coalesceNext f m s).1 a).free = (m a).free) := by
  obtain ⟨_, hsn, _, _, _, _, _, _⟩ := WF_at h
  by_cases hn : nextTest f m s
  · rw [coalesceNext_pos hn]
    refine ⟨mergeNext_snd _ _, fun _ => ?_, fun h2 => absurd hn h2,
      fun a => mergeNext_elemSize _ _ _, fun a => mergeNext_free _ _ _⟩
    rw [mergeNext_size hn.1, if_pos rfl, hsn]
  · rw [coalesceNext_neg hn]
    exact ⟨rfl, fun h2 => absurd h2 hn, fun _ => rfl, fun _ => rfl, fun _ => rfl⟩


/-- Outcome of `coalesce` on a used block of a well-formed list that has just
been marked free, in the four combinations of the two merge tests. -/
theorem coalesce_cases {f : Int} {m : Mem} {head : Nat} {pre post : List Nat} {b : Nat}
    (hwf : WF m head (pre ++ b :: post)) :
    (¬ predMerges f m pre b → ¬ succMerges f m post b →
      coalesce f (setFree m b true) b = (setFree m b true, b)) ∧
    (¬ predMerges f m pre b → succMerges f m post b →
      (coalesce f (setFree m b true) b).2 = b ∧
      ((coalesce f (setFree m b true) b).1 b).size =
        toI64 ((m b).size + ((headerSize : Int) + (m (post.headD 0)).size))) ∧
    (predMerges f m pre b → ¬ succMerges f m post b →
      (coalesce f (setFree m b true) b).2 = pre.getLastD 0 ∧
      ((coalesce f (setFree m b true) b).1 (pre.getLastD 0)).size =
        toI64 ((m (pre.getLastD 0)).size + ((headerSize : Int) + (m b).size))) ∧
    (predMerges f m pre b → succMerges f m post b →
      (coalesce f (setFree m b true) b).2 = pre.getLastD 0 ∧
      ((coalesce f (setFree m b true) b).1 (pre.getLastD 0)).size =
        toI64 (toI64 ((m (pre.getLastD 0)).size + ((headerSize : Int) + (m b).size)) +
          ((headerSize : Int) + (m (post.headD 0)).size))) ∧
    (∀ a, ((coalesce f (setFree m b true) b).1 a).elemSize = (m a).elemSize) ∧
    (∀ a, ((coalesce f (setFree m b true) b).1 a).free = if a = b then true else (m a).free) := by
  have hwf1 : WF (setFree m b true) head (pre ++ b :: post) := WF_setFree b true hwf
  obtain ⟨hnbP, hnbN⟩ := WF_neighbours hwf
  have hpt : prevTest f (setFree m b true) b ↔ predMerges f m pre b := by
    rw [prevTest_iff hwf1]
    unfold predMerges
    constructor
    · rintro ⟨h1, h2, h3⟩
      have hne := (hnbP h1).1
      simp only [setFree_free, setFree_elemSize, if_neg hne] at h2 h3
      exact ⟨h1, h2, h3⟩
    · rintro ⟨h1, h2, h3⟩
      have hne := (hnbP h1).1
      simp only [setFree_free, setFree_elemSize, if_neg hne]
      exact ⟨h1, h2, h3⟩
  have hfree_all : ∀ a, ((coalesce f (setFree m b true) b).1 a).free =
      if a = b then true else (m a).free := by
    intro a
    rw [coalesce_free, setFree_free]
  have helem_all : ∀ a, ((coalesce f (setFree m b true) b).1 a).elemSize = (m a).elemSize := by
    intro a
    by_cases hp : prevTest f (setFree m b true) b
    · rw [coalesce_prev_pos hp]
      unfold coalesceNext
      split <;> split <;> simp [mergeNext_elemSize]
    · rw [coalesce_prev_neg hp]
      unfold coalesceNext
      split <;> split <;> simp [mergeNext_elemSize]
  by_cases hpm : predMerges f m pre b
  · -- the predecessor absorbs `b`
    have hp := hpt.2 hpm
    rcases eq_nil_or_snoc pre with e | ⟨L, P, rfl⟩
    · exact absurd e hpm.1
    have hPl : (L ++ [P]).getLastD 0 = P := by simp
    have hPb : P ≠ b := by have := (hnbP hpm.1).1; rwa [hPl] at this
    have hwf2 : WF (setFree m b true) head (L ++ P :: b :: post) := by simpa using hwf1
    obtain ⟨hco, hwf3, hsz, hszo, hel, hfr⟩ := coalesce_stage1 hwf2 hp
    obtain ⟨hs2, hpos, hneg, _, _⟩ := coalesce_stage2 (f := f) hwf3
    have hnt : nextTest f (mergeNext (setFree m b true) P).1 P ↔ succMerges f m post b := by
      rw [nextTest_iff hwf3]
      unfold succMerges
      have key : ∀ hpost : post ≠ [],
          ((mergeNext (setFree m b true) P).1 (post.headD 0)).free = (m (post.headD 0)).free ∧
          ((f = 0 → ((mergeNext (setFree m b true) P).1 (post.headD 0)).elemSize =
              ((mergeNext (setFree m b true) P).1 P).elemSize) ↔
            (f = 0 → (m (post.headD 0)).elemSize = (m b).elemSize)) := by
        intro hpost
        have hNb := hnbN hpost
        refine ⟨?_, ?_⟩
        · rw [hfr, setFree_free, if_neg hNb]
        · rw [hel, hel, setFree_elemSize, setFree_elemSize]
          constructor
          · intro h1 h0
            rw [h1 h0]
            have := hpm.2.2 h0
            rwa [hPl] at this
          · intro h1 h0
            rw [h1 h0]
            have := hpm.2.2 h0
            rw [hPl] at this
            exact this.symm
      constructor
      · rintro ⟨h1, h2, h3⟩
        exact ⟨h1, (key h1).1 ▸ h2, (key h1).2.1 h3⟩
      · rintro ⟨h1, h2, h3⟩
        exact ⟨h1, (key h1).1.symm ▸ h2, (key h1).2.2 h3⟩
    rw [hPl]
    refine ⟨fun h => absurd hpm h, fun h => absurd hpm h, ?_, ?_, helem_all, hfree_all⟩
    · intro _ hsm
      have hn := fun h => hsm (hnt.1 h)
      rw [hco, hs2, hneg hn, hsz]
      refine ⟨rfl, ?_⟩
      simp only [setFree_size]
    · intro _ hsm
      have hn := hnt.2 hsm
      have hNP : post.headD 0 ≠ P := by
        have := (hnbP hpm.1).2.2 hsm.1
        rwa [hPl] at this
      rw [hco, hs2, hpos hn, hsz, hszo _ hNP]
      refine ⟨rfl, ?_⟩
      simp only [setFree_size]
  · -- no merge with the predecessor
    have hp := fun h => hpm (hpt.1 h)
    obtain ⟨hs2, hpos, hneg, _, _⟩ := coalesce_stage2 (f := f) hwf1
    have hnt : nextTest f (setFree m b true) b ↔ succMerges f m post b := by
      rw [nextTest_iff hwf1]
      unfold succMerges
      constructor
      · rintro ⟨h1, h2, h3⟩
        have hne := hnbN h1
        simp only [setFree_free, setFree_elemSize, if_neg hne] at h2 h3
        exact ⟨h1, h2, h3⟩
      · rintro ⟨h1, h2, h3⟩
        have hne := hnbN h1
        simp only [setFree_free, setFree_elemSize, if_neg hne]
        exact ⟨h1, h2, h3⟩
    refine ⟨?_, ?_, fun h => absurd h hpm, fun h => absurd h hpm, helem_all, hfree_all⟩
    · intro _ hsm
      have hn := fun h => hsm (hnt.1 h)
      rw [coalesce_prev_neg hp]
      exact Prod.ext (hneg hn) hs2
    · intro _ hsm
      have hn := hnt.2 hsm
      rw [coalesce_prev_neg hp, hs2, hpos hn]
      refine ⟨rfl, ?_⟩
      simp only [setFree_size]

/-! ## `_free` in free mode -/

theorem predMerges_free_mode {f : Int} {m : Mem} {pre : List Nat} {b : Nat} (hf : f ≠ 0) :
    predMerges f m pre b ↔ (pre ≠ [] ∧ (m (pre.getLastD 0)).free = true) := by
  unfold predMerges
  constructor
  · rintro ⟨h1, h2, _⟩; exact ⟨h1, h2⟩
  · rintro ⟨h1, h2⟩; exact ⟨h1, h2, fun e => absurd e hf⟩

theorem succMerges_free_mode {f : Int} {m : Mem} {post : List Nat} {b : Nat} (hf : f ≠ 0) :
    succMerges f m post b ↔ (post ≠ [] ∧ (m (post.headD 0)).free = true) := by
  unfold succMerges
  constructor
  · rintro ⟨h1, h2, _⟩; exact ⟨h1, h2⟩
  · rintro ⟨h1, h2⟩; exact ⟨h1, h2, fun e => absurd e hf⟩

/-- Claim C5 (amended). In free mode, on a well-formed list, `_free` of a used
block `b` marks it free, merges it into its predecessor when that is free and
then merges the surviving block with the successor when that is free, whatever
the `elemSize` tags: the surviving block (the predecessor if it absorbed `b`,
else `b`) keeps its own `elemSize` and its size grows by `headerSize` plus the
absorbed size at each merge, in `int_t` arithmetic. When neither neighbour is
free and `b` has a successor, the call changes nothing but the free flag of
`b`. -/
theorem free_free_mode (st : State) (pre post : List Nat) (b : Nat)
    (hwf : WF st.mem st.blocks (pre ++ b :: post)) (hmode : st.memFree ≠ 0)
    (hused : (st.mem b).free = false) :
    ((_free st (b + headerSize)).mem b).free = true ∧
    (¬ (pre ≠ [] ∧ (st.mem (pre.getLastD 0)).free = true) →
      ¬ (post ≠ [] ∧ (st.mem (post.headD 0)).free = true) → post ≠ [] →
        _free st (b + headerSize) = { st with mem := setFree st.mem b true }) ∧
    (¬ (pre ≠ [] ∧ (st.mem (pre.getLastD 0)).free = true) →
      (post ≠ [] ∧ (st.mem (post.headD 0)).free = true) →
        ((_free st (b + headerSize)).mem b).size =
          toI64 ((st.mem b).size + ((headerSize : Int) + (st.mem (post.headD 0)).size)) ∧
        ((_free st (b + headerSize)).mem b).elemSize = (st.mem b).elemSize) ∧
    ((pre ≠ [] ∧ (st.mem (pre.getLastD 0)).free = true) →
      ¬ (post ≠ [] ∧ (st.mem (post.headD 0)).free = true) →
        ((_free st (b + headerSize)).mem (pre.getLastD 0)).size =
          toI64 ((st.mem (pre.getLastD 0)).size + ((headerSize : Int) + (st.mem b).size)) ∧
        ((_free st (b + headerSize)).mem (pre.getLastD 0)).elemSize =
          (st.mem (pre.getLastD 0)).elemSize ∧
        ((_free st (b + headerSize)).mem (pre.getLastD 0)).free = true) ∧
    ((pre ≠ [] ∧ (st.mem (pre.getLastD 0)).free = true) →
      (post ≠ [] ∧ (st.mem (post.headD 0)).free = true) →
        ((_free st (b + headerSize)).mem (pre.getLastD 0)).size =
          toI64 (toI64 ((st.mem (pre.getLastD 0)).size + ((headerSize : Int) + (st.mem b).size)) +
            ((headerSize : Int) + (st.mem (post.headD 0)).size)) ∧
        ((_free st (b + headerSize)).mem (pre.getLastD 0)).elemSize =
          (st.mem (pre.getLastD 0)).elemSize ∧
        ((_free st (b + headerSize)).mem (pre.getLastD 0)).free = true) := by
  obtain ⟨h00, h01, h10, h11, hel, hfr⟩ := coalesce_cases (f := st.memFree) hwf
  have hff := fun a => @free_fields st b hused a
  have hPfree : ∀ hp : pre ≠ [] ∧ (st.mem (pre.getLastD 0)).free = true,
      ((_free st (b + headerSize)).mem (pre.getLastD 0)).free = true := by
    intro hp
    rw [(hff _).2.2, hfr]
    split
    · rfl
    · exact hp.2
  refine ⟨?_, ?_, ?_, ?_, ?_⟩
  · rw [(hff b).2.2, hfr, if_pos rfl]
  · intro hp hs hpost
    have hco := h00 (fun h => hp ((predMerges_free_mode hmode).1 h))
      (fun h => hs ((succMerges_free_mode hmode).1 h))
    have hnext : ((coalesce st.memFree (setFree st.mem b true) b).1
        (coalesce st.memFree (setFree st.mem b true) b).2).next ≠ 0 := by
      rw [hco]
      obtain ⟨_, hbn, _, _, hc2, _, _, _⟩ := WF_at hwf
      simp only [setFree_next]
      rw [hbn]
      exact fun e => hpost ((headD_eq_zero_iff hc2).1 e)
    rw [free_keep hused hnext, hco]
  · intro hp hs
    have hco := h01 (fun h => hp ((predMerges_free_mode hmode).1 h))
      ((succMerges_free_mode hmode).2 hs)
    exact ⟨by rw [(hff b).1, hco.2], by rw [(hff b).2.1, hel]⟩
  · intro hp hs
    have hco := h10 ((predMerges_free_mode hmode).2 hp)
      (fun h => hs ((succMerges_free_mode hmode).1 h))
    exact ⟨by rw [(hff _).1, hco.2], by rw [(hff _).2.1, hel], hPfree hp⟩
  · intro hp hs
    have hco := h11 ((predMerges_free_mode hmode).2 hp) ((succMerges_free_mode hmode).2 hs)
    exact ⟨by rw [(hff _).1, hco.2], by rw [(hff _).2.1, hel], hPfree hp⟩

/-- Witness for C5: in `state2` the used block at 1000 has the free successor
1140, and `_free(1040)` makes its size `100 + 40 + 1220`. -/
theorem free_free_mode_witness :
    WF state2.mem state2.blocks ([] ++ 1000 :: [1140]) ∧ state2.memFree ≠ 0 ∧
    (state2.mem 1000).free = false ∧
    ((_free state2 (1000 + headerSize)).mem 1000).size = 1360 :=
  ⟨by decide!, by decide, by decide!,
    ((free_free_mode state2 [] [1140] 1000 (by decide!) (by decide) (by decide!)).2.2.1
      (by decide!) (by decide!)).1.trans (by decide!)⟩

/-- Counterexample to C5 as stated: in `state3` the block at 1140 is used, its
predecessor 1000 is used and it has no successor, so neither neighbour is free;
yet `_free(1180)` changes more than the free flag of 1140: it clears the `next`
of block 1000 and moves the break. -/
theorem free_tail_changes_more :
    WF state3.mem state3.blocks ([1000] ++ 1140 :: []) ∧ state3.memFree ≠ 0 ∧
    (state3.mem 1140).free = false ∧ (state3.mem 1000).free = false ∧
    _free state3 (1140 + headerSize) ≠ { state3 with mem := setFree state3.mem 1140 true } := by
  refine ⟨by decide!, by decide, by decide!, by decide!, ?_⟩
  intro h
  have h2 := congrArg (fun s => ((s.mem 1000).next, s.curbrk)) h
  revert h2
  decide!

/-! ## `flush` -/

theorem listBytes_cons (m : Mem) (a : Nat) (l : List Nat) :
    listBytes m (a :: l) = (headerSize : Int) + (m a).size + listBytes m l := by
  simp [listBytes]

theorem listBytes_congr {m m1 : Mem} {l : List Nat} (h : ∀ a ∈ l, (m1 a).size = (m a).size) :
    listBytes m1 l = listBytes m l := by
  induction l with
  | nil => rfl
  | cons a l ih =>
    rw [listBytes_cons, listBytes_cons, h a (List.mem_cons_self _ _),
      ih (fun x hx => h x (List.mem_cons_of_mem _ hx))]

theorem flushLoop_chain : ∀ (rest : List Nat) (m : Mem) (h fuel : Nat),
    Chain m (h :: rest) 0 → rest.length < fuel → toI64 (m h).size = (m h).size →
    ∃ m1, flushLoop fuel m h = some (m1, h) ∧ (m1 h).next = 0 ∧
      (m1 h).size = toI64 ((m h).size + listBytes m rest) ∧
      ∀ a, (m1 a).free = (m a).free ∧ (m1 a).elemSize = (m a).elemSize := by
  intro rest
  induction rest with
  | nil =>
    intro m h fuel hc hf hsz
    cases fuel with
    | zero => simp at hf
    | succ f =>
      have hn : (m h).next = 0 := hc.2.1
      refine ⟨m, ?_, hn, ?_, fun a => ⟨rfl, rfl⟩⟩
      · unfold flushLoop
        rw [if_neg (by simpa using hn)]
      · simp [listBytes, hsz]
  | cons n rest ih =>
    intro m h fuel hc hf hsz
    cases fuel with
    | zero => simp at hf
    | succ f =>
      have hnd := Chain.nodup hc
      have hn : (m h).next = n := hc.2.1
      have hn0 : (m h).next ≠ 0 := by rw [hn]; exact hc.2.2.1
      have hh_rest : h ∉ rest := fun hm =>
        (List.nodup_cons.1 hnd).1 (List.mem_cons_of_mem _ hm)
      have hc1 : Chain (mergeNext m h).1 (h :: rest) 0 := by
        refine ⟨hc.1, ?_, ?_⟩
        · rw [mergeNext_next hn0, if_pos rfl, hn]
          exact hc.2.2.2.1
        · refine Chain_congr ?_ hc.2.2.2.2
          intro a ha
          rw [mergeNext_next hn0, if_neg (fun e : a = h => hh_rest (e ▸ ha))]
      have hsz1 : toI64 ((mergeNext m h).1 h).size = ((mergeNext m h).1 h).size := by
        rw [mergeNext_size hn0, if_pos rfl]
        exact toI64_of_I64 (I64_toI64 _)
      obtain ⟨m1, hfl, hnext, hsize, hrest⟩ :=
        ih (mergeNext m h).1 h f hc1 (by simpa using hf) hsz1
      refine ⟨m1, ?_, hnext, ?_, ?_⟩
      · unfold flushLoop
        rw [if_pos hn0, mergeNext_snd]
        exact hfl
      · rw [hsize, mergeNext_size hn0, if_pos rfl, toI64_add_left, hn, listBytes_cons]
        have : listBytes (mergeNext m h).1 rest = listBytes m rest :=
          listBytes_congr (fun a ha => by
            rw [mergeNext_size hn0, if_neg (fun e : a = h => hh_rest (e ▸ ha))])
        rw [this]
        congr 1
        ring
      · intro a
        rw [(hrest a).1, (hrest a).2, mergeNext_free, mergeNext_elemSize]
        exact ⟨rfl, rfl⟩

/-- Claim C8. `flush` returns the state unchanged when `memFree` is non-zero or
the list is empty. In deferred mode on a non-empty finite chain `l` from
`blocks` (nothing is assumed about free flags or `elemSize`) it terminates
within `l.length` iterations, every block is merged into the head, whose size
becomes the `int_t` value of the total of `headerSize + size` over `l` minus
`headerSize` (that number itself when it fits in `int_t`), `brk(head)` is
called and `blocks` is `NULL` afterwards. -/
theorem flush_spec (st : State) (fuel : Nat) :
    ((st.blocks = 0 ∨ st.memFree ≠ 0) → flush fuel st = some st) ∧
    (∀ l : List Nat, st.memFree = 0 → st.blocks ≠ 0 → st.blocks = l.headD 0 →
      Chain st.mem l 0 → l.length ≤ fuel → I64 (st.mem st.blocks).size →
      ∃ st1, flush fuel st = some st1 ∧ st1.blocks = 0 ∧ st1.memFree = st.memFree ∧
        st1.trace = st.trace ++ [Call.brk st.blocks] ∧
        st1.curbrk = (if st.blocks ≤ st.limit then st.blocks else st.curbrk) ∧
        (st1.mem st.blocks).next = 0 ∧
        (st1.mem st.blocks).size = toI64 (listBytes st.mem l - headerSize) ∧
        (I64 (listBytes st.mem l - headerSize) →
          (st1.mem st.blocks).size = listBytes st.mem l - headerSize)) := by
  constructor
  · intro h
    unfold flush
    rw [if_pos h]
  · intro l hmode hne hhead hc hf hsz
    cases l with
    | nil => exact absurd hhead hne
    | cons h rest =>
      have hb : st.blocks = h := hhead
      obtain ⟨m1, hfl, hnext, hsize, _⟩ :=
        flushLoop_chain rest st.mem h fuel hc (by simpa using hf)
          (by rw [← hb]; exact toI64_of_I64 hsz)
      have hcond : ¬ (st.blocks = 0 ∨ st.memFree ≠ 0) := by
        simp [hne, hmode]
      have hsum : (st.mem h).size + listBytes st.mem rest =
          listBytes st.mem (h :: rest) - headerSize := by
        rw [listBytes_cons]; ring
      refine ⟨{ brk { st with mem := m1, blocks := h } h with blocks := 0 }, ?_, rfl, rfl, ?_, ?_,
        ?_, ?_, ?_⟩
      · unfold flush
        rw [if_neg hcond, hb, hfl]
      · rw [hb]; rfl
      · rw [hb]; rfl
      · rw [hb]; exact hnext
      · rw [hb, ← hsum]; exact hsize
      · intro hr
        rw [hb, ← hsum]
        rw [← hsum] at hr
        rw [← toI64_of_I64 hr]
        exact hsize


/-- Witness for C8: `state2` switched to deferred mode is flushed into one block
of size `100 + 40 + 1220 = 1360` at 1000. -/
theorem flush_spec_witness :
    (toggleMemFree state2 0).memFree = 0 ∧ Chain (toggleMemFree state2 0).mem [1000, 1140] 0 ∧
    ∃ st1, flush 2 (toggleMemFree state2 0) = some st1 ∧ st1.blocks = 0 ∧
      st1.trace = [Call.brk 1000] ∧ (st1.mem 1000).size = 1360 := by
  obtain ⟨st1, h1, h2, _, h3, _, _, _, h4⟩ :=
    (flush_spec (toggleMemFree state2 0) 2).2 [1000, 1140] rfl (by decide) rfl
      (by decide!) (by decide) (by decide!)
  exact ⟨rfl, by decide!, st1, h1, h2, h3, (h4 (by decide!)).trans (by decide!)⟩

/-! ## Release of the tail in free mode -/

theorem free_tail_list (st : State) (pre post : List Nat) (b : Nat)
    (hwf : WF st.mem st.blocks (pre ++ b :: post)) (hmode : st.memFree ≠ 0)
    (hused : (st.mem b).free = false) :
    (((coalesce st.memFree (setFree st.mem b true) b).1
        (coalesce st.memFree (setFree st.mem b true) b).2).next = 0 →
      (_free st (b + headerSize)).trace =
        st.trace ++ [Call.brk (coalesce st.memFree (setFree st.mem b true) b).2] ∧
      (_free st (b + headerSize)).curbrk =
        (if (coalesce st.memFree (setFree st.mem b true) b).2 ≤ st.limit
          then (coalesce st.memFree (setFree st.mem b true) b).2 else st.curbrk) ∧
      ∃ l1 x, pre ++ [b] = l1 ++ (coalesce st.memFree (setFree st.mem b true) b).2 :: x ∧
        WF (_free st (b + headerSize)).mem (_free st (b + headerSize)).blocks l1) ∧
    (((coalesce st.memFree (setFree st.mem b true) b).1
        (coalesce st.memFree (setFree st.mem b true) b).2).next ≠ 0 →
      (_free st (b + headerSize)).trace = st.trace ∧
      (_free st (b + headerSize)).curbrk = st.curbrk ∧
      (_free st (b + headerSize)).blocks = st.blocks ∧
      ∃ l1, (coalesce st.memFree (setFree st.mem b true) b).2 ∈ l1 ∧
        WF (_free st (b + headerSize)).mem st.blocks l1) := by
  obtain ⟨l1, x, post1, hl, hw⟩ :=
    coalesce_WF (f := st.memFree) (WF_setFree b true hwf)
  rw [free_unfold hused]
  generalize coalesce st.memFree (setFree st.mem b true) b = r at hl hw ⊢
  obtain ⟨hs0, hsn, hsp, hc1, hc2, hp1, hp2, hnd⟩ := WF_at hw
  constructor
  · intro hnext
    rw [if_pos ⟨hnext, hmode⟩]
    have hpost : post1 = [] := (headD_eq_zero_iff hc2).1 (hsn ▸ hnext)
    subst hpost
    have hd := WF_drop_tail hw
    by_cases hprev : (r.1 r.2).prev ≠ 0
    · rw [if_pos hprev]
      exact ⟨rfl, rfl, l1, x, hl, hd.1 hprev⟩
    · rw [if_neg hprev]
      have he : l1 = [] := hd.2 (not_not.1 hprev)
      subst he
      exact ⟨rfl, rfl, [], x, hl, rfl, trivial, trivial⟩
  · intro hnext
    rw [if_neg (fun hh => hnext hh.1)]
    exact ⟨rfl, rfl, rfl, _, by simp, hw⟩

theorem scan_empty (m : Mem) (size elemSize : Int) (fuel prev : Nat) :
    scan m size elemSize (fuel + 1) 0 prev = some (Scan.miss prev) := by
  simp [scan]

theorem malloc_no_fuel (st : State) (size elemSize : Int) : _malloc 0 st size elemSize = none := by
  simp [_malloc, scan]

theorem freshMem_no_prev (m : Mem) (block : Nat) (size elemSize : Int) :
    freshMem m block 0 size elemSize =
      split (setFree (setElemSize (setSize (setPrev (setNext m block 0) block 0) block
        (toI64 (requestBytes size elemSize - headerSize))) block elemSize) block false)
        block size := by
  unfold freshMem
  simp

/-- The block set up by the miss path on an empty list, seen by `_free`. -/
theorem freshMem_facts (m : Mem) (X : Nat) (n c : Int) (hn0 : 0 < n) (hn1 : n < 2 ^ 63) :
    (freshMem m X 0 n c X).free = false ∧ (freshMem m X 0 n c X).prev = 0 ∧
    ((freshMem m X 0 n c X).next = 0 ∨
      ((freshMem m X 0 n c X).next ≠ X ∧
       (freshMem m X 0 n c (freshMem m X 0 n c X).next).free = true ∧
       (freshMem m X 0 n c (freshMem m X 0 n c X).next).next = 0)) := by
  rw [freshMem_no_prev]
  have hne : newBlockAddr X n ≠ X := newBlockAddr_ne (by omega) hn1
  generalize hm5 : setFree (setElemSize (setSize (setPrev (setNext m X 0) X 0) X
        (toI64 (requestBytes n c - headerSize))) X c) X false = m5
  have h5f : (m5 X).free = false := by rw [← hm5]; simp
  have h5p : (m5 X).prev = 0 := by rw [← hm5]; simp
  have h5n : (m5 X).next = 0 := by rw [← hm5]; simp
  by_cases hg : toU64 ((m5 X).size - n) < headerSize
  · rw [split_of_small hg]
    exact ⟨h5f, h5p, Or.inl h5n⟩
  · have hXn : (split m5 X n X).next = newBlockAddr X n := by
      rw [split_next hg hne, if_pos rfl]
    rw [hXn]
    refine ⟨?_, ?_, Or.inr ⟨hne, ?_, ?_⟩⟩
    · rw [split_free hg, if_neg (Ne.symm hne)]; exact h5f
    · rw [split_prev hg, if_neg (Ne.symm hne)]; exact h5p
    · rw [split_free hg, if_pos rfl]
    · rw [split_next hg hne, if_neg hne, if_pos rfl]
      exact h5n

theorem free_release_head {st : State} {b : Nat} (hused : (st.mem b).free = false)
    (hmode : st.memFree ≠ 0)
    (hnext : ((coalesce st.memFree (setFree st.mem b true) b).1
        (coalesce st.memFree (setFree st.mem b true) b).2).next = 0)
    (hprev : ((coalesce st.memFree (setFree st.mem b true) b).1
        (coalesce st.memFree (setFree st.mem b true) b).2).prev = 0) :
    _free st (b + headerSize) =
      brk { st with mem := (coalesce st.memFree (setFree st.mem b true) b).1, blocks := 0 }
        (coalesce st.memFree (setFree st.mem b true) b).2 := by
  rw [free_unfold hused, if_pos ⟨hnext, hmode⟩, if_neg (not_not.2 hprev)]

/-- In free mode a lone used block with a free successor that ends the list, or
with no successor, is released entirely. -/
theorem coalesce_lone {f : Int} {m : Mem} {X : Nat} (hf : f ≠ 0)
    (hp : (m X).prev = 0)
    (hn : (m X).next = 0 ∨ ((m X).next ≠ X ∧ (m (m X).next).free = true ∧
      (m (m X).next).next = 0)) :
    (coalesce f m X).2 = X ∧ ((coalesce f m X).1 X).next = 0 ∧
      ((coalesce f m X).1 X).prev = 0 := by
  have hpt : ¬ prevTest f m X := fun h => h.1 hp
  rw [coalesce_prev_neg hpt]
  by_cases hnt : nextTest f m X
  · rw [coalesceNext_pos hnt]
    have hn0 : (m X).next ≠ 0 := hnt.1
    rcases hn with h0 | ⟨_, _, hnn⟩
    · exact absurd h0 hn0
    · refine ⟨mergeNext_snd _ _, ?_, ?_⟩
      · rw [mergeNext_next hn0, if_pos rfl]; exact hnn
      · rw [mergeNext_prev hn0, hnn, if_neg (fun h => h.2 h.1)]; exact hp
  · rw [coalesceNext_neg hnt]
    refine ⟨rfl, ?_, hp⟩
    rcases hn with h0 | ⟨_, hfree, _⟩
    · exact h0
    · by_contra hne
      exact hnt ⟨hne, hfree, fun e => absurd e hf⟩

theorem malloc_free_empty (st : State) (fuel : Nat) (n c : Int) (p : Nat) (st1 : State)
    (hb : st.blocks = 0) (hmode : st.memFree ≠ 0) (hn0 : 0 < n) (hn1 : n < 2 ^ 63)
    (hbrk : st.curbrk ≤ st.limit) (hlim : st.curbrk < sbrkFailed)
    (hm : _malloc fuel st n c = some (p, st1)) :
    (_free st1 p).blocks = 0 ∧ (_free st1 p).curbrk = st.curbrk := by
  cases fuel with
  | zero => rw [malloc_no_fuel] at hm; cases hm
  | succ f =>
    have hs : scan st.mem n c (f + 1) st.blocks 0 = some (Scan.miss 0) := by
      rw [hb]; exact scan_empty _ _ _ _ _
    have hX : (sbrk st 0).1 = st.curbrk := sbrk_zero_fst hbrk
    have hXne : (sbrk st 0).1 ≠ sbrkFailed := by rw [hX]; omega
    rw [malloc_miss_eq hs hXne, hX] at hm
    have hp : p = st.curbrk + headerSize := (congrArg (fun r => r.1) (Option.some.inj hm)).symm
    have hmem : st1.mem = freshMem st.mem st.curbrk 0 n c :=
      (congrArg (fun r => r.2.mem) (Option.some.inj hm)).symm
    have hmf : st1.memFree = st.memFree :=
      (congrArg (fun r => r.2.memFree) (Option.some.inj hm)).symm
    have hlimit : st1.limit = st.limit :=
      (congrArg (fun r => r.2.limit) (Option.some.inj hm)).symm
    clear hm
    obtain ⟨hfree, hprev, hnext⟩ := freshMem_facts st.mem st.curbrk n c hn0 hn1
    rw [← hmem] at hfree hprev hnext
    have hmode1 : st1.memFree ≠ 0 := by rw [hmf]; exact hmode
    have hco := coalesce_lone (f := st1.memFree) (m := setFree st1.mem st.curbrk true)
      (X := st.curbrk) hmode1 (by simpa using hprev) (by
        rcases hnext with h0 | ⟨h1, h2, h3⟩
        · left; simpa using h0
        · right
          refine ⟨by simpa using h1, ?_, by simpa using h3⟩
          simp only [setFree_next, setFree_free, if_neg h1]
          exact h2)
    rw [hp, free_release_head hfree hmode1 (by rw [hco.1]; exact hco.2.1)
      (by rw [hco.1]; exact hco.2.2)]
    refine ⟨rfl, ?_⟩
    show (if _ ≤ st1.limit then _ else _) = st.curbrk
    rw [hco.1, hlimit, if_pos hbrk]

/-- Claim C6. In free mode, on a well-formed list, when the block left by the
coalescing part of `_free` has no successor, `_free` calls `brk` with that
block's header address (the break becomes that address when the system allows
it) and the list becomes the blocks that stood before it: its predecessor is
the new tail, or the list is empty; when the coalesced block has a successor
the provider is not called, the break and the head stay and the block is still
in the list. In particular `_malloc` on an empty list followed by `_free` of
the returned pointer leaves the list empty and the break where it was (for a
positive `int_t` size, a positive `elemSize` and a break that the provider
accepts and that is not `(void*)-1`). -/
theorem free_tail_release :
    (∀ (st : State) (pre post : List Nat) (b : Nat),
      WF st.mem st.blocks (pre ++ b :: post) → st.memFree ≠ 0 → (st.mem b).free = false →
      (((coalesce st.memFree (setFree st.mem b true) b).1
          (coalesce st.memFree (setFree st.mem b true) b).2).next = 0 →
        (_free st (b + headerSize)).trace =
          st.trace ++ [Call.brk (coalesce st.memFree (setFree st.mem b true) b).2] ∧
        (_free st (b + headerSize)).curbrk =
          (if (coalesce st.memFree (setFree st.mem b true) b).2 ≤ st.limit
            then (coalesce st.memFree (setFree st.mem b true) b).2 else st.curbrk) ∧
        ∃ l1 x, pre ++ [b] = l1 ++ (coalesce st.memFree (setFree st.mem b true) b).2 :: x ∧
          WF (_free st (b + headerSize)).mem (_free st (b + headerSize)).blocks l1) ∧
      (((coalesce st.memFree (setFree st.mem b true) b).1
          (coalesce st.memFree (setFree st.mem b true) b).2).next ≠ 0 →
        (_free st (b + headerSize)).trace = st.trace ∧
        (_free st (b + headerSize)).curbrk = st.curbrk ∧
        (_free st (b + headerSize)).blocks = st.blocks ∧
        ∃ l1, (coalesce st.memFree (setFree st.mem b true) b).2 ∈ l1 ∧
          WF (_free st (b + headerSize)).mem st.blocks l1)) ∧
    (∀ (st : State) (fuel : Nat) (n c : Int),
      st.blocks = 0 → st.memFree ≠ 0 → 0 < n → n < 2 ^ 63 → 0 < c → st.curbrk ≤ st.limit →
      st.curbrk < sbrkFailed →
      ∃ p st1, _malloc (fuel + 1) st n c = some (p, st1) ∧
        (_free st1 p).blocks = 0 ∧ (_free st1 p).curbrk = st.curbrk) := by
  refine ⟨free_tail_list, ?_⟩
  intro st fuel n c hb hmode hn0 hn1 _ hbrk hlim
  have hs : scan st.mem n c (fuel + 1) st.blocks 0 = some (Scan.miss 0) := by
    rw [hb]; exact scan_empty _ _ _ _ _
  have hXne : (sbrk st 0).1 ≠ sbrkFailed := by rw [sbrk_zero_fst hbrk]; omega
  exact ⟨_, _, malloc_miss_eq hs hXne,
    malloc_free_empty st (fuel + 1) n c _ _ hb hmode hn0 hn1 hbrk hlim (malloc_miss_eq hs hXne)⟩

/-- Witness for C6: in `state3` the used block at 1140 is the tail behind the
used block 1000; `_free(1180)` calls `brk(1140)` and moves the break there. -/
theorem free_tail_release_witness :
    WF state3.mem state3.blocks ([1000] ++ 1140 :: []) ∧ state3.memFree ≠ 0 ∧
    (state3.mem 1140).free = false ∧
    (_free state3 (1140 + headerSize)).trace = state3.trace ++ [Call.brk 1140] ∧
    (_free state3 (1140 + headerSize)).curbrk = 1140 :=
  ⟨by decide!, by decide, by decide!,
    ((free_tail_release.1 state3 [1000] [] 1140 (by decide!) (by decide) (by decide!)).1
      (by decide!)).1.trans (by decide!),
    ((free_tail_release.1 state3 [1000] [] 1140 (by decide!) (by decide) (by decide!)).1
      (by decide!)).2.1.trans (by decide!)⟩

/-! ## Deferred mode -/

theorem listBytes_append (m : Mem) (l1 l2 : List Nat) :
    listBytes m (l1 ++ l2) = listBytes m l1 + listBytes m l2 := by
  simp [listBytes]

/-- Bound of one block's share by the total when all sizes are non-negative. -/
theorem listBytes_nonneg {m : Mem} {l : List Nat} (h : ∀ a ∈ l, 0 ≤ (m a).size) :
    0 ≤ listBytes m l := by
  induction l with
  | nil => simp [listBytes]
  | cons a l ih =>
    rw [listBytes_cons]
    have h1 := h a (List.mem_cons_self _ _)
    have h2 := ih (fun x hx => h x (List.mem_cons_of_mem _ hx))
    have : (0 : Int) ≤ (headerSize : Int) := by unfold headerSize; decide
    omega

/-- Merging `x` with its successor keeps the total of `headerSize + size` and
the sign of the sizes, when the merged size fits in `int_t`. -/
theorem listBytes_mergeNext {m : Mem} {head : Nat} {l1 l2 : List Nat} {x n : Nat}
    (h : WF m head (l1 ++ x :: n :: l2))
    (hpos : ∀ a ∈ l1 ++ x :: n :: l2, 0 ≤ (m a).size)
    (hsum : listBytes m (l1 ++ x :: n :: l2) < 2 ^ 63) :
    listBytes (mergeNext m x).1 (l1 ++ x :: l2) = listBytes m (l1 ++ x :: n :: l2) ∧
    (∀ a ∈ l1 ++ x :: l2, 0 ≤ ((mergeNext m x).1 a).size) := by
  obtain ⟨hx0, hxn, _, _, hc2, _, _, hnd⟩ := WF_at h
  have hxn1 : (m x).next = n := hxn
  have hn0 : (m x).next ≠ 0 := by rw [hxn1]; exact hc2.1
  have hnd1 : ∀ a ∈ l1, a ≠ x := by
    intro a ha e
    subst e
    exact (List.nodup_append.1 hnd).2.2 ha (List.mem_cons_self _ _)
  have hnd2 : ∀ a ∈ l2, a ≠ x := by
    intro a ha e
    subst e
    have := (List.nodup_append.1 hnd).2.1
    exact (List.nodup_cons.1 this).1 (List.mem_cons_of_mem _ ha)
  have hx_pos := hpos x (by simp)
  have hn_pos := hpos n (by simp)
  have h1_pos : 0 ≤ listBytes m l1 := listBytes_nonneg (fun a ha => hpos a (by simp [ha]))
  have h2_pos : 0 ≤ listBytes m l2 := listBytes_nonneg (fun a ha => hpos a (by simp [ha]))
  have hexp : listBytes m (l1 ++ x :: n :: l2) =
      listBytes m l1 + ((headerSize : Int) + (m x).size +
        ((headerSize : Int) + (m n).size + listBytes m l2)) := by
    rw [listBytes_append, listBytes_cons, listBytes_cons]
  have hh : (0 : Int) ≤ (headerSize : Int) := by unfold headerSize; decide
  have hr : I64 ((m x).size + ((headerSize : Int) + (m n).size)) := by
    unfold I64
    rw [hexp] at hsum
    constructor <;> omega
  have hxsize : ((mergeNext m x).1 x).size = (m x).size + ((headerSize : Int) + (m n).size) := by
    rw [mergeNext_size hn0, if_pos rfl, hxn1, toI64_of_I64 hr]
  have hl1 : listBytes (mergeNext m x).1 l1 = listBytes m l1 :=
    listBytes_congr (fun a ha => by rw [mergeNext_size hn0, if_neg (hnd1 a ha)])
  have hl2 : listBytes (mergeNext m x).1 l2 = listBytes m l2 :=
    listBytes_congr (fun a ha => by rw [mergeNext_size hn0, if_neg (hnd2 a ha)])
  constructor
  · rw [listBytes_append, listBytes_cons, hl1, hl2, hxsize, hexp]
    ring
  · intro a ha
    rcases List.mem_append.1 ha with h1 | h1
    · rw [mergeNext_size hn0, if_neg (hnd1 a h1)]
      exact hpos a (by simp [h1])
    · rcases List.mem_cons.1 h1 with rfl | h2
      · rw [hxsize]; omega
      · rw [mergeNext_size hn0, if_neg (hnd2 a h2)]
        exact hpos a (by simp [h2])


theorem coalesceNext_bytes {f : Int} {m : Mem} {head : Nat} {l1 post : List Nat} {s : Nat}
    (h : WF m head (l1 ++ s :: post))
    (hpos : ∀ a ∈ l1 ++ s :: post, 0 ≤ (m a).size)
    (hsum : listBytes m (l1 ++ s :: post) < 2 ^ 63) :
    ∃ l2, (coalesceNext f m s).2 ∈ l2 ∧ WF (coalesceNext f m s).1 head l2 ∧
      listBytes (coalesceNext f m s).1 l2 = listBytes m (l1 ++ s :: post) := by
  by_cases hn : nextTest f m s
  · rw [coalesceNext_pos hn, mergeNext_snd]
    obtain ⟨_, hsn, _, _, _, _, _, _⟩ := WF_at h
    cases post with
    | nil => exact absurd hsn hn.1
    | cons n post1 =>
      exact ⟨l1 ++ s :: post1, by simp, WF_mergeNext h, (listBytes_mergeNext h hpos hsum).1⟩
  · rw [coalesceNext_neg hn]
    exact ⟨l1 ++ s :: post, by simp, h, rfl⟩

theorem coalesce_bytes {f : Int} {m : Mem} {head : Nat} {pre post : List Nat} {b : Nat}
    (h : WF m head (pre ++ b :: post))
    (hpos : ∀ a ∈ pre ++ b :: post, 0 ≤ (m a).size)
    (hsum : listBytes m (pre ++ b :: post) < 2 ^ 63) :
    ∃ l2, (coalesce f m b).2 ∈ l2 ∧ WF (coalesce f m b).1 head l2 ∧
      listBytes (coalesce f m b).1 l2 = listBytes m (pre ++ b :: post) := by
  by_cases hp : prevTest f m b
  · rcases eq_nil_or_snoc pre with e | ⟨L, P, rfl⟩
    · exfalso
      have := (prevTest_iff h).1 hp
      exact this.1 e
    · have h2 : WF m head (L ++ P :: b :: post) := by simpa using h
      have e2 : L ++ [P] ++ b :: post = L ++ P :: b :: post := by simp
      rw [e2] at hpos hsum ⊢
      obtain ⟨hco, hwf3, _, _, _, _⟩ := coalesce_stage1 h2 hp
      obtain ⟨hb1, hp1⟩ := listBytes_mergeNext h2 hpos hsum
      rw [hco, ← hb1]
      exact coalesceNext_bytes hwf3 hp1 (hb1 ▸ hsum)
  · rw [coalesce_prev_neg hp]
    exact coalesceNext_bytes h hpos hsum

/-- Deferred mode (`memFree == 0`): `_free` of a used block of a well-formed list
makes no provider call, keeps the break, the head and the mode flag, leaves a
well-formed list, and keeps the total of `headerSize + size` over the list
when the sizes are non-negative and that total fits in `int_t`. -/
theorem free_deferred_mode (st : State) (pre post : List Nat) (b : Nat)
    (hwf : WF st.mem st.blocks (pre ++ b :: post)) (hmode : st.memFree = 0)
    (hused : (st.mem b).free = false) :
    (_free st (b + headerSize)).trace = st.trace ∧
    (_free st (b + headerSize)).curbrk = st.curbrk ∧
    (_free st (b + headerSize)).blocks = st.blocks ∧
    (_free st (b + headerSize)).memFree = st.memFree ∧
    ((_free st (b + headerSize)).mem b).free = true ∧
    (∃ l1, WF (_free st (b + headerSize)).mem st.blocks l1) ∧
    ((∀ a ∈ pre ++ b :: post, 0 ≤ (st.mem a).size) →
      listBytes st.mem (pre ++ b :: post) < 2 ^ 63 →
      ∃ l1, WF (_free st (b + headerSize)).mem st.blocks l1 ∧
        listBytes (_free st (b + headerSize)).mem l1 = listBytes st.mem (pre ++ b :: post)) := by
  have hfree : _free st (b + headerSize) =
      { st with mem := (coalesce st.memFree (setFree st.mem b true) b).1 } := by
    rw [free_unfold hused, if_neg (fun h => h.2 hmode)]
  have hwf1 := WF_setFree b true hwf
  rw [hfree]
  refine ⟨rfl, rfl, rfl, rfl, ?_, ?_, ?_⟩
  · show ((coalesce st.memFree (setFree st.mem b true) b).1 b).free = true
    rw [coalesce_free, setFree_free, if_pos rfl]
  · obtain ⟨l1, x, post1, _, hw⟩ := coalesce_WF (f := st.memFree) hwf1
    exact ⟨_, hw⟩
  · intro hpos hsum
    have hb : listBytes (setFree st.mem b true) (pre ++ b :: post) =
        listBytes st.mem (pre ++ b :: post) :=
      listBytes_congr (fun a _ => setFree_size _ _ _ _)
    obtain ⟨l2, _, hw, hbytes⟩ := coalesce_bytes (f := st.memFree) hwf1
      (fun a ha => by rw [setFree_size]; exact hpos a ha) (hb ▸ hsum)
    exact ⟨l2, hw, hbytes.trans hb⟩

/-- Claim C7 (evaluation). Deferred mode from start-up with the break at 1000:
after `_malloc(100, 100)` the break is 2400; `_malloc(44992058716364760, 1)`
then computes the byte count `41 * 449920587163647600 = 2^64 - 16` in
`unsigned long`, calls `sbrk(-16)` and moves the break down to 2384. -/
theorem deferred_overflow_shrinks :
    requestBytes 44992058716364760 1 = 2 ^ 64 - 16 ∧
    ((_malloc 1 (toggleMemFree (initState 1000 1000000) 0) 100 100).bind fun r1 =>
      (_malloc 3 r1.2 44992058716364760 1).map fun r2 =>
        (r1.2.memFree, r1.2.curbrk, r2.2.memFree, r2.2.curbrk, r2.2.trace)) =
      some (0, 2400, 0, 2384,
        [Call.sbrk 0, Call.sbrk 1400, Call.sbrk 0, Call.sbrk (-16)]) := by
  decide!

/-! ## Double release -/

theorem free_marks_free (st : State) (p : Nat) (hp : p ≠ 0) :
    ((_free st p).mem (p - headerSize)).free = true := by
  unfold _free
  rw [if_neg hp]
  dsimp only
  by_cases h : (st.mem (p - headerSize)).free = true
  · rw [if_pos h]; exact h
  · rw [if_neg h]
    have hc : ∀ a, ((coalesce st.memFree (setFree st.mem (p - headerSize) true) (p - headerSize)).1 a).free
        = (setFree st.mem (p - headerSize) true a).free := fun a => coalesce_free _ _ _ a
    split
    · split
      · simp [brk, hc, setFree]
      · simp [brk, hc, setFree]
    · simp [hc, setFree]

/-- Claim C9. In both modes `_free` on the payload of a block whose header is
already marked free returns the state unchanged (head, every block, mode flag,
break and provider log), and a second `_free(p)` right after `_free(p)` changes
nothing. -/
theorem free_twice (st : State) (p : Nat) :
    ((st.mem (p - headerSize)).free = true → _free st p = st) ∧
    _free (_free st p) p = _free st p := by
  have h1 : ∀ s : State, (s.mem (p - headerSize)).free = true → _free s p = s := by
    intro s h
    unfold _free
    by_cases hp : p = 0
    · rw [if_pos hp]
    · rw [if_neg hp]
      dsimp only
      rw [if_pos h]
  refine ⟨h1 st, ?_⟩
  by_cases hp : p = 0
  · have : ∀ s : State, _free s p = s := by
      intro s; unfold _free; rw [if_pos hp]
    rw [this, this]
  · exact h1 _ (free_marks_free st p hp)

/-- Witness for C9: the block at 1140 of `state2` is free, so `_free(1180)`
returns `state2` itself. -/
theorem free_twice_witness :
    (state2.mem (1180 - headerSize)).free = true ∧ _free state2 1180 = state2 :=
  ⟨by decide!, (free_twice state2 1180).1 (by decide!)⟩

/-! ## Reuse of a freed block -/

/-! ## Size of the region requested on a miss -/

theorem request_ge {n c : Int} (hc : 0 < c) (hcn : c ≤ n) :
    n + 80 ≤ ((headerSize : Int) + c) * (Int.tdiv n c * CHUNK) := by
  have hn : 0 ≤ n := by omega
  have hq : Int.tdiv n c = n / c := Int.tdiv_eq_ediv hn (le_of_lt hc)
  rw [hq]
  have h1 : c * (n / c) + n % c = n := Int.ediv_add_emod n c
  have h2 : n % c < c := Int.emod_lt_of_pos n hc
  have h3 : 0 ≤ n % c := Int.emod_nonneg n (ne_of_gt hc)
  have hq1 : 1 ≤ n / c := by
    by_contra hlt
    have hq0 : n / c ≤ 0 := by omega
    have : c * (n / c) ≤ 0 := by
      have := mul_le_mul_of_nonneg_left hq0 (le_of_lt hc)
      simpa using this
    omega
  have hcq : c ≤ c * (n / c) := by
    have := mul_le_mul_of_nonneg_left hq1 (le_of_lt hc)
    simpa using this
  unfold headerSize CHUNK
  have e : ((40 : Nat) : Int) = 40 := rfl
  rw [e]
  have : (40 + c) * (n / c * 10) = 400 * (n / c) + 10 * (c * (n / c)) := by ring
  rw [this]
  omega

theorem requestBytes_eq {n c : Int} (hc : 0 < c) (hcn : c ≤ n)
    (hrb : ((headerSize : Int) + c) * (Int.tdiv n c * CHUNK) < 2 ^ 63) :
    requestBytes n c = ((headerSize : Int) + c) * (Int.tdiv n c * CHUNK) := by
  have := request_ge hc hcn
  unfold requestBytes
  omega

/-! ## Blocks in ascending address order -/

theorem Ascending_append {m : Mem} {l1 l2 : List Nat} {top : Nat} :
    Ascending m (l1 ++ l2) top ↔ Ascending m l1 (l2.headD top) ∧ Ascending m l2 top := by
  induction l1 with
  | nil => exact ⟨fun h => ⟨trivial, h⟩, fun h => h.2⟩
  | cons a l ih =>
    have hh : (l ++ l2).headD top = l.headD (l2.headD top) := by cases l <;> rfl
    constructor
    · intro h
      have h3 := ih.1 h.2.2
      exact ⟨⟨h.1, hh ▸ h.2.1, h3.1⟩, h3.2⟩
    · intro h
      exact ⟨h.1.1, hh.symm ▸ h.1.2.1, ih.2 ⟨h.1.2.2, h.2⟩⟩

/-- Every block of an ascending list ends at or below the bound. -/
theorem Ascending.le_top {m : Mem} : ∀ {l : List Nat} {top : Nat}, Ascending m l top →
    ∀ a ∈ l, 0 ≤ (m a).size ∧ (a : Int) + headerSize + (m a).size ≤ (top : Int) := by
  intro l
  induction l with
  | nil => intro _ _ a ha; simp at ha
  | cons b l ih =>
    intro top h a ha
    have hb : (b : Int) + headerSize + (m b).size ≤ (top : Int) := by
      cases l with
      | nil => exact h.2.1
      | cons c l2 =>
        have h1 : (b : Int) + headerSize + (m b).size ≤ (c : Int) := h.2.1
        have h2 := (ih h.2.2 c (List.mem_cons_self _ _))
        have : (0 : Int) ≤ (headerSize : Int) := by unfold headerSize; decide
        omega
    rcases List.mem_cons.1 ha with rfl | h2
    · exact ⟨h.1, hb⟩
    · exact ih h.2.2 a h2

/-- Blocks before `b` end at or below `b`; blocks after `b` start at or above its end. -/
theorem Ascending_at {m : Mem} {pre post : List Nat} {b top : Nat}
    (h : Ascending m (pre ++ b :: post) top) :
    0 ≤ (m b).size ∧ (b : Int) + headerSize + (m b).size ≤ ((post.headD top : Nat) : Int) ∧
    (b : Int) + headerSize + (m b).size ≤ (top : Int) ∧
    (∀ a ∈ pre, (a : Int) + headerSize + (m a).size ≤ (b : Int)) ∧
    (∀ a ∈ post, (b : Int) + headerSize + (m b).size ≤ (a : Int) ∧ 0 ≤ (m a).size ∧
      (a : Int) + headerSize + (m a).size ≤ (top : Int)) := by
  have h2 := Ascending_append.1 h
  have hb := h2.2
  have hbt := Ascending.le_top hb b (List.mem_cons_self _ _)
  refine ⟨hb.1, hb.2.1, hbt.2, ?_, ?_⟩
  · intro a ha
    exact (Ascending.le_top h2.1 a ha).2
  · intro a ha
    have ht := Ascending.le_top hb.2.2 a ha
    refine ⟨?_, ht.1, ht.2⟩
    cases post with
    | nil => simp at ha
    | cons c l2 =>
      have h1 : (b : Int) + headerSize + (m b).size ≤ (c : Int) := hb.2.1
      rcases List.mem_cons.1 ha with rfl | h3
      · exact h1
      · have hc2 : Ascending m ([c] ++ l2) top := hb.2.2
        have h4 := Ascending_append.1 hc2
        have h5 := Ascending.le_top h4.1 c (List.mem_cons_self _ _)
        -- a lies in l2, after c
        obtain ⟨x, y, hxy⟩ := List.append_of_mem h3
        have h7 : Ascending m ((c :: x) ++ a :: y) top := by
          rw [hxy] at hc2; simpa using hc2
        have h8 := (Ascending_append.1 h7).1
        have h9 := Ascending.le_top h8 c (List.mem_cons_self _ _)
        have e : (a :: y).headD top = a := rfl
        rw [e] at h9
        have : (0 : Int) ≤ (headerSize : Int) := by unfold headerSize; decide
        omega

/-- Redirecting the `next` of the last block redirects the end of the chain. -/
theorem Chain_retarget {m m1 : Mem} {q : Nat} : ∀ {l : List Nat}, Chain m l 0 → l.Nodup →
    (∀ a ∈ l, (m1 a).next = if a = l.getLastD 0 then q else (m a).next) → Chain m1 l q := by
  intro l
  induction l with
  | nil => intro _ _ _; trivial
  | cons a l ih =>
    intro hc hnd hm
    have ha := hm a (List.mem_cons_self _ _)
    cases l with
    | nil =>
      refine ⟨hc.1, ?_, trivial⟩
      rw [ha]
      simp
    | cons c l2 =>
      have hlast : (a :: c :: l2).getLastD 0 = (c :: l2).getLastD 0 := rfl
      have hane : a ≠ (c :: l2).getLastD 0 := by
        intro e
        have hmem : (c :: l2).getLastD 0 ∈ c :: l2 := by
          rw [List.getLastD_eq_getLast?]
          simp [List.getLast?_eq_getLast]
        exact (List.nodup_cons.1 hnd).1 (e ▸ hmem)
      refine ⟨hc.1, ?_, ?_⟩
      · rw [ha, hlast, if_neg hane]
        exact hc.2.1
      · refine ih hc.2.2 (List.nodup_cons.1 hnd).2 ?_
        intro x hx
        rw [hm x (List.mem_cons_of_mem _ hx), hlast]

theorem toU64_of_range {x : Int} (h0 : 0 ≤ x) (h1 : x < 2 ^ 64) : (toU64 x : Int) = x := by
  unfold toU64; omega

theorem newBlockAddr_eq {b : Nat} {n : Int} (h0 : 0 ≤ (b : Int) + headerSize + n)
    (h1 : (b : Int) + headerSize + n < 2 ^ 64) :
    (newBlockAddr b n : Int) = (b : Int) + headerSize + n := by
  unfold newBlockAddr
  exact toU64_of_range h0 h1

theorem brk_trace (st : State) (a : Nat) : (brk st a).trace = st.trace ++ [Call.brk a] := rfl

theorem coalesceNext_fields (f : Int) (m : Mem) (b : Nat) :
    (∀ a, a ≠ b → ((coalesceNext f m b).1 a).next = (m a).next ∧
      ((coalesceNext f m b).1 a).size = (m a).size) ∧
    (∀ a, ((coalesceNext f m b).1 a).free = (m a).free ∧
      ((coalesceNext f m b).1 a).elemSize = (m a).elemSize) ∧
    (((coalesceNext f m b).1 b).size = (m b).size ∨
      ((m b).next ≠ 0 ∧ ((coalesceNext f m b).1 b).size =
        toI64 ((m b).size + ((headerSize : Int) + (m (m b).next).size)))) := by
  by_cases hn : nextTest f m b
  · rw [coalesceNext_pos hn]
    refine ⟨fun a ha => ?_, fun a => ⟨mergeNext_free _ _ _, mergeNext_elemSize _ _ _⟩, Or.inr ⟨hn.1, ?_⟩⟩
    · rw [mergeNext_next hn.1, mergeNext_size hn.1, if_neg ha, if_neg ha]
      exact ⟨rfl, rfl⟩
    · rw [mergeNext_size hn.1, if_pos rfl]
  · rw [coalesceNext_neg hn]
    exact ⟨fun a _ => ⟨rfl, rfl⟩, fun a => ⟨rfl, rfl⟩, Or.inl rfl⟩

/-- A block just served by `_malloc`, freed without being merged into its
predecessor and without being released, is found again by the same request. -/
theorem served_reuse {st1 : State} {n c : Int} {fuel : Nat} {pre : List Nat} {b : Nat}
    (hs : Served st1 n c fuel pre b)
    (hnp : ¬ prevTest st1.memFree (setFree st1.mem b true) b)
    (hkeep : (_free st1 (b + headerSize)).trace = st1.trace) :
    ∃ st3, _malloc fuel (_free st1 (b + headerSize)) n c = some (b + headerSize, st3) ∧
      st3.trace = (_free st1 (b + headerSize)).trace := by
  obtain ⟨hb0, hbpre, hfuel, hhead, hchain, hnofit, hused, helem, hsize, hnlow, hnextb⟩ := hs
  have hfree : _free st1 (b + headerSize) =
      { st1 with mem := (coalesceNext st1.memFree (setFree st1.mem b true) b).1 } := by
    have hu := free_unfold hused
    rw [coalesce_prev_neg hnp] at hu
    by_cases hrel : ((coalesceNext st1.memFree (setFree st1.mem b true) b).1
        (coalesceNext st1.memFree (setFree st1.mem b true) b).2).next = 0 ∧ st1.memFree ≠ 0
    · exfalso
      rw [if_pos hrel] at hu
      rw [hu] at hkeep
      by_cases hp : ((coalesceNext st1.memFree (setFree st1.mem b true) b).1
          (coalesceNext st1.memFree (setFree st1.mem b true) b).2).prev ≠ 0
      · rw [if_pos hp, brk_trace] at hkeep
        simp at hkeep
      · rw [if_neg hp, brk_trace] at hkeep
        simp at hkeep
    · rw [if_neg hrel] at hu
      exact hu
  obtain ⟨hoth, hall, hbsz⟩ := coalesceNext_fields st1.memFree (setFree st1.mem b true) b
  generalize hM : (coalesceNext st1.memFree (setFree st1.mem b true) b).1 = M at hfree hoth hall hbsz
  have hpre_ne : ∀ a ∈ pre, a ≠ b := fun a ha e => hbpre (e ▸ ha)
  have hchain2 : Chain M pre b := by
    refine Chain_congr ?_ hchain
    intro a ha
    rw [(hoth a (hpre_ne a ha)).1, setFree_next]
  have hnofit2 : ∀ a ∈ pre, ¬ Fits M n c a := by
    intro a ha hfit
    apply hnofit a ha
    unfold Fits at hfit ⊢
    rw [(hoth a (hpre_ne a ha)).2, (hall a).1, (hall a).2, setFree_size, setFree_free,
      setFree_elemSize, if_neg (hpre_ne a ha)] at hfit
    exact hfit
  have hfit2 : Fits M n c b := by
    unfold Fits
    refine ⟨?_, ?_, ?_⟩
    · rcases hbsz with h | ⟨hn0, h⟩
      · rw [h, setFree_size]; exact hsize
      · rw [h]
        simp only [setFree_size, setFree_next] at hn0 ⊢
        have hN := hnextb hn0
        have hr : I64 ((st1.mem b).size + ((headerSize : Int) + (st1.mem (st1.mem b).next).size)) := by
          unfold I64
          have : (0 : Int) ≤ (headerSize : Int) := by unfold headerSize; decide
          constructor <;> omega
        rw [toI64_of_I64 hr]
        have : (0 : Int) ≤ (headerSize : Int) := by unfold headerSize; decide
        omega
    · rw [(hall b).1, setFree_free, if_pos rfl]
    · rw [(hall b).2, setFree_elemSize]; exact helem
  have hscan : scan M n c fuel st1.blocks 0 = some (Scan.hit b) := by
    rw [hhead]
    exact scan_prefix_hit M n c pre b fuel 0 hchain2 hb0 hfuel hnofit2 hfit2
  rw [hfree]
  exact ⟨_, @malloc_of_hit { st1 with mem := M } n c fuel b hscan, rfl⟩

theorem headerSize_cast : ((headerSize : Nat) : Int) = 40 := rfl

/-- The block served on the hit path of `_malloc`. -/
theorem hit_served {st : State} {n c : Int} {fuel : Nat} {pre post : List Nat} {b : Nat}
    (hhead : st.blocks = (pre ++ b :: post).headD 0)
    (hc : Chain st.mem (pre ++ b :: post) 0)
    (hasc : Ascending st.mem (pre ++ b :: post) st.curbrk)
    (htop : (st.curbrk : Int) < 2 ^ 63) (hn0 : 0 < n)
    (hf : (pre ++ b :: post).length < fuel)
    (hpre : ∀ a ∈ pre, ¬ Fits st.mem n c a) (hb : Fits st.mem n c b) :
    Served { st with mem := setFree (split st.mem b n) b false } n c fuel pre b := by
  obtain ⟨hsz0, hbN, hbtop, haPre, haPost⟩ := Ascending_at hasc
  have hc2 := Chain_append.1 hc
  have hb0 : b ≠ 0 := hc2.2.1
  have hbnext : (st.mem b).next = post.headD 0 := hc2.2.2.1
  have hnd := Chain.nodup hc
  have hbpre : b ∉ pre := fun hm =>
    (List.nodup_append.1 hnd).2.2 hm (List.mem_cons_self _ _) 
  have hpre_ne : ∀ a ∈ pre, a ≠ b := fun a ha e => hbpre (e ▸ ha)
  have hlen : pre.length < fuel := by
    have : (pre ++ b :: post).length = pre.length + (post.length + 1) := by simp
    omega
  have hhead2 : st.blocks = pre.headD b := by rw [hhead, headD_append_cons]
  have hchain : Chain st.mem pre b := hc2.1
  obtain ⟨hbsz, hbfree, hbel⟩ := hb
  have hpre_lt : ∀ a ∈ pre, (a : Int) < (b : Int) := by
    intro a ha
    have h1 := haPre a ha
    have h2 := (Ascending.le_top (Ascending_append.1 hasc).1 a ha).1
    rw [headerSize_cast] at h1
    omega
  rw [headerSize_cast] at hbtop hbN
  by_cases hg : toU64 ((st.mem b).size - n) < headerSize
  · -- the block is kept whole
    rw [split_of_small hg]
    refine ⟨hb0, hbpre, hlen, hhead2, ?_, ?_, ?_, ?_, ?_, by omega, ?_⟩
    · exact Chain_congr (fun a _ => setFree_next _ _ _ _) hchain
    · intro a ha hfit
      apply hpre a ha
      unfold Fits at hfit ⊢
      simp only [setFree_size, setFree_free, setFree_elemSize, if_neg (hpre_ne a ha)] at hfit
      exact hfit
    · simp
    · simp only [setFree_elemSize]; exact hbel
    · simp only [setFree_size]; exact hbsz
    · simp only [setFree_next, setFree_size]
      intro hne
      rw [hbnext] at hne ⊢
      have hmem : post.headD 0 ∈ post := by
        rcases headD_mem_or (l := post) 0 with h | h
        · exact absurd h hne
        · exact h
      have hN := haPost _ hmem
      rw [headerSize_cast] at hN ⊢
      refine ⟨hN.2.1, ?_⟩
      omega
  · -- the block is split
    have hdiff : (toU64 ((st.mem b).size - n) : Int) = (st.mem b).size - n :=
      toU64_of_range (by omega) (by omega)
    have hge : (40 : Int) ≤ (st.mem b).size - n := by
      have : ¬ ((toU64 ((st.mem b).size - n) : Int) < 40) := by
        intro h; apply hg; unfold headerSize; omega
      omega
    have hNB : (newBlockAddr b n : Int) = (b : Int) + 40 + n := by
      have := newBlockAddr_eq (b := b) (n := n) (by rw [headerSize_cast]; omega)
        (by rw [headerSize_cast]; omega)
      rwa [headerSize_cast] at this
    have hne : newBlockAddr b n ≠ b := by
      intro e; rw [e] at hNB; omega
    have hNBpre : ∀ a ∈ pre, a ≠ newBlockAddr b n := by
      intro a ha e
      have := hpre_lt a ha
      rw [e, hNB] at this
      omega
    refine ⟨hb0, hbpre, hlen, hhead2, ?_, ?_, ?_, ?_, ?_, by omega, ?_⟩
    · refine Chain_congr ?_ hchain
      intro a ha
      simp only [setFree_next]
      rw [split_next hg hne, if_neg (hpre_ne a ha), if_neg (hNBpre a ha)]
    · intro a ha hfit
      apply hpre a ha
      unfold Fits at hfit ⊢
      simp only [setFree_size, setFree_free, setFree_elemSize, if_neg (hpre_ne a ha)] at hfit
      rw [split_size hg hne, split_free hg, split_elemSize hg, if_neg (hpre_ne a ha),
        if_neg (hNBpre a ha), if_neg (hNBpre a ha), if_neg (hNBpre a ha)] at hfit
      exact hfit
    · simp
    · simp only [setFree_elemSize]
      rw [split_elemSize hg, if_neg (Ne.symm hne)]
      exact hbel
    · simp only [setFree_size]
      rw [split_size hg hne, if_pos rfl]
    · simp only [setFree_next, setFree_size]
      rw [split_next hg hne, if_pos rfl, split_size hg hne, if_pos rfl, split_size hg hne,
        if_neg hne, if_pos rfl]
      intro _
      have hr : I64 ((st.mem b).size - (n + (headerSize : Int))) := by
        unfold I64; rw [headerSize_cast]; constructor <;> omega
      rw [toI64_of_I64 hr, headerSize_cast]
      constructor <;> omega

/-- The block served on the miss path of `_malloc` when the break lies above
every block of the list. -/
theorem miss_served {st st1 : State} {n c : Int} {fuel : Nat} {l : List Nat}
    (hhead : st.blocks = l.headD 0) (hc : Chain st.mem l 0)
    (hasc : Ascending st.mem l st.curbrk)
    (hbrk0 : 0 < st.curbrk) (htop : (st.curbrk : Int) < 2 ^ 63)
    (hc0 : 0 < c) (hcn : c ≤ n)
    (hrb : ((headerSize : Int) + c) * (Int.tdiv n c * CHUNK) < 2 ^ 63)
    (hf : l.length < fuel) (hno : ∀ a ∈ l, ¬ Fits st.mem n c a)
    (hmem : st1.mem = freshMem st.mem st.curbrk (l.getLastD 0) n c)
    (hblocks : st1.blocks = if st.blocks = 0 then st.curbrk else st.blocks) :
    Served st1 n c fuel l st.curbrk := by
  have hrbge := request_ge hc0 hcn
  have hrbeq := requestBytes_eq hc0 hcn hrb
  rw [← hrbeq] at hrbge hrb
  have hmem2 : st1.mem =
      if l.getLastD 0 ≠ 0 then
        setNext (split (setFree (setElemSize (setSize (setPrev (setNext st.mem st.curbrk 0)
          st.curbrk (l.getLastD 0)) st.curbrk (toI64 (requestBytes n c - headerSize)))
          st.curbrk c) st.curbrk false) st.curbrk n) (l.getLastD 0) st.curbrk
      else
        split (setFree (setElemSize (setSize (setPrev (setNext st.mem st.curbrk 0)
          st.curbrk (l.getLastD 0)) st.curbrk (toI64 (requestBytes n c - headerSize)))
          st.curbrk c) st.curbrk false) st.curbrk n := by
    rw [hmem]; rfl
  clear hmem
  generalize requestBytes n c = rb at hrbge hrb hmem2
  generalize hX : st.curbrk = X at *
  generalize hprev : l.getLastD 0 = prev at hmem2
  have hX0 : X ≠ 0 := by omega
  have hlt : ∀ a ∈ l, (a : Int) < (X : Int) := by
    intro a ha
    have := Ascending.le_top hasc a ha
    rw [headerSize_cast] at this
    omega
  have hXl : X ∉ l := fun hm => by have := hlt X hm; omega
  have hl_ne : ∀ a ∈ l, a ≠ X := fun a ha e => hXl (e ▸ ha)
  have hNB : (newBlockAddr X n : Int) = (X : Int) + 40 + n := by
    have := newBlockAddr_eq (b := X) (n := n) (by rw [headerSize_cast]; omega)
      (by rw [headerSize_cast]; omega)
    rwa [headerSize_cast] at this
  have hne : newBlockAddr X n ≠ X := by
    intro e; rw [e] at hNB; omega
  have hl_NB : ∀ a ∈ l, a ≠ newBlockAddr X n := by
    intro a ha e
    have := hlt a ha
    rw [e, hNB] at this
    omega
  have hprev_mem : prev ≠ 0 → prev ∈ l := by
    intro h
    rw [← hprev] at h ⊢
    have hl : l ≠ [] := fun e => h ((getLastD_eq_zero_iff hc).2 e)
    rw [List.getLastD_eq_getLast?]
    simp [List.getLast?_eq_getLast, hl]
  -- the memory before the split
  generalize hm5 : setFree (setElemSize (setSize (setPrev (setNext st.mem X 0) X prev) X
      (toI64 (rb - headerSize))) X c) X false = m5 at *
  have h5size : (m5 X).size = rb - 40 := by
    rw [← hm5]
    simp only [setFree_size, setElemSize_size, setSize_size, if_pos]
    have hr : I64 (rb - (headerSize : Int)) := by
      unfold I64; rw [headerSize_cast]; constructor <;> omega
    rw [toI64_of_I64 hr, headerSize_cast]
  have h5other : ∀ a, a ≠ X → (m5 a).size = (st.mem a).size ∧ (m5 a).free = (st.mem a).free ∧
      (m5 a).elemSize = (st.mem a).elemSize ∧ (m5 a).next = (st.mem a).next := by
    intro a ha
    rw [← hm5]
    simp [ha]
  have h5X : (m5 X).free = false ∧ (m5 X).elemSize = c := by
    rw [← hm5]; simp
  have hg : ¬ toU64 ((m5 X).size - n) < headerSize := by
    rw [h5size]
    have hd : (toU64 (rb - 40 - n) : Int) = rb - 40 - n := toU64_of_range (by omega) (by omega)
    unfold headerSize
    omega
  have hM : st1.mem = if prev ≠ 0 then setNext (split m5 X n) prev X else split m5 X n := hmem2
  have hprevX : prev ≠ 0 → prev ≠ X := fun h => hl_ne prev (hprev_mem h)
  have hprevNB : prev ≠ 0 → prev ≠ newBlockAddr X n := fun h => hl_NB prev (hprev_mem h)
  -- fields of the new memory
  have hfields : ∀ a, (st1.mem a).size = (split m5 X n a).size ∧
      (st1.mem a).free = (split m5 X n a).free ∧
      (st1.mem a).elemSize = (split m5 X n a).elemSize ∧
      (st1.mem a).next = if a = prev ∧ prev ≠ 0 then X else (split m5 X n a).next := by
    intro a
    rw [hM]
    by_cases hp : prev ≠ 0
    · rw [if_pos hp]
      simp only [setNext_size, setNext_free, setNext_elemSize, setNext_next]
      refine ⟨trivial, trivial, trivial, ?_⟩
      by_cases ha : a = prev
      · rw [if_pos ha, if_pos ⟨ha, hp⟩]
      · rw [if_neg ha, if_neg (fun h => ha h.1)]
    · rw [if_neg hp, if_neg (fun h => hp h.2)]
      exact ⟨rfl, rfl, rfl, rfl⟩
  refine ⟨hX0, hXl, hf, ?_, ?_, ?_, ?_, ?_, ?_, by omega, ?_⟩
  · rw [hblocks, hhead]
    cases l with
    | nil => simp
    | cons a l2 =>
      have : a ≠ 0 := hc.1
      simp [this]
  · refine Chain_retarget hc (Chain.nodup hc) ?_
    intro a ha
    rw [(hfields a).2.2.2, split_next hg hne, if_neg (hl_ne a ha), if_neg (hl_NB a ha),
      (h5other a (hl_ne a ha)).2.2.2, hprev]
    by_cases hap : a = prev
    · have hp0 : prev ≠ 0 := hap ▸ Chain.ne_zero hc ha
      rw [if_pos ⟨hap, hp0⟩, if_pos hap]
    · rw [if_neg (fun h => hap h.1), if_neg hap]
  · intro a ha hfit
    apply hno a ha
    unfold Fits at hfit ⊢
    rw [(hfields a).1, (hfields a).2.1, (hfields a).2.2.1, split_size hg hne, split_free hg,
      split_elemSize hg, if_neg (hl_ne a ha), if_neg (hl_NB a ha), if_neg (hl_NB a ha),
      if_neg (hl_NB a ha), (h5other a (hl_ne a ha)).1, (h5other a (hl_ne a ha)).2.1,
      (h5other a (hl_ne a ha)).2.2.1] at hfit
    exact hfit
  · rw [(hfields X).2.1, split_free hg, if_neg (Ne.symm hne)]
    exact h5X.1
  · rw [(hfields X).2.2.1, split_elemSize hg, if_neg (Ne.symm hne)]
    exact h5X.2
  · rw [(hfields X).1, split_size hg hne, if_pos rfl]
  · have hXnext : (st1.mem X).next = newBlockAddr X n := by
      rw [(hfields X).2.2.2, split_next hg hne, if_pos rfl]
      by_cases hp : prev ≠ 0
      · rw [if_neg (fun h => hprevX hp h.1.symm)]
      · rw [if_neg (fun h => hp h.2)]
    rw [hXnext, (hfields X).1, (hfields _).1, split_size hg hne, if_pos rfl,
      split_size hg hne, if_neg hne, if_pos rfl, h5size]
    intro _
    have hr : I64 (rb - 40 - (n + (headerSize : Int))) := by
      unfold I64; rw [headerSize_cast]; constructor <;> omega
    rw [toI64_of_I64 hr, headerSize_cast]
    constructor <;> omega

/-- Claim C10 (amended). Let the list be a finite chain of non-overlapping
blocks of non-negative size in ascending address order below the break, with
the break non-`NULL`, accepted by the provider and below `2^63`, and let
`c <= n` with a byte count below `2^63`. If `_malloc(n, c)` returns `p` and
`_free(p)` neither merges the block into its predecessor nor calls the
provider (no tail release), then with the same fuel a second `_malloc(n, c)`
returns the same pointer `p` and makes no provider call. Both release modes. -/
theorem malloc_free_malloc (st : State) (l : List Nat) (n c : Int) (fuel p : Nat) (st1 : State)
    (hhead : st.blocks = l.headD 0) (hc : Chain st.mem l 0)
    (hasc : Ascending st.mem l st.curbrk)
    (hbrk0 : 0 < st.curbrk) (hbrk : st.curbrk ≤ st.limit) (hlim : st.limit < 2 ^ 63)
    (hc0 : 0 < c) (hcn : c ≤ n)
    (hrb : ((headerSize : Int) + c) * (Int.tdiv n c * CHUNK) < 2 ^ 63)
    (hf : l.length < fuel)
    (hm : _malloc fuel st n c = some (p, st1))
    (hnp : ¬ prevTest st1.memFree (setFree st1.mem (p - headerSize) true) (p - headerSize))
    (hkeep : (_free st1 p).trace = st1.trace) :
    ∃ st3, _malloc fuel (_free st1 p) n c = some (p, st3) ∧
      st3.trace = (_free st1 p).trace := by
  have htop : (st.curbrk : Int) < 2 ^ 63 := by omega
  have hserved : ∃ pre b, p = b + headerSize ∧ Served st1 n c fuel pre b := by
    rcases first_fit_cases st.mem n c l with hno | ⟨pre, b, post, hl, hpre, hb⟩
    · have hs := scan_miss st.mem n c l fuel 0 hc hf hno
      rw [← hhead] at hs
      have hX : (sbrk st 0).1 = st.curbrk := sbrk_zero_fst hbrk
      have hXne : (sbrk st 0).1 ≠ sbrkFailed := by
        rw [hX]; unfold sbrkFailed; omega
      rw [malloc_miss_eq hs hXne, hX] at hm
      have hp : p = st.curbrk + headerSize :=
        (congrArg (fun r => r.1) (Option.some.inj hm)).symm
      have hmem : st1.mem = freshMem st.mem st.curbrk (l.getLastD 0) n c :=
        (congrArg (fun r => r.2.mem) (Option.some.inj hm)).symm
      have hbl : st1.blocks = if st.blocks = 0 then st.curbrk else st.blocks :=
        (congrArg (fun r => r.2.blocks) (Option.some.inj hm)).symm
      exact ⟨l, st.curbrk, hp,
        miss_served hhead hc hasc hbrk0 htop hc0 hcn hrb hf hno hmem hbl⟩
    · subst hl
      have hs := scan_hit st.mem n c pre b post fuel 0 hc hf hpre hb
      rw [← hhead] at hs
      rw [malloc_of_hit hs] at hm
      have hp : p = b + headerSize := (congrArg (fun r => r.1) (Option.some.inj hm)).symm
      have hst : st1 = { st with mem := setFree (split st.mem b n) b false } :=
        (congrArg (fun r => r.2) (Option.some.inj hm)).symm
      rw [hst]
      exact ⟨pre, b, hp, hit_served hhead hc hasc htop (by omega) hf hpre hb⟩
  obtain ⟨pre, b, hp, hsv⟩ := hserved
  subst hp
  rw [Nat.add_sub_cancel] at hnp
  exact served_reuse hsv hnp hkeep


theorem eq_some_getD {α : Type} {o : Option α} (d : α) (h : o.isSome = true) :
    o = some (o.getD d) := by
  cases o with
  | none => simp at h
  | some x => rfl

/-- Witness for C10: `_malloc(100, 100)` on the start-up state in deferred mode,
then `_free`, then the same request again. -/
theorem malloc_free_malloc_witness :
    _malloc 1 deferredInit 100 100 = some (servedOnce.1, servedOnce.2) ∧
    (_free servedOnce.2 servedOnce.1).trace = servedOnce.2.trace ∧
    ∃ st3, _malloc 1 (_free servedOnce.2 servedOnce.1) 100 100 = some (servedOnce.1, st3) ∧
      st3.trace = (_free servedOnce.2 servedOnce.1).trace :=
  ⟨eq_some_getD (0, deferredInit) (by decide!), by decide!,
    malloc_free_malloc deferredInit [] 100 100 1 servedOnce.1 servedOnce.2 rfl trivial trivial
      (by decide) (by decide) (by decide) (by decide) (by decide) (by decide!) (by decide)
      (eq_some_getD (0, deferredInit) (by decide!)) (by decide!) (by decide!)⟩

/-- Counterexample to C10 as stated. Free mode, start-up state: `_malloc(100,100)`,
`_free`, `_malloc(100,100)` returns 1040 twice but `_free` has moved the break
back to 1000 and the second call asks the provider again (`sbrk(0)`,
`sbrk(1400)`), growing the region to 2400.
Deferred mode: after `_malloc(8,8)`, `_malloc(392,8)` and `_free` of the
latter, `p = _malloc(400,8)` is 1520, `_free(p)` merges its block into the free
predecessor at 1048, and the second `_malloc(400,8)` returns 1088. -/
theorem reuse_fails :
    ((_malloc 1 (initState 1000 1000000) 100 100).bind fun r1 =>
      (_malloc 1 (_free r1.2 r1.1) 100 100).map fun r2 =>
        (snapshot [] (r1.1, _free r1.2 r1.1), snapshot [] r2)) =
      some ({ ret := 1040, blocks := 0, curbrk := 1000,
              trace := [Call.sbrk 0, Call.sbrk 1400, Call.brk 1000], headers := [] },
            { ret := 1040, blocks := 1000, curbrk := 2400,
              trace := [Call.sbrk 0, Call.sbrk 1400, Call.brk 1000, Call.sbrk 0,
                Call.sbrk 1400], headers := [] }) ∧
    ((_malloc 3 deferredInit 8 8).bind fun r1 =>
      (_malloc 3 r1.2 392 8).bind fun r2 =>
      (_malloc 3 (_free r2.2 r2.1) 400 8).bind fun r3 =>
      (_malloc 3 (_free r3.2 r3.1) 400 8).map fun r4 => (r3.1, r4.1)) =
      some (1520, 1088) := by
  decide!


/-! ## `split` on a block with room for a second header -/

/-- Headers other than the split block and the new block are not written by `split`. -/
theorem split_other (m : Mem) (block : Nat) (size : Int) (a : Nat)
    (h1 : a ≠ block) (h2 : a ≠ newBlockAddr block size) : split m block size a = m a := by
  unfold split
  unfold newBlockAddr at h2
  split
  · rfl
  · simp [setSize, setNext, setPrev, setFree, setElemSize, h1, h2]

/-- The guard of `split` lets the call through when the difference is at least
one header and fits in `int_t`. -/
theorem split_guard {m : Mem} {b : Nat} {R : Int} (hR : 0 ≤ R) (hS : (m b).size < 2 ^ 63)
    (hgap : (headerSize : Int) ≤ (m b).size - R) :
    ¬ toU64 ((m b).size - R) < headerSize := by
  have h := toU64_of_range (x := (m b).size - R)
    (by have : (0 : Int) ≤ (headerSize : Int) := Int.natCast_nonneg _; omega) (by omega)
  intro hlt
  have : ((toU64 ((m b).size - R) : Nat) : Int) < (headerSize : Int) := by exact_mod_cast hlt
  omega

/-- Claim C14. For a block `b` of size `S` (an `int_t` value) and `R >= 0` with
`S - R >= headerSize`, where the address `b + headerSize + R` is representable,
`split(b, R)` sets `b.size = R`, writes at `b + headerSize + R` a header with
size `S - R - headerSize`, `free = 1`, the `elemSize` of `b`, `prev = b` and
`next` the old successor of `b`, and makes it the successor of `b`; the two
sizes add up to `S - headerSize`; the free flag, `elemSize` and `prev` of `b`
and every other header are unchanged. -/
theorem split_spec (m : Mem) (b : Nat) (R : Int)
    (hR : 0 ≤ R) (hS : (m b).size < 2 ^ 63) (hgap : (headerSize : Int) ≤ (m b).size - R)
    (haddr : (b : Int) + headerSize + R < 2 ^ 64) :
    ((newBlockAddr b R : Nat) : Int) = (b : Int) + headerSize + R ∧
    (split m b R b).size = R ∧
    (split m b R (newBlockAddr b R)).size = (m b).size - R - headerSize ∧
    (split m b R (newBlockAddr b R)).free = true ∧
    (split m b R (newBlockAddr b R)).elemSize = (m b).elemSize ∧
    (split m b R (newBlockAddr b R)).prev = b ∧
    (split m b R (newBlockAddr b R)).next = (m b).next ∧
    (split m b R b).next = newBlockAddr b R ∧
    (split m b R b).size + (split m b R (newBlockAddr b R)).size = (m b).size - headerSize ∧
    (split m b R b).free = (m b).free ∧
    (split m b R b).elemSize = (m b).elemSize ∧
    (split m b R b).prev = (m b).prev ∧
    (∀ a, a ≠ b → a ≠ newBlockAddr b R → split m b R a = m a) := by
  have hg := split_guard hR hS hgap
  have hne : newBlockAddr b R ≠ b := newBlockAddr_ne (by omega) (by
    have : (0 : Int) ≤ (headerSize : Int) := Int.natCast_nonneg _
    omega)
  have hb0 : (0 : Int) ≤ (b : Int) := Int.natCast_nonneg _
  have hh : ((headerSize : Nat) : Int) = 40 := rfl
  have haddr2 := newBlockAddr_eq (b := b) (n := R) (by omega) haddr
  have hsz : toI64 ((m b).size - (R + (headerSize : Int))) = (m b).size - R - headerSize := by
    rw [toI64_of_I64]
    · ring
    · unfold I64; omega
  have hnsz : (split m b R (newBlockAddr b R)).size = (m b).size - R - headerSize := by
    rw [split_size hg hne, if_neg hne, if_pos rfl, hsz]
  have hbsz : (split m b R b).size = R := by
    rw [split_size hg hne, if_pos rfl]
  refine ⟨haddr2, hbsz, hnsz, ?_, ?_, ?_, ?_, ?_, ?_, ?_, ?_, ?_, ?_⟩
  · rw [split_free hg, if_pos rfl]
  · rw [split_elemSize hg, if_pos rfl]
  · rw [split_prev hg, if_pos rfl]
  · rw [split_next hg hne, if_neg hne, if_pos rfl]
  · rw [split_next hg hne, if_pos rfl]
  · rw [hbsz, hnsz]; ring
  · rw [split_free hg, if_neg (Ne.symm hne)]
  · rw [split_elemSize hg, if_neg (Ne.symm hne)]
  · rw [split_prev hg, if_neg (Ne.symm hne)]
  · intro a h1 h2
    exact split_other m b R a h1 h2

/-- Witness for C14: the free block of `mem2` at 1140 (size 1220) split at 50
bytes. -/
theorem split_spec_witness :
    (split mem2 1140 50 1140).size = 50 ∧
    (split mem2 1140 50 (newBlockAddr 1140 50)).size = (mem2 1140).size - 50 - headerSize :=
  ⟨(split_spec mem2 1140 50 (by decide) (by decide!) (by decide!) (by decide)).2.1,
   (split_spec mem2 1140 50 (by decide) (by decide!) (by decide!) (by decide)).2.2.1⟩

/-! ## `split` below the threshold -/

/-- A difference between `0` and `headerSize` stops `split`: nothing is written. -/
theorem split_below_threshold (m : Mem) (b : Nat) (R : Int)
    (h0 : 0 ≤ (m b).size - R) (h1 : (m b).size - R < headerSize) : split m b R = m := by
  apply split_of_small
  have hh : ((headerSize : Nat) : Int) = 40 := rfl
  have h := toU64_of_range (x := (m b).size - R) h0 (by omega)
  have : ((toU64 ((m b).size - R) : Nat) : Int) < (headerSize : Int) := by omega
  exact_mod_cast this

/-- Claim C15 (evaluation). The block of `mem3` at 1000 has size 100; with
`R = 120` the difference `S - R = -20` is below `headerSize`, yet `split` goes
through: the block gets size 120 and successor 1160, and a free header of size
`-60` is written at 1160. -/
theorem split_negative_difference :
    (mem3 1000).size - 120 < headerSize ∧
    [1000, 1160].map (split mem3 1000 120) =
      [{ size := 120, elemSize := 100, free := false, next := 1160, prev := 0 },
       { size := -60, elemSize := 100, free := true, next := 1140, prev := 1000 }] := by
  decide!

/-! ## The list after a split in front of a successor -/

/-- Claim C13 (evaluation). After `p1 = _malloc(100,10); p2 = _malloc(4820,10);
_free(p1); p3 = _malloc(10,10)` from the start-up state the list is
1000, 1050, 1140 through `next`, but the block at 1140, successor of the block
at 1050 created by `split`, still has `prev = 1000`. The same holds for `split`
alone on the well-formed list 1000, 1140 of `mem3`. -/
theorem split_stale_prev :
    splitRun.map (fun r => r.1) = some [1040, 1180, 1040] ∧
    splitRun.map (fun r => snapshot [1000, 1050, 1140] (0, r.2)) =
      some { ret := 0, blocks := 1000, curbrk := 6000,
             trace := [Call.sbrk 0, Call.sbrk 5000],
             headers := [{ size := 10, elemSize := 10, free := false, next := 1050, prev := 0 },
                         { size := 50, elemSize := 10, free := true, next := 1140, prev := 1000 },
                         { size := 4820, elemSize := 10, free := false, next := 0,
                           prev := 1000 }] } ∧
    splitRun.map (fun r => decide (Chain r.2.mem [1000, 1050, 1140] 0)) = some true ∧
    splitRun.map (fun r => decide (Prevs r.2.mem 0 [1000, 1050, 1140])) = some false ∧
    WF mem3 1000 [1000, 1140] ∧
    Chain (split mem3 1000 10) [1000, 1050, 1140] 0 ∧
    (split mem3 1000 10 1140).prev = 1000 ∧
    ¬ Prevs (split mem3 1000 10) 0 [1000, 1050, 1140] := by
  decide!

/-! ## `mergeNext` on a well-formed list -/

/-- Two headers with the same five fields are equal. -/
theorem block_ext {x y : block_t} (h1 : x.size = y.size) (h2 : x.elemSize = y.elemSize)
    (h3 : x.free = y.free) (h4 : x.next = y.next) (h5 : x.prev = y.prev) : x = y := by
  cases x; cases y; simp_all

/-- Claim C17. For a block `b` with a successor `n`, `mergeNext(b)` returns `b`;
the size of `b` becomes `b.size + headerSize + n.size` in `int_t` arithmetic
(that number itself when it fits), its `next` becomes `n.next`, and the block
`n.next`, when there is one, gets `prev = b`; `elemSize` and the free flag of
`b` stay, whatever the flags and tags of `b` and `n` are; every header other
than `b` and `n.next` is left as it was. On a well-formed list the list from
the head is afterwards the old one without `n`, and `n` is not on it. When a
block has no successor, `mergeNext` returns it and the memory unchanged. -/
theorem mergeNext_spec (m : Mem) (b : Nat) (hn : (m b).next ≠ 0) :
    (mergeNext m b).2 = b ∧
    ((mergeNext m b).1 b).size =
      toI64 ((m b).size + ((headerSize : Int) + (m (m b).next).size)) ∧
    (I64 ((m b).size + headerSize + (m (m b).next).size) →
      ((mergeNext m b).1 b).size = (m b).size + headerSize + (m (m b).next).size) ∧
    ((mergeNext m b).1 b).next = (m (m b).next).next ∧
    ((m (m b).next).next ≠ 0 → ((mergeNext m b).1 (m (m b).next).next).prev = b) ∧
    ((mergeNext m b).1 b).elemSize = (m b).elemSize ∧
    ((mergeNext m b).1 b).free = (m b).free ∧
    (∀ a, a ≠ b → a ≠ (m (m b).next).next → (mergeNext m b).1 a = m a) ∧
    (∀ (head : Nat) (pre post : List Nat), WF m head (pre ++ b :: (m b).next :: post) →
      WF (mergeNext m b).1 head (pre ++ b :: post) ∧ (m b).next ∉ pre ++ b :: post) ∧
    (∀ (m1 : Mem) (x : Nat), (m1 x).next = 0 → mergeNext m1 x = (m1, x)) := by
  have hsize : ((mergeNext m b).1 b).size =
      toI64 ((m b).size + ((headerSize : Int) + (m (m b).next).size)) := by
    rw [mergeNext_size hn, if_pos rfl]
  refine ⟨mergeNext_snd _ _, hsize, ?_, ?_, ?_, mergeNext_elemSize _ _ _, mergeNext_free _ _ _,
    ?_, ?_, fun m1 x h => mergeNext_of_no_next h⟩
  · intro hr
    rw [hsize, ← add_assoc]
    exact toI64_of_I64 hr
  · rw [mergeNext_next hn, if_pos rfl]
  · intro hq
    rw [mergeNext_prev hn, if_pos ⟨rfl, hq⟩]
  · intro a ha hq
    apply block_ext
    · rw [mergeNext_size hn, if_neg ha]
    · exact mergeNext_elemSize _ _ _
    · exact mergeNext_free _ _ _
    · rw [mergeNext_next hn, if_neg ha]
    · rw [mergeNext_prev hn, if_neg (fun h => hq h.1)]
  · intro head pre post hwf
    refine ⟨WF_mergeNext hwf, ?_⟩
    obtain ⟨_, _, _, _, _, _, _, hnd⟩ := WF_at hwf
    generalize (m b).next = n at hnd
    intro hmem
    rcases List.mem_append.1 hmem with h | h
    · exact (List.nodup_append.1 hnd).2.2 h
        (List.mem_cons_of_mem _ (List.mem_cons_self _ _))
    · have h2 := (List.nodup_append.1 hnd).2.1
      rcases List.mem_cons.1 h with e | h3
      · have := (List.nodup_cons.1 h2).1
        exact this (e ▸ List.mem_cons_self _ _)
      · exact (List.nodup_cons.1 (List.nodup_cons.1 h2).2).1 h3

/-- Witness for C17: the two blocks of `mem3` (a used block tagged 100 followed
by a used block tagged 20) are merged into one block of size `100 + 40 + 1220`. -/
theorem mergeNext_spec_witness :
    (mem3 1000).next ≠ 0 ∧
    ((mergeNext mem3 1000).1 1000).size =
      toI64 ((mem3 1000).size + (40 + (mem3 (mem3 1000).next).size)) ∧
    ((mergeNext mem3 1000).1 1000).next = (mem3 (mem3 1000).next).next :=
  ⟨by decide, (mergeNext_spec mem3 1000 (by decide)).2.1,
    (mergeNext_spec mem3 1000 (by decide)).2.2.2.1⟩

/-! ## `split` followed by `mergeNext` -/

/-- After a `split` that went through, `mergeNext` on the same block gives back
every header except the one written at the new address. -/
theorem split_merge_pointwise {m : Mem} {b : Nat} {R : Int}
    (hR : 0 ≤ R) (hS : (m b).size < 2 ^ 63) (hgap : (headerSize : Int) ≤ (m b).size - R)
    (haddr : (b : Int) + headerSize + R < 2 ^ 64)
    (hprev : (m b).next ≠ 0 → (m (m b).next).prev = b) :
    ∀ a, a ≠ newBlockAddr b R → (mergeNext (split m b R) b).1 a = m a := by
  have hg := split_guard hR hS hgap
  have hh : ((headerSize : Nat) : Int) = 40 := rfl
  have hne : newBlockAddr b R ≠ b := newBlockAddr_ne (by omega) (by omega)
  have hb0 : (0 : Int) ≤ (b : Int) := Int.natCast_nonneg _
  have haddr2 := newBlockAddr_eq (b := b) (n := R) (by omega) haddr
  have hnb0 : newBlockAddr b R ≠ 0 := by
    intro e
    rw [e] at haddr2
    simp only [Nat.cast_zero] at haddr2
    omega
  have hbn : (split m b R b).next = newBlockAddr b R := by
    rw [split_next hg hne, if_pos rfl]
  have hn0 : (split m b R b).next ≠ 0 := by rw [hbn]; exact hnb0
  have hnn : (split m b R (newBlockAddr b R)).next = (m b).next := by
    rw [split_next hg hne, if_neg hne, if_pos rfl]
  have hbs : (split m b R b).size = R := by rw [split_size hg hne, if_pos rfl]
  have hns : (split m b R (newBlockAddr b R)).size = (m b).size - R - headerSize := by
    rw [split_size hg hne, if_neg hne, if_pos rfl, toI64_of_I64]
    · ring
    · unfold I64; omega
  intro a ha
  apply block_ext
  · rw [mergeNext_size hn0]
    by_cases hab : a = b
    · rw [if_pos hab, hbn, hbs, hns, hab, toI64_of_I64]
      · ring
      · unfold I64; omega
    · rw [if_neg hab, split_size hg hne, if_neg hab, if_neg ha]
  · rw [mergeNext_elemSize, split_elemSize hg, if_neg ha]
  · rw [mergeNext_free, split_free hg, if_neg ha]
  · rw [mergeNext_next hn0]
    by_cases hab : a = b
    · rw [if_pos hab, hbn, hnn, hab]
    · rw [if_neg hab, split_next hg hne, if_neg hab, if_neg ha]
  · rw [mergeNext_prev hn0, hbn, hnn]
    by_cases hq : a = (m b).next ∧ a ≠ 0
    · rw [if_pos hq]
      have := hprev (hq.1 ▸ hq.2)
      rw [← hq.1] at this
      exact this.symm
    · rw [if_neg hq, split_prev hg, if_neg ha]

/-- Claim C16 (amended). Let `b` be a block of a well-formed list whose blocks do
not overlap and lie below `top < 2^64`, and let `0 <= R` with
`b.size - R >= headerSize`, so that `split(b, R)` goes through. Then `split(b, R)`
followed by `mergeNext(b)` returns `b` and gives back the header of `b` (size,
`elemSize`, free flag, `next`, `prev`) and the header of every other block of
the list: the list is the one before the split. Only the header at
`b + headerSize + R`, which is not on the list, differs. -/
theorem split_merge_roundtrip (m : Mem) (head : Nat) (pre post : List Nat) (b top : Nat)
    (R : Int) (hwf : WF m head (pre ++ b :: post))
    (hasc : Ascending m (pre ++ b :: post) top) (htop : (top : Int) < 2 ^ 64)
    (hS : (m b).size < 2 ^ 63) (hR : 0 ≤ R) (hgap : (headerSize : Int) ≤ (m b).size - R) :
    (mergeNext (split m b R) b).2 = b ∧
    (mergeNext (split m b R) b).1 b = m b ∧
    (∀ a ∈ pre ++ b :: post, (mergeNext (split m b R) b).1 a = m a) ∧
    (∀ a, a ≠ newBlockAddr b R → (mergeNext (split m b R) b).1 a = m a) ∧
    newBlockAddr b R ∉ pre ++ b :: post ∧
    WF (mergeNext (split m b R) b).1 head (pre ++ b :: post) := by
  obtain ⟨hb0, hbn, _, _, hc2, _, hp2, _⟩ := WF_at hwf
  obtain ⟨hsz0, _, hbtop, haPre, haPost⟩ := Ascending_at hasc
  have hh : ((headerSize : Nat) : Int) = 40 := rfl
  have hbnat : (0 : Int) ≤ (b : Int) := Int.natCast_nonneg _
  have haddr : (b : Int) + headerSize + R < 2 ^ 64 := by omega
  have haddr2 := newBlockAddr_eq (b := b) (n := R) (by omega) haddr
  have hprev : (m b).next ≠ 0 → (m (m b).next).prev = b := by
    intro _
    rw [hbn]
    cases post with
    | nil => exact absurd hbn ‹(m b).next ≠ 0›
    | cons c post1 => exact hp2.1
  have hpt := split_merge_pointwise hR hS hgap haddr hprev
  have hnotin : newBlockAddr b R ∉ pre ++ b :: post := by
    intro hmem
    rcases List.mem_append.1 hmem with h | h
    · have h1 := haPre _ h
      have h2 : (0 : Int) ≤ (m (newBlockAddr b R)).size := by
        have := Ascending_append.1 hasc
        obtain ⟨x, y, hxy⟩ := List.append_of_mem h
        have h3 := this.1
        rw [hxy] at h3
        exact (Ascending_at h3).1
      omega
    · rcases List.mem_cons.1 h with e | h3
      · rw [e] at haddr2; omega
      · have := (haPost _ h3).1
        omega
  have hall : ∀ a ∈ pre ++ b :: post, (mergeNext (split m b R) b).1 a = m a :=
    fun a ha => hpt a (fun e => hnotin (e ▸ ha))
  refine ⟨mergeNext_snd _ _, hall b (by simp), hall, hpt, hnotin, hwf.1, ?_, ?_⟩
  · exact Chain_congr (fun a ha => by rw [hall a ha]) hwf.2.1
  · exact Prevs_congr (fun a ha => by rw [hall a ha]) hwf.2.2

/-- Witness for C16: the free block of `mem2` at 1140 (size 1220, last of the
list 1000, 1140 below the break 2400) split at 50 bytes and merged again. -/
theorem split_merge_roundtrip_witness :
    WF mem2 1000 ([1000] ++ 1140 :: []) ∧ Ascending mem2 ([1000] ++ 1140 :: []) 2400 ∧
    (mergeNext (split mem2 1140 50) 1140).1 1140 = mem2 1140 :=
  ⟨by decide!, by decide!,
    (split_merge_roundtrip mem2 1000 [1000] [] 1140 2400 50 (by decide!) (by decide!)
      (by decide) (by decide!) (by decide) (by decide!)).2.1⟩

/-- Counterexample to C16 as stated. In the well-formed list 1000, 1140 of `mem3`
the block at 1000 has size 100 and `R = 90` satisfies `0 <= R < S`; `split`
leaves the block alone (`S - R = 10` is less than `headerSize`) and `mergeNext`
then absorbs the successor: the size is `100 + 40 + 1220 = 1360` and `next` is
`NULL`. -/
theorem split_merge_small_gap :
    WF mem3 1000 [1000, 1140] ∧ (0 : Int) ≤ 90 ∧ (90 : Int) < (mem3 1000).size ∧
    split mem3 1000 90 1000 = mem3 1000 ∧
    (mergeNext (split mem3 1000 90) 1000).1 1000 =
      { size := 1360, elemSize := 100, free := false, next := 0, prev := 0 } ∧
    (mem3 1000).next = 1140 := by
  decide!

/-! ## The region requested on a miss is large enough to split -/

/-- The new block and its remainder as the miss path of `_malloc` leaves them,
when the byte count fits in `int_t`. -/
theorem freshMem_split {m : Mem} {X prev : Nat} {n c : Int} (hc : 0 < c) (hcn : c ≤ n)
    (hrb : ((headerSize : Int) + c) * (Int.tdiv n c * CHUNK) < 2 ^ 63) :
    ¬ toU64 (toI64 (requestBytes n c - headerSize) - n) < headerSize ∧
    (freshMem m X prev n c X).size = n ∧
    (freshMem m X prev n c (newBlockAddr X n)).size = requestBytes n c - 2 * headerSize - n ∧
    (freshMem m X prev n c (newBlockAddr X n)).free = true ∧
    (freshMem m X prev n c (newBlockAddr X n)).elemSize = c ∧
    (freshMem m X prev n c (newBlockAddr X n)).prev = X := by
  have hge := request_ge hc hcn
  have heq := requestBytes_eq hc hcn hrb
  rw [← heq] at hge hrb
  have hh : ((headerSize : Nat) : Int) = 40 := rfl
  have hne : newBlockAddr X n ≠ X := newBlockAddr_ne (by omega) (by omega)
  have hpay : toI64 (requestBytes n c - headerSize) = requestBytes n c - headerSize :=
    toI64_of_I64 (by unfold I64; omega)
  generalize hrq : requestBytes n c = rb at hge hrb hpay
  generalize hm5 : setFree (setElemSize (setSize (setPrev (setNext m X 0) X prev) X
        (toI64 (rb - headerSize))) X c) X false = m5
  have h5s : (m5 X).size = rb - headerSize := by rw [← hm5]; simp [hpay]
  have h5e : (m5 X).elemSize = c := by rw [← hm5]; simp
  have hg : ¬ toU64 ((m5 X).size - n) < headerSize := by
    apply split_guard (by omega) (by rw [h5s]; omega)
    rw [h5s]; omega
  have hfm : freshMem m X prev n c =
      if prev ≠ 0 then setNext (split m5 X n) prev X else split m5 X n := by
    unfold freshMem
    rw [hrq]
    dsimp only
    rw [hm5]
  have hfields : ∀ a, (freshMem m X prev n c a).size = (split m5 X n a).size ∧
      (freshMem m X prev n c a).free = (split m5 X n a).free ∧
      (freshMem m X prev n c a).elemSize = (split m5 X n a).elemSize ∧
      (freshMem m X prev n c a).prev = (split m5 X n a).prev := by
    intro a
    rw [hfm]
    split
    · exact ⟨setNext_size _ _ _ _, setNext_free _ _ _ _, setNext_elemSize _ _ _ _,
        setNext_prev _ _ _ _⟩
    · exact ⟨rfl, rfl, rfl, rfl⟩
  refine ⟨?_, ?_, ?_, ?_, ?_, ?_⟩
  · rw [hpay]
    rw [h5s] at hg
    exact hg
  · rw [(hfields X).1, split_size hg hne, if_pos rfl]
  · rw [(hfields _).1, split_size hg hne, if_neg hne, if_pos rfl, h5s, toI64_of_I64]
    · rw [hh]; ring
    · unfold I64; omega
  · rw [(hfields _).2.1, split_free hg, if_pos rfl]
  · rw [(hfields _).2.2.1, split_elemSize hg, if_pos rfl, h5e]
  · rw [(hfields _).2.2.2, split_prev hg, if_pos rfl]

/-- Claim C18. For `size >= elemSize > 0` whose byte count
`(headerSize + elemSize) * (size / elemSize * CHUNK)` fits in `int_t` (no 64-bit
overflow), the region `_malloc` requests on a miss is at least
`2 * headerSize + size` bytes, the payload of the new block (that count minus
`headerSize`) exceeds `size` by at least `headerSize`, and on every finite list
without a matching block, with a provider that answers `sbrk(0)`, the miss path
splits the new block: the block at the old break gets size `size` and the
remainder written behind it is free with the non-negative size
`bytes - 2 * headerSize - size`. -/
theorem miss_request_splits (n c : Int) (hc : 0 < c) (hcn : c ≤ n)
    (hrb : ((headerSize : Int) + c) * (Int.tdiv n c * CHUNK) < 2 ^ 63) :
    requestBytes n c = ((headerSize : Int) + c) * (Int.tdiv n c * CHUNK) ∧
    2 * (headerSize : Int) + n ≤ requestBytes n c ∧
    (headerSize : Int) ≤ toI64 (requestBytes n c - headerSize) - n ∧
    (∀ (st : State) (fuel : Nat) (l : List Nat), st.blocks = l.headD 0 → Chain st.mem l 0 →
      l.length < fuel → (∀ a ∈ l, ¬ Fits st.mem n c a) →
      st.curbrk ≤ st.limit → st.curbrk < sbrkFailed →
      ∃ st1, _malloc fuel st n c = some (st.curbrk + headerSize, st1) ∧
        st1.trace = st.trace ++ [Call.sbrk 0, Call.sbrk (requestBytes n c)] ∧
        (st1.mem st.curbrk).size = n ∧
        (st1.mem (newBlockAddr st.curbrk n)).free = true ∧
        (st1.mem (newBlockAddr st.curbrk n)).prev = st.curbrk ∧
        (st1.mem (newBlockAddr st.curbrk n)).size = requestBytes n c - 2 * headerSize - n ∧
        0 ≤ (st1.mem (newBlockAddr st.curbrk n)).size) := by
  have hge := request_ge hc hcn
  have heq := requestBytes_eq hc hcn hrb
  have hh : ((headerSize : Nat) : Int) = 40 := rfl
  have hpay : toI64 (requestBytes n c - headerSize) = requestBytes n c - headerSize :=
    toI64_of_I64 (by unfold I64; omega)
  have hreq : toI64 (requestBytes n c) = requestBytes n c :=
    toI64_of_I64 (by unfold I64; omega)
  refine ⟨heq, by omega, by omega, ?_⟩
  intro st fuel l hhead hch hf hno hlim hfail
  have hs := scan_miss st.mem n c l fuel 0 hch hf hno
  rw [← hhead] at hs
  have hX : (sbrk st 0).1 = st.curbrk := sbrk_zero_fst hlim
  have hm := malloc_miss_eq hs (by rw [hX]; exact ne_of_lt hfail)
  rw [hX] at hm
  obtain ⟨_, h1, h2, h3, _, h5⟩ :=
    @freshMem_split st.mem st.curbrk (l.getLastD 0) n c hc hcn hrb
  refine ⟨_, hm, ?_, h1, h3, h5, h2, ?_⟩
  · show (sbrk (sbrk st 0).2 (toI64 (requestBytes n c))).2.trace = _
    rw [sbrk_trace, sbrk_trace, hreq]
    simp
  · show 0 ≤ (freshMem st.mem st.curbrk (l.getLastD 0) n c (newBlockAddr st.curbrk n)).size
    rw [h2]
    omega

/-- Witness for C18: `_malloc(100, 100)` on the start-up state with the break at
1000 requests `140 * 10 = 1400` bytes, returns 1040 and leaves a free remainder
of `1400 - 80 - 100 = 1220` bytes. -/
theorem miss_request_splits_witness :
    (0 : Int) < 100 ∧ (100 : Int) ≤ 100 ∧ requestBytes 100 100 = 1400 ∧
    ∃ st1, _malloc 1 (initState 1000 1000000) 100 100 = some (1000 + headerSize, st1) ∧
      (st1.mem 1000).size = 100 ∧
      (st1.mem (newBlockAddr 1000 100)).size = requestBytes 100 100 - 2 * headerSize - 100 := by
  obtain ⟨h1, _, _, h4⟩ := miss_request_splits 100 100 (by decide) (by decide) (by decide!)
  obtain ⟨st1, hm, _, hs, _, _, hr, _⟩ :=
    h4 (initState 1000 1000000) 1 [] rfl trivial (by decide) (by simp) (by decide) (by decide)
  exact ⟨by decide, by decide, by decide!, st1, hm, hs, hr⟩

/-! ## `toggleMemFree` -/

/-- Claim C12 (amended). `toggleMemFree(v)` stores `v` in `memFree` for every
value `v` of its `char` argument, `0` and `1` included; no value is rejected.
It changes neither the head pointer nor any header, nor the break, and makes no
provider call. -/
theorem toggleMemFree_spec (st : State) (v : Int) :
    (toggleMemFree st v).memFree = v ∧
    (toggleMemFree st v).blocks = st.blocks ∧
    (toggleMemFree st v).mem = st.mem ∧
    (toggleMemFree st v).curbrk = st.curbrk ∧
    (toggleMemFree st v).limit = st.limit ∧
    (toggleMemFree st v).trace = st.trace :=
  ⟨rfl, rfl, rfl, rfl, rfl, rfl⟩

/-- Counterexample to C12 as stated. `toggleMemFree(2)` on the start-up state
(flag `1`) and on the deferred-mode state (flag `0`) is not rejected: the flag
is `2` afterwards in both cases. -/
theorem toggle_stores_other_values :
    (initState 1000 1000000).memFree = 1 ∧
    (toggleMemFree (initState 1000 1000000) 2).memFree = 2 ∧
    deferredInit.memFree = 0 ∧
    (toggleMemFree deferredInit 2).memFree = 2 := by
  decide

/-! ## `flush` and the mode flag -/

/-- No branch of `flush` writes `memFree`. -/
theorem flush_memFree {fuel : Nat} {st st1 : State} (h : flush fuel st = some st1) :
    st1.memFree = st.memFree := by
  unfold flush at h
  split at h
  · cases h; rfl
  · split at h
    · cases h
    · cases h; rfl

/-- No branch of `_malloc` writes `memFree`. -/
theorem malloc_memFree {fuel : Nat} {st st1 : State} {n c : Int} {p : Nat}
    (h : _malloc fuel st n c = some (p, st1)) : st1.memFree = st.memFree := by
  cases hs : scan st.mem n c fuel st.blocks 0 with
  | none => unfold _malloc at h; rw [hs] at h; cases h
  | some r =>
    cases r with
    | hit b =>
      rw [malloc_of_hit hs] at h
      cases h
      rfl
    | miss prev =>
      by_cases hb : (sbrk st 0).1 = sbrkFailed
      · rw [malloc_miss_fail hs hb] at h
        cases h
        rfl
      · rw [malloc_miss_eq hs hb] at h
        cases h
        rfl

/-- With `memFree == 0`, `_free` of any pointer makes no provider call and keeps
the break, the head and the flag. -/
theorem free_deferred_quiet (st : State) (p : Nat) (hmode : st.memFree = 0) :
    (_free st p).trace = st.trace ∧ (_free st p).curbrk = st.curbrk ∧
    (_free st p).blocks = st.blocks ∧ (_free st p).memFree = 0 := by
  unfold _free
  by_cases hp : p = 0
  · rw [if_pos hp]; exact ⟨rfl, rfl, rfl, hmode⟩
  · rw [if_neg hp]
    by_cases hfree : (st.mem (p - headerSize)).free = true
    · rw [if_pos hfree]; exact ⟨rfl, rfl, rfl, hmode⟩
    · rw [if_neg hfree]
      dsimp only
      rw [if_neg (fun h => h.2 hmode)]
      exact ⟨rfl, rfl, rfl, hmode⟩

/-- Claim C19. `flush` never writes `memFree`: whenever it returns, the flag is
the one before the call. On a finite list it does return; when the call is
effective (deferred mode, non-empty list) the list is empty afterwards and the
flag is still `0`, so a later `_malloc` keeps the flag and a later `_free` of
any pointer makes no provider call and keeps the break, until
`toggleMemFree(1)` sets the flag. -/
theorem flush_keeps_mode (st : State) (fuel : Nat) :
    (∀ st1, flush fuel st = some st1 → st1.memFree = st.memFree) ∧
    (∀ l : List Nat, st.blocks = l.headD 0 → Chain st.mem l 0 → l.length ≤ fuel →
      I64 (st.mem st.blocks).size →
      ∃ st1, flush fuel st = some st1 ∧ st1.memFree = st.memFree ∧
        (st.blocks ≠ 0 → st.memFree = 0 →
          st1.blocks = 0 ∧ st1.memFree = 0 ∧
          (∀ p, (_free st1 p).trace = st1.trace ∧ (_free st1 p).curbrk = st1.curbrk ∧
            (_free st1 p).memFree = 0) ∧
          (∀ f n c q st2 p, _malloc f st1 n c = some (q, st2) →
            st2.memFree = 0 ∧ (_free st2 p).trace = st2.trace ∧
            (_free st2 p).curbrk = st2.curbrk) ∧
          (toggleMemFree st1 1).memFree = 1)) := by
  refine ⟨fun st1 h => flush_memFree h, ?_⟩
  intro l hhead hc hf hsz
  by_cases hcond : st.blocks = 0 ∨ st.memFree ≠ 0
  · refine ⟨st, by unfold flush; rw [if_pos hcond], rfl, ?_⟩
    intro h1 h2
    rcases hcond with h | h
    · exact absurd h h1
    · exact absurd h2 h
  · have hne : st.blocks ≠ 0 := fun h => hcond (Or.inl h)
    have hmode : st.memFree = 0 := by
      by_contra h
      exact hcond (Or.inr h)
    cases l with
    | nil => exact absurd hhead hne
    | cons h rest =>
      have hb : st.blocks = h := hhead
      obtain ⟨m1, hfl, _, _, _⟩ :=
        flushLoop_chain rest st.mem h fuel hc (by simpa using hf)
          (by rw [← hb]; exact toI64_of_I64 hsz)
      have hfe : flush fuel st =
          some { brk { st with mem := m1, blocks := h } h with blocks := 0 } := by
        unfold flush
        rw [if_neg hcond, hb, hfl]
      refine ⟨_, hfe, rfl, ?_⟩
      intro _ _
      refine ⟨rfl, hmode, ?_, ?_, rfl⟩
      · intro p
        have := free_deferred_quiet
          { brk { st with mem := m1, blocks := h } h with blocks := 0 } p hmode
        exact ⟨this.1, this.2.1, this.2.2.2⟩
      · intro f n c q st2 p hm
        have h2 : st2.memFree = 0 := (malloc_memFree hm).trans hmode
        have := free_deferred_quiet st2 p h2
        exact ⟨h2, this.1, this.2.1⟩

/-- Witness for C19: `state2` switched to deferred mode is flushed; the list is
empty afterwards and the flag is still `0`. -/
theorem flush_keeps_mode_witness :
    Chain (toggleMemFree state2 0).mem [1000, 1140] 0 ∧
    ∃ st1, flush 2 (toggleMemFree state2 0) = some st1 ∧ st1.blocks = 0 ∧ st1.memFree = 0 := by
  obtain ⟨st1, h1, _, h3⟩ :=
    (flush_keeps_mode (toggleMemFree state2 0) 2).2 [1000, 1140] rfl (by decide!) (by decide)
      (by decide!)
  obtain ⟨h4, h5, _⟩ := h3 (by decide) rfl
  exact ⟨by decide!, st1, h1, h4, h5⟩

/-! ## Two adjacent blocks freed in free mode -/

/-- `_free` of a used block none of whose neighbours is merged, and that has a
successor, only sets the free flag. -/
theorem free_plain {st : State} {pre post : List Nat} {b : Nat}
    (hwf : WF st.mem st.blocks (pre ++ b :: post)) (hused : (st.mem b).free = false)
    (hp : ¬ predMerges st.memFree st.mem pre b) (hs : ¬ succMerges st.memFree st.mem post b)
    (hpost : post ≠ []) :
    _free st (b + headerSize) = { st with mem := setFree st.mem b true } := by
  obtain ⟨h00, _, _, _, _, _⟩ := coalesce_cases (f := st.memFree) hwf
  have hco := h00 hp hs
  have hnext : ((coalesce st.memFree (setFree st.mem b true) b).1
      (coalesce st.memFree (setFree st.mem b true) b).2).next ≠ 0 := by
    rw [hco]
    obtain ⟨_, hbn, _, _, hc2, _, _, _⟩ := WF_at hwf
    simp only [setFree_next]
    rw [hbn]
    exact fun e => hpost ((headD_eq_zero_iff hc2).1 e)
  rw [free_keep hused hnext, hco]

/-- Free mode: `_free` of a used block `b` whose predecessor `P` is free and
whose successor `n` is used merges `b` into `P` and does nothing else. -/
theorem free_into_prev {st : State} {L post : List Nat} {P b n : Nat}
    (hwf : WF st.mem st.blocks (L ++ P :: b :: n :: post)) (hmode : st.memFree ≠ 0)
    (hused : (st.mem b).free = false) (hP : (st.mem P).free = true)
    (hn : (st.mem n).free = false) :
    _free st (b + headerSize) =
      { st with mem := (mergeNext (setFree st.mem b true) P).1 } := by
  have hwf1 := WF_setFree b true hwf
  have hwf2 : WF (setFree st.mem b true) st.blocks ((L ++ [P]) ++ b :: n :: post) := by
    simpa using hwf1
  obtain ⟨_, _, hbp, _, _, _, _, hnd⟩ := WF_at hwf2
  have hbp1 : (setFree st.mem b true b).prev = P := by rw [hbp]; simp
  have hP0 : P ≠ 0 := (WF_at hwf1).1
  have hnb : n ≠ b := by
    intro e
    have h2 := (List.nodup_append.1 hnd).2.1
    exact (List.nodup_cons.1 h2).1 (e ▸ List.mem_cons_self _ _)
  have hpt : prevTest st.memFree (setFree st.mem b true) b := by
    unfold prevTest
    rw [hbp1]
    refine ⟨hP0, ?_, fun e => absurd e hmode⟩
    rw [setFree_free]
    split
    · rfl
    · exact hP
  obtain ⟨hco, hwf3, _, _, _, _⟩ := coalesce_stage1 (f := st.memFree) hwf1 hpt
  have hnt : ¬ nextTest st.memFree (mergeNext (setFree st.mem b true) P).1 P := by
    rw [nextTest_iff hwf3]
    rintro ⟨_, h2, _⟩
    simp only [List.headD_cons] at h2
    rw [mergeNext_free, setFree_free, if_neg hnb, hn] at h2
    cases h2
  have hco2 : coalesce st.memFree (setFree st.mem b true) b =
      ((mergeNext (setFree st.mem b true) P).1, P) := by
    rw [hco, coalesceNext_neg hnt]
  have hnext : ((coalesce st.memFree (setFree st.mem b true) b).1
      (coalesce st.memFree (setFree st.mem b true) b).2).next ≠ 0 := by
    rw [hco2]
    obtain ⟨_, hPn, _, _, hc2, _, _, _⟩ := WF_at hwf3
    show ((mergeNext (setFree st.mem b true) P).1 P).next ≠ 0
    rw [hPn]
    exact hc2.1
  rw [free_keep hused hnext, hco2]

/-- Free mode: `_free` of a used block `a` whose predecessor, if any, is used,
whose successor `b` is free and is followed by a block `n` absorbs `b` into `a`
and does nothing else. -/
theorem free_absorb_next {st : State} {pre post : List Nat} {a b n : Nat}
    (hwf : WF st.mem st.blocks (pre ++ a :: b :: n :: post)) (hmode : st.memFree ≠ 0)
    (hused : (st.mem a).free = false)
    (hpred : pre ≠ [] → (st.mem (pre.getLastD 0)).free = false)
    (hb : (st.mem b).free = true) :
    _free st (a + headerSize) =
      { st with mem := (mergeNext (setFree st.mem a true) a).1 } := by
  have hwf1 := WF_setFree a true hwf
  obtain ⟨ha0, han, _, _, hc2, _, _, _⟩ := WF_at hwf1
  have han1 : (setFree st.mem a true a).next = b := han
  have hb0 : b ≠ 0 := hc2.1
  have hnp : ¬ prevTest st.memFree (setFree st.mem a true) a := by
    rw [prevTest_iff hwf1]
    rintro ⟨h1, h2, _⟩
    have hne := ((WF_neighbours hwf).1 h1).1
    rw [setFree_free, if_neg hne, hpred h1] at h2
    cases h2
  have hnt : nextTest st.memFree (setFree st.mem a true) a := by
    unfold nextTest
    rw [han1]
    refine ⟨hb0, ?_, fun e => absurd e hmode⟩
    rw [setFree_free]
    split
    · rfl
    · exact hb
  have hco : coalesce st.memFree (setFree st.mem a true) a =
      mergeNext (setFree st.mem a true) a := by
    rw [coalesce_prev_neg hnp, coalesceNext_pos hnt]
  have hwf3 := WF_mergeNext hwf1
  have hnext : ((coalesce st.memFree (setFree st.mem a true) a).1
      (coalesce st.memFree (setFree st.mem a true) a).2).next ≠ 0 := by
    rw [hco, mergeNext_snd]
    obtain ⟨_, hPn, _, _, hc3, _, _, _⟩ := WF_at hwf3
    rw [hPn]
    exact hc3.1
  rw [free_keep hused hnext, hco]

theorem setFree_comm (m : Mem) (a b : Nat) (v w : Bool) (h : a ≠ b) :
    setFree (setFree m a v) b w = setFree (setFree m b w) a v := by
  funext x
  unfold setFree
  by_cases h1 : x = a
  · have h2 : ¬ a = b := h
    simp [h1, h2]
  · by_cases h2 : x = b
    · have h3 : ¬ b = a := fun e => h e.symm
      simp [h2, h3]
    · simp [h1, h2]

/-- The state after both frees of two adjacent used blocks `a`, `b` that are
followed by a used block, in free mode, whichever is freed first. -/
theorem free_pair_eq {st : State} {pre post : List Nat} {a b c : Nat}
    (hwf : WF st.mem st.blocks (pre ++ a :: b :: c :: post)) (hmode : st.memFree ≠ 0)
    (ha : (st.mem a).free = false) (hb : (st.mem b).free = false)
    (hc : (st.mem c).free = false)
    (hpred : pre ≠ [] → (st.mem (pre.getLastD 0)).free = false) :
    _free (_free st (a + headerSize)) (b + headerSize) =
      { st with mem := (mergeNext (setFree (setFree st.mem a true) b true) a).1 } ∧
    _free (_free st (b + headerSize)) (a + headerSize) =
      { st with mem := (mergeNext (setFree (setFree st.mem a true) b true) a).1 } := by
  obtain ⟨_, _, _, _, _, _, _, hnd⟩ := WF_at hwf
  have hwfb : WF st.mem st.blocks ((pre ++ [a]) ++ b :: c :: post) := by simpa using hwf
  have hnd2 := (List.nodup_append.1 hnd).2.1
  have hab : a ≠ b := fun e =>
    (List.nodup_cons.1 hnd2).1 (e ▸ List.mem_cons_self _ _)
  have hac : a ≠ c := fun e =>
    (List.nodup_cons.1 hnd2).1 (e ▸ List.mem_cons_of_mem _ (List.mem_cons_self _ _))
  have hbc : b ≠ c := fun e =>
    (List.nodup_cons.1 (List.nodup_cons.1 hnd2).2).1 (e ▸ List.mem_cons_self _ _)
  constructor
  · have h1 : _free st (a + headerSize) = { st with mem := setFree st.mem a true } := by
      refine free_plain hwf ha ?_ ?_ (by simp)
      · rintro ⟨h1, h2, _⟩
        rw [hpred h1] at h2
        cases h2
      · rintro ⟨_, h2, _⟩
        simp only [List.headD_cons] at h2
        rw [hb] at h2
        cases h2
    rw [h1]
    refine @free_into_prev { st with mem := setFree st.mem a true } pre post a b c
      (WF_setFree a true hwf) hmode ?_ ?_ ?_
    · show (setFree st.mem a true b).free = false
      rw [setFree_free, if_neg (Ne.symm hab), hb]
    · show (setFree st.mem a true a).free = true
      rw [setFree_free, if_pos rfl]
    · show (setFree st.mem a true c).free = false
      rw [setFree_free, if_neg (Ne.symm hac), hc]
  · have h1 : _free st (b + headerSize) = { st with mem := setFree st.mem b true } := by
      refine free_plain hwfb hb ?_ ?_ (by simp)
      · rintro ⟨_, h2, _⟩
        rw [List.getLastD_concat, ha] at h2
        cases h2
      · rintro ⟨_, h2, _⟩
        simp only [List.headD_cons] at h2
        rw [hc] at h2
        cases h2
    rw [h1, setFree_comm st.mem a b true true hab]
    refine @free_absorb_next { st with mem := setFree st.mem b true } pre post a b c
      (WF_setFree b true hwf) hmode ?_ ?_ ?_
    · show (setFree st.mem b true a).free = false
      rw [setFree_free, if_neg hab, ha]
    · intro hp
      show (setFree st.mem b true (pre.getLastD 0)).free = false
      have hne : pre.getLastD 0 ≠ b := by
        intro e
        have hm : pre.getLastD 0 ∈ pre := by
          rcases eq_nil_or_snoc pre with e1 | ⟨L, P, rfl⟩
          · exact absurd e1 hp
          · simp
        exact (List.nodup_append.1 hnd).2.2 hm
          (e ▸ List.mem_cons_of_mem _ (List.mem_cons_self _ _))
      rw [setFree_free, if_neg hne]
      exact hpred hp
    · show (setFree st.mem b true b).free = true
      rw [setFree_free, if_pos rfl]

/-- Claim C11 (amended). Free mode, well-formed list in which the used blocks
`a`, `b` are adjacent, `b` is followed by a used block `c`, and the predecessor
of `a`, if any, is used. After `_free` of both, in either order, the state is
the same: no provider call has been made, `b` has left the list, and `a` is one
free block of size `a.size + headerSize + b.size` (in `int_t` arithmetic) that
keeps the `elemSize` of `a`. A later `_malloc(s, e)` with `s` at most that size
and `e == a.elemSize`, when no earlier block matches, returns the payload of
`a` without a provider call. When `b.elemSize` differs from `a.elemSize`, the
merged block does not pass the test of `_malloc(s, b.elemSize)` for any `s`,
and no call `_malloc(s, b.elemSize)` that makes no provider call returns it. -/
theorem free_pair_merged (st : State) (pre post : List Nat) (a b c : Nat)
    (hwf : WF st.mem st.blocks (pre ++ a :: b :: c :: post)) (hmode : st.memFree ≠ 0)
    (ha : (st.mem a).free = false) (hb : (st.mem b).free = false)
    (hc : (st.mem c).free = false)
    (hpred : pre ≠ [] → (st.mem (pre.getLastD 0)).free = false)
    (htag : (st.mem a).elemSize ≠ (st.mem b).elemSize) :
    _free (_free st (b + headerSize)) (a + headerSize) =
      _free (_free st (a + headerSize)) (b + headerSize) ∧
    WF (_free (_free st (a + headerSize)) (b + headerSize)).mem
      (_free (_free st (a + headerSize)) (b + headerSize)).blocks (pre ++ a :: c :: post) ∧
    (_free (_free st (a + headerSize)) (b + headerSize)).trace = st.trace ∧
    (_free (_free st (a + headerSize)) (b + headerSize)).curbrk = st.curbrk ∧
    ((_free (_free st (a + headerSize)) (b + headerSize)).mem a).free = true ∧
    ((_free (_free st (a + headerSize)) (b + headerSize)).mem a).size =
      toI64 ((st.mem a).size + ((headerSize : Int) + (st.mem b).size)) ∧
    ((_free (_free st (a + headerSize)) (b + headerSize)).mem a).elemSize =
      (st.mem a).elemSize ∧
    (∀ (fuel : Nat) (s : Int),
      s ≤ ((_free (_free st (a + headerSize)) (b + headerSize)).mem a).size →
      pre.length < fuel → (∀ x ∈ pre, ¬ Fits st.mem s (st.mem a).elemSize x) →
      ∃ st3, _malloc fuel (_free (_free st (a + headerSize)) (b + headerSize)) s
          (st.mem a).elemSize = some (a + headerSize, st3) ∧
        st3.trace = st.trace ∧ (st3.mem a).free = false) ∧
    (∀ s : Int, ¬ Fits (_free (_free st (a + headerSize)) (b + headerSize)).mem s
      (st.mem b).elemSize a) ∧
    (∀ (fuel : Nat) (s : Int) (p : Nat) (st3 : State),
      _malloc fuel (_free (_free st (a + headerSize)) (b + headerSize)) s
        (st.mem b).elemSize = some (p, st3) →
      st3.trace = st.trace → p ≠ a + headerSize) := by
  obtain ⟨h1, h2⟩ := free_pair_eq hwf hmode ha hb hc hpred
  have hwf2 : WF (setFree (setFree st.mem a true) b true) st.blocks
      (pre ++ a :: b :: c :: post) := WF_setFree b true (WF_setFree a true hwf)
  have hwfF := WF_mergeNext hwf2
  obtain ⟨ha0, han, _, _, hc2, _, _, hnd⟩ := WF_at hwf2
  have hn0 : (setFree (setFree st.mem a true) b true a).next ≠ 0 := by
    rw [han]; exact hc2.1
  have han1 : (setFree (setFree st.mem a true) b true a).next = b := han
  generalize hMf : (mergeNext (setFree (setFree st.mem a true) b true) a).1 = Mf at h1 h2 hwfF
  have hsize : (Mf a).size = toI64 ((st.mem a).size + ((headerSize : Int) + (st.mem b).size)) := by
    rw [← hMf, mergeNext_size hn0, if_pos rfl, han1]
    simp
  have helem : ∀ x, (Mf x).elemSize = (st.mem x).elemSize := by
    intro x
    rw [← hMf, mergeNext_elemSize]
    simp
  have hfree : (Mf a).free = true := by
    rw [← hMf, mergeNext_free]
    simp
  have hpre : ∀ x ∈ pre, (Mf x).size = (st.mem x).size ∧ (Mf x).free = (st.mem x).free := by
    intro x hx
    have hxa : x ≠ a := fun e =>
      (List.nodup_append.1 hnd).2.2 hx (e ▸ List.mem_cons_self _ _)
    have hxb : x ≠ b := fun e =>
      (List.nodup_append.1 hnd).2.2 hx
        (e ▸ List.mem_cons_of_mem _ (List.mem_cons_self _ _))
    rw [← hMf, mergeNext_size hn0, if_neg hxa, mergeNext_free]
    simp [hxa, hxb]
  obtain ⟨_, _, _, hchain, _, _, _, _⟩ := WF_at hwfF
  have hhead : st.blocks = pre.headD a := by
    rw [hwfF.1, headD_append_cons]
  have hnotfit : ∀ s : Int, ¬ Fits Mf s (st.mem b).elemSize a := by
    rintro s ⟨_, _, h3⟩
    rw [helem] at h3
    exact htag h3
  rw [h2, h1]
  refine ⟨rfl, hwfF, rfl, rfl, hfree, hsize, helem a, ?_, hnotfit, ?_⟩
  · intro fuel s hs hf hno
    have hno2 : ∀ x ∈ pre, ¬ Fits Mf s (st.mem a).elemSize x := by
      intro x hx hfit
      apply hno x hx
      unfold Fits at hfit ⊢
      rw [(hpre x hx).1, (hpre x hx).2, helem] at hfit
      exact hfit
    have hfit : Fits Mf s (st.mem a).elemSize a := ⟨hs, hfree, helem a⟩
    have hscan := scan_prefix_hit Mf s (st.mem a).elemSize pre a fuel 0 hchain ha0 hf hno2 hfit
    rw [← hhead] at hscan
    refine ⟨_, @malloc_of_hit { st with mem := Mf } s (st.mem a).elemSize fuel a hscan, rfl, ?_⟩
    show (setFree (split Mf a s) a false a).free = false
    rw [setFree_free, if_pos rfl]
  · intro fuel s p st3 hm htr
    obtain ⟨x, hsc, hp⟩ := @malloc_quiet_hit { st with mem := Mf } s (st.mem b).elemSize
      fuel p st3 hm htr
    have hx := (scan_hit_fits Mf s (st.mem b).elemSize x fuel st.blocks 0 hsc).1
    intro e
    rw [hp] at e
    have hxa : x = a := Nat.add_right_cancel e
    rw [hxa] at hx
    exact hnotfit s hx

/-- Witness for C11: the three used blocks of `state4` (tags 4, 8, 4); the blocks
at 1000 and 1140 are freed and leave one free block of size `100 + 40 + 200`
at 1000. -/
theorem free_pair_merged_witness :
    WF state4.mem state4.blocks ([] ++ 1000 :: 1140 :: 1380 :: []) ∧
    (state4.mem 1000).elemSize ≠ (state4.mem 1140).elemSize ∧
    _free (_free state4 (1140 + headerSize)) (1000 + headerSize) =
      _free (_free state4 (1000 + headerSize)) (1140 + headerSize) ∧
    ((_free (_free state4 (1000 + headerSize)) (1140 + headerSize)).mem 1000).size =
      toI64 ((state4.mem 1000).size + ((headerSize : Int) + (state4.mem 1140).size)) := by
  obtain ⟨h1, _, _, _, _, h6, _⟩ :=
    free_pair_merged state4 [] [] 1000 1140 1380 (by decide!) (by decide) (by decide!)
      (by decide!) (by decide!) (by simp) (by decide!)
  exact ⟨by decide!, by decide!, h1, h6⟩

/-- Counterexample to C11 as stated. In `state4` the adjacent used blocks at 1000
(tag 4) and 1140 (tag 8) are followed by the used block at 1380. After both are
freed, the block at 1000 is free with size 340 and tag 4. `_malloc(50, 4)`
returns its payload 1040, but `_malloc(50, 8)` does not reuse it: it asks the
provider for 2880 bytes and returns 1520, the old break plus `headerSize`. -/
theorem pair_not_reused_for_second_tag :
    WF state4.mem state4.blocks [1000, 1140, 1380] ∧
    snapshot [1000] (0, pairFreed) =
      { ret := 0, blocks := 1000, curbrk := 1480, trace := [],
        headers := [{ size := 340, elemSize := 4, free := true, next := 1380, prev := 0 }] } ∧
    (_malloc 9 pairFreed 50 4).map (fun r => (r.1, r.2.trace)) = some (1040, []) ∧
    (_malloc 9 pairFreed 50 8).map (snapshot [1000]) =
      some { ret := 1520, blocks := 1000, curbrk := 4360,
             trace := [Call.sbrk 0, Call.sbrk 2880],
             headers := [{ size := 340, elemSize := 4, free := true, next := 1380,
                           prev := 0 }] } := by
  decide!
end DMalloc
